import Mathlib

/-!
# Web-TowerD: map generator, RNG, grid, creeps and waves

A shallow embedding of `src/core/RNG.js`, `src/game/Config.js`,
`src/game/map/Grid.js`, `src/game/map/Generator.js`,
`src/game/entities/Creep.js`, `src/game/systems/WaveSystem.js` and the
targeting of `src/game/systems/Combat.js`, followed by theorems about the
generated grid, the generator, creeps, the wave schedule and targeting.

Conventions.
* Tile coordinates are `Int` (the source computes `c - 1`, `ROWS - 1 - c`, ...).
* 32-bit integers are `Nat` taken `% 2^32` (the unsigned bit pattern).
* A draw of the generator is the 32-bit numerator `u` of the float `u / 2^32`
  that `_mulberry32` returns (the quotient is a representable double).
  Integers of `RNG.js` are doubles: a sum, difference or product that needs
  more than 53 bits is rounded to the nearest double, ties to even
  (`roundNat53`, `roundInt53`).  `range(1) < p` is `u * den < num * 2^32` for
  `p = num / den`.
* A JavaScript array that is grown with `push` is a `List` grown with `++ [x]`,
  or a list kept last element first where the definition says so;
  a boolean matrix (`blocked`, `seen`) is the list of the tiles set to `true`.
* A `while` loop is a recursion on an iteration bound; the theorems on
  termination show that the bound is never reached.
* Numbers of `Creep.js` and `WaveSystem.js` are exact rationals; the section
  `Creep.js in binary64` repeats the movement of a creep with every operation
  rounded to a double.
-/

namespace TowerD

/-! ## Config.js -/

/-- Source: `export const COLS = 80`. -/
def COLS : Int := 80

/-- Source: `export const ROWS = 60`. -/
def ROWS : Int := 60

/-- Source: `PATH_MAX_TILES = Math.floor(COLS * 1.5)`. -/
def PATH_MAX_TILES : Nat := (COLS * 3 / 2).toNat

/-! ## RNG.js -/

/-- Source: `Math.imul`, on unsigned 32-bit patterns. -/
def imul (a b : Nat) : Nat := (a * b) % 2 ^ 32

/-- Source: `xmur3(str)()`; `str` is the list of UTF-16 code units of the seed. -/
def xmur3 (str : List Nat) : Nat :=
  let h0 := 1779033703 ^^^ (str.length % 2 ^ 32)
  let h1 := str.foldl
    (fun h ch =>
      let k := imul (h ^^^ ch) 3432918353
      ((k <<< 13) % 2 ^ 32) ||| (k >>> 19)) h0
  let h2 := imul (h1 ^^^ (h1 >>> 16)) 2246822507
  let h3 := imul (h2 ^^^ (h2 >>> 13)) 3266489909
  h3 ^^^ (h3 >>> 16)

/-- The UTF-16 code units of a string (what `charCodeAt` reads). -/
def utf16 (s : String) : List Nat :=
  s.toList.flatMap fun ch =>
    let cp := ch.toNat
    if cp < 0x10000 then [cp]
    else [0xD800 + ((cp - 0x10000) >>> 10), 0xDC00 + ((cp - 0x10000) % 0x400)]

/-- The number of times `n` is halved until it is below `2^53`, that is the
exponent of the unit in the last place of the double nearest to `n`
(`fuel` bounds the count; 1024 covers every finite double). -/
def halvings : Nat → Nat → Nat
  | 0, _ => 0
  | fuel + 1, n => if n < 2 ^ 53 then 0 else halvings fuel (n / 2) + 1

/-- The binary64 value nearest to the natural number `n`, ties to even: what a
JavaScript addition or multiplication stores when its exact result is `n`.
Numbers below `2^53` are stored exactly. -/
def roundNat53 (n : Nat) : Nat :=
  let e := halvings 1024 n
  let q := n / 2 ^ e
  let r := n % 2 ^ e
  let half := 2 ^ (e - 1)
  if r < half then q * 2 ^ e
  else if half < r then (q + 1) * 2 ^ e
  else if q % 2 = 0 then q * 2 ^ e else (q + 1) * 2 ^ e

/-- The binary64 value nearest to the integer `z`, ties to even. -/
def roundInt53 (z : Int) : Int :=
  if 0 ≤ z then (roundNat53 z.toNat : Int) else -(roundNat53 (-z).toNat : Int)

/-- Source: `class RNG`; `_state` is a JavaScript number (a double holding an
integer) that `_mulberry32` increments without reducing it. -/
structure RNG where
  state : Nat
deriving DecidableEq, Repr

/-- Source: `new RNG(seed)`. -/
def RNG.ofSeed (seed : String) : RNG := ⟨xmur3 (utf16 seed)⟩

/-- Source: `_mulberry32()`. Returns the numerator `u` of the result
`u / 4294967296` and the advanced generator. `this._state += 0x6D2B79F5` is an
addition of doubles: the sum is stored exactly while it is below `2^53` and
rounded to the nearest double from there on; `| 0` keeps the low 32 bits of
the stored sum. -/
def RNG.mulberry32 (g : RNG) : Nat × RNG :=
  let s := if g.state < 2 ^ 53 - 0x6D2B79F5 then g.state + 0x6D2B79F5
    else roundNat53 (g.state + 0x6D2B79F5)
  let t0 := s % 2 ^ 32
  let t1 := imul (t0 ^^^ (t0 >>> 15)) (t0 ||| 1)
  let t2 := t1 ^^^ ((t1 + imul (t1 ^^^ (t1 >>> 7)) (t1 ||| 61)) % 2 ^ 32)
  (t2 ^^^ (t2 >>> 14), ⟨s⟩)

/-- Source: `Math.floor(rng.range(max))` for a non-negative integer `max`
(a double): the product `(u / 2^32) * max` is rounded to 53 significant bits,
which is `roundNat53 (u * max) / 2^32`, and then floored. -/
def RNG.rangeFloor (g : RNG) (max : Nat) : Nat × RNG :=
  (roundNat53 (g.mulberry32.1 * max) / 2 ^ 32, g.mulberry32.2)

/-- Source: `int(min, maxExclusive)` for integers `min`, `maxExclusive`
(doubles): `span = maxExclusive - min` and `min + Math.floor(range(span))`
are a subtraction and an addition of doubles. -/
def RNG.int (g : RNG) (min maxExclusive : Int) : Int × RNG :=
  if maxExclusive ≤ min then (min, g)
  else (roundInt53 (min + (g.rangeFloor (roundInt53 (maxExclusive - min)).toNat).1),
    (g.rangeFloor (roundInt53 (maxExclusive - min)).toNat).2)

/-- Source: `int(n)`, the one-argument form (`maxExclusive = n`, `min = 0`). -/
def RNG.int1 (g : RNG) (n : Int) : Int × RNG := g.int 0 n

/-- Source: `chance(p)` with `p = num / den`. -/
def RNG.chance (g : RNG) (num den : Nat) : Bool × RNG :=
  if num = 0 then (false, g)
  else if den ≤ num then (true, g)
  else (decide (g.mulberry32.1 * den < num * 2 ^ 32), g.mulberry32.2)

/-- Source: `n` successive calls of `range(1)` on one instance: the numerators
of the values returned, in order. -/
def RNG.draws (g : RNG) : Nat → List Nat
  | 0 => []
  | n + 1 => g.mulberry32.1 :: g.mulberry32.2.draws n

/-- Source: the body of the loop of `shuffle` for one index `i`:
`j = this.int(i + 1); [arr[i], arr[j]] = [arr[j], arr[i]]`. -/
def shuffleStep {α : Type} (arr : List α) (i : Nat) (g : RNG) : List α × RNG :=
  let j := ((g.int1 ((i : Int) + 1)).1).toNat
  (match arr[i]?, arr[j]? with
   | some a, some b => (arr.set i b).set j a
   | _, _ => arr, (g.int1 ((i : Int) + 1)).2)

/-- Source: the loop `for (let i = arr.length - 1; i > 0; i--)` of `shuffle`,
entered with the index `i`. -/
def shuffleFrom {α : Type} : Nat → List α → RNG → List α × RNG
  | 0, arr, g => (arr, g)
  | i + 1, arr, g => shuffleFrom i (shuffleStep arr (i + 1) g).1 (shuffleStep arr (i + 1) g).2

/-- Source: `shuffle(arr)`. -/
def RNG.shuffle {α : Type} (g : RNG) (arr : List α) : List α × RNG :=
  shuffleFrom (arr.length - 1) arr g

/-! ## Grid.js -/

/-- Source: `CELL.EMPTY`. -/
def CELL.EMPTY : Nat := 0
/-- Source: `CELL.WALL`. -/
def CELL.WALL : Nat := 1
/-- Source: `CELL.PATH`. -/
def CELL.PATH : Nat := 2
/-- Source: `CELL.SPAWN`. -/
def CELL.SPAWN : Nat := 3
/-- Source: `CELL.BASE`. -/
def CELL.BASE : Nat := 4

/-- A tile coordinate `{c, r}`. -/
structure Tile where
  c : Int
  r : Int
deriving DecidableEq, Repr

/-- Source: `class Grid`. `cells` is the `Uint8Array`; `spawns` and
`spawnPrefixes` are the fields that `generateCanonicalLR` and `orientGrid`
attach (both always assign them before the grid is read). -/
structure Grid where
  cells : List Nat
  path : List Tile
  spawn : Tile
  base : Tile
  spawns : List Tile
  spawnPrefixes : List (List Tile)
deriving Repr

/-- Source: `Grid.idx`. -/
def Grid.idx (c r : Int) : Int := r * COLS + c

/-- Source: `Grid.inBounds`. -/
def Grid.inBounds (c r : Int) : Bool :=
  decide (c ≥ 0) && decide (r ≥ 0) && decide (c < COLS) && decide (r < ROWS)

/-- Source: `Grid.get` on the cell array; `none` is `undefined` (index outside
the typed array). -/
def cellsGet (cells : List Nat) (c r : Int) : Option Nat :=
  if 0 ≤ Grid.idx c r then cells[(Grid.idx c r).toNat]? else none

/-- Source: `Grid.set` on the cell array; a write outside a typed array is
ignored, and a stored value is a byte. -/
def cellsSet (cells : List Nat) (c r : Int) (v : Nat) : List Nat :=
  if 0 ≤ Grid.idx c r then cells.set (Grid.idx c r).toNat (v % 256) else cells

/-- Source: `new Grid()`. -/
def Grid.new : Grid :=
  { cells := List.replicate (COLS * ROWS).toNat 0
    path := []
    spawn := ⟨0, 0⟩
    base := ⟨COLS - 1, 0⟩
    spawns := []
    spawnPrefixes := [] }

/-- Source: `Grid.isWalkable`. -/
def Grid.isWalkable (g : Grid) (c r : Int) : Bool :=
  Grid.inBounds c r &&
    (cellsGet g.cells c r == some CELL.PATH || cellsGet g.cells c r == some CELL.SPAWN
      || cellsGet g.cells c r == some CELL.BASE)

/-- The `(c, r)` pairs visited by `for r < ROWS, for c < COLS`, in that order. -/
def allCells : List Tile :=
  (List.range ROWS.toNat).flatMap fun r => (List.range COLS.toNat).map fun c => ⟨(c : Int), (r : Int)⟩

/-! ## Generator.js -/

/-- Source: `clampi`. -/
def clampi (v lo hi : Int) : Int := if v < lo then lo else if v > hi then hi else v

/-- Source: `Math.abs(b.c - a.c) + Math.abs(b.r - a.r)`. -/
def manhattan (a b : Tile) : Nat := (b.c - a.c).natAbs + (b.r - a.r).natAbs

/-- Source: the `while` loop of `carveSegment`; returns the tiles it pushes.
Each iteration takes one unit step, so `manhattan a b` iterations end it. -/
def carveWalk (horizFirst : Bool) (b : Tile) : Nat → Tile → List Tile
  | 0, _ => []
  | fuel + 1, cur =>
    if cur.c ≠ b.c ∨ cur.r ≠ b.r then
      if horizFirst then
        if cur.c ≠ b.c then
          ⟨cur.c + Int.sign (b.c - cur.c), cur.r⟩ ::
            carveWalk horizFirst b fuel ⟨cur.c + Int.sign (b.c - cur.c), cur.r⟩
        else if cur.r ≠ b.r then
          ⟨cur.c, cur.r + Int.sign (b.r - cur.r)⟩ ::
            carveWalk horizFirst b fuel ⟨cur.c, cur.r + Int.sign (b.r - cur.r)⟩
        else carveWalk horizFirst b fuel cur
      else
        if cur.r ≠ b.r then
          ⟨cur.c, cur.r + Int.sign (b.r - cur.r)⟩ ::
            carveWalk horizFirst b fuel ⟨cur.c, cur.r + Int.sign (b.r - cur.r)⟩
        else if cur.c ≠ b.c then
          ⟨cur.c + Int.sign (b.c - cur.c), cur.r⟩ ::
            carveWalk horizFirst b fuel ⟨cur.c + Int.sign (b.c - cur.c), cur.r⟩
        else carveWalk horizFirst b fuel cur
    else []

/-- Source: the first two lines of `carveSegment` (push `a` unless it is
already the last tile). The array `out` is kept last tile first. -/
def pushStart (outRev : List Tile) (a : Tile) : List Tile :=
  match outRev with
  | last :: _ => if last.c ≠ a.c ∨ last.r ≠ a.r then a :: outRev else outRev
  | [] => [a]

/-- Source: `carveSegment(out, a, b, rng)`, with `out` kept last tile first. -/
def carveSegment (outRev : List Tile) (a b : Tile) (g : RNG) : List Tile × RNG :=
  ((carveWalk (g.chance 1 2).1 b (manhattan a b) a).reverse ++ pushStart outRev a,
    (g.chance 1 2).2)

/-- Source: `Math.sign(dc) || 1`. -/
def signOr1 (d : Int) : Int := if Int.sign d = 0 then 1 else Int.sign d

/-- Source: `carveSegmentWithOptionalArena(out, a, b, rng)`, with `out` kept
last tile first. -/
def carveSegmentWithOptionalArena (outRev : List Tile) (a b : Tile) (g : RNG) :
    List Tile × RNG :=
  let len : Int := |b.c - a.c| + |b.r - a.r|
  let want := if len ≥ 8 then g.chance 7 20 else (false, g)
  if !want.1 then carveSegment outRev a b want.2
  else
    let dc := b.c - a.c
    let dr := b.r - a.r
    let horizFavored : Bool := decide (|dc| ≥ |dr|)
    let j : Tile := ⟨a.c + (if horizFavored then Int.sign dc else 0),
                     a.r + (if horizFavored then 0 else Int.sign dr)⟩
    let s0 := carveSegment outRev a j want.2
    let dirX := signOr1 dc
    let upSpace := j.r - 1
    let downSpace := ROWS - 2 - j.r
    let dirY : Int := if downSpace ≥ upSpace then 1 else -1
    if horizFavored then
      let maxForward := if dirX > 0 then COLS - 2 - j.c else j.c - 1
      let maxVert := if dirY > 0 then ROWS - 2 - j.r else j.r - 1
      let dw := s0.2.int1 6
      let w := clampi (5 + dw.1) 3 maxForward
      let dh := dw.2.int1 4
      let h := clampi (3 + dh.1) 2 maxVert
      if w < 2 ∨ h < 2 then carveSegment s0.1 j b dh.2
      else
        let A : Tile := ⟨j.c, j.r + dirY * h⟩
        let B : Tile := ⟨j.c + dirX * w, j.r + dirY * h⟩
        let C : Tile := ⟨j.c + dirX * w, j.r⟩
        let s1 := carveSegment s0.1 j A dh.2
        let s2 := carveSegment s1.1 A B s1.2
        let s3 := carveSegment s2.1 B C s2.2
        carveSegment s3.1 C b s3.2
    else
      let maxForward := if dirY > 0 then ROWS - 2 - j.r else j.r - 1
      let maxHoriz := if dirX > 0 then COLS - 2 - j.c else j.c - 1
      let dw := s0.2.int1 4
      let w := clampi (3 + dw.1) 2 maxHoriz
      let dh := dw.2.int1 6
      let h := clampi (5 + dh.1) 3 maxForward
      if w < 2 ∨ h < 2 then carveSegment s0.1 j b dh.2
      else
        let A : Tile := ⟨j.c + dirX * w, j.r⟩
        let B : Tile := ⟨j.c + dirX * w, j.r + dirY * h⟩
        let C : Tile := ⟨j.c, j.r + dirY * h⟩
        let s1 := carveSegment s0.1 j A dh.2
        let s2 := carveSegment s1.1 A B s1.2
        let s3 := carveSegment s2.1 B C s2.2
        carveSegment s3.1 C b s3.2

/-- Source: the inner `while` of `sanitizePath` and the loop of `simpleSegment`:
unit steps from `cur` to `b`, columns first; returns the tiles visited after
`cur`. -/
def walkTo (b : Tile) : Nat → Tile → List Tile
  | 0, _ => []
  | fuel + 1, cur =>
    if cur.c ≠ b.c ∨ cur.r ≠ b.r then
      if cur.c ≠ b.c then
        ⟨cur.c + Int.sign (b.c - cur.c), cur.r⟩ ::
          walkTo b fuel ⟨cur.c + Int.sign (b.c - cur.c), cur.r⟩
      else
        ⟨cur.c, cur.r + Int.sign (b.r - cur.r)⟩ ::
          walkTo b fuel ⟨cur.c, cur.r + Int.sign (b.r - cur.r)⟩
    else []

/-- Source: `simpleSegment(a, b)`. -/
def simpleSegment (a b : Tile) : List Tile := a :: walkTo b (manhattan a b) a

/-- Source: `pushUnique` of `sanitizePath`; `out` is kept last tile first. -/
def pushUnique (outRev : List Tile) (t : Tile) : List Tile :=
  match outRev with
  | last :: _ => if last.c ≠ t.c ∨ last.r ≠ t.r then t :: outRev else outRev
  | [] => [t]

/-- Source: the first loop of `sanitizePath` (`for i = 1 ..`), one input tile
per step: re-walk from the last output tile to `b`. -/
def rewalk (outRev : List Tile) (b : Tile) : List Tile :=
  match outRev with
  | a :: _ => (walkTo b (manhattan a b) a).foldl pushUnique outRev
  | [] => outRev

/-- Source: the second loop of `sanitizePath` ("remove immediate backtracks"),
one tile per step; `out2` is kept last tile first, so `prev` is its head and
`prev2` the tile after it. -/
def dropBacktrack (out2Rev : List Tile) (cur : Tile) : List Tile :=
  match out2Rev with
  | _ :: prev2 :: rest =>
    if prev2.c = cur.c ∧ prev2.r = cur.r then cur :: prev2 :: rest else cur :: out2Rev
  | _ => cur :: out2Rev

/-- Source: `sanitizePath(path)`. -/
def sanitizePath (path : List Tile) : List Tile :=
  match path with
  | [] => []
  | p0 :: rest =>
    (((rest.foldl rewalk (pushUnique [] p0)).reverse).foldl dropBacktrack []).reverse

/-- Source: `Math.round(i * step)` with `step = (len - 1) / (maxLen - 1)`,
computed exactly: `floor(i * (len - 1) / (maxLen - 1) + 1/2)`. For
`maxLen - 1 = 119` (odd) no product is within `1/238` of a half-integer, so
the double computation rounds to the same index. -/
def sampleIndex (len maxLen i : Nat) : Nat :=
  (2 * i * (len - 1) + (maxLen - 1)) / (2 * (maxLen - 1))

/-- Source: the array `keep` of `limitPathLength` (for `maxLen ≥ 2`). -/
def keepTiles (path : List Tile) (maxLen : Nat) : List Tile :=
  path.head?.toList
    ++ ((List.range (maxLen - 2)).map fun k =>
          path.getD (sampleIndex path.length maxLen (k + 1)) ⟨0, 0⟩)
    ++ path.getLast?.toList

/-- Source: `limitPathLength(path, maxLen)`. -/
def limitPathLength (path : List Tile) (maxLen : Nat) : List Tile :=
  if path.length ≤ maxLen then path
  else if maxLen = 0 then sanitizePath path.head?.toList
  else if maxLen = 1 then sanitizePath path.getLast?.toList
  else sanitizePath (keepTiles path maxLen)

/-- Source: `rotateCR(c, r, orient)`; `orient & 3` is `orient % 4`. -/
def rotateCR (c r : Int) (orient : Int) : Tile :=
  match orient % 4 with
  | 0 => ⟨c, r⟩
  | 1 => ⟨COLS - 1 - r, c⟩
  | 2 => ⟨COLS - 1 - c, ROWS - 1 - r⟩
  | 3 => ⟨r, ROWS - 1 - c⟩
  | _ => ⟨c, r⟩

/-- Source: the body of `for (const n of nb)` in `buildBufferMaskFromPath`:
skip a neighbour outside the grid, block it unless it is the merge tile. -/
def maskAdd (merge : Tile) (blocked : List Tile) (n : Tile) : List Tile :=
  if n.c < 0 ∨ n.r < 0 ∨ n.c ≥ COLS ∨ n.r ≥ ROWS then blocked
  else if ¬ (n.c = merge.c ∧ n.r = merge.r) then n :: blocked else blocked

/-- Source: the body of `for (const p of path)` in `buildBufferMaskFromPath`:
block the path tile unless it is the merge tile, then its four neighbours. -/
def maskStep (merge : Tile) (blocked : List Tile) (p : Tile) : List Tile :=
  ([⟨p.c + 1, p.r⟩, ⟨p.c - 1, p.r⟩, ⟨p.c, p.r + 1⟩, ⟨p.c, p.r - 1⟩] : List Tile).foldl
    (maskAdd merge) (if ¬ (p.c = merge.c ∧ p.r = merge.r) then p :: blocked else blocked)

/-- Source: `buildBufferMaskFromPath(path, merge)`: the tiles whose entry of
`blocked` is set to `true`, most recent first. -/
def buildBufferMaskFromPath (path : List Tile) (merge : Tile) : List Tile :=
  path.foldl (maskStep merge) []

/-- Source: `inb` of `bfsManhattanAvoiding`. -/
def inb (c r : Int) : Bool :=
  decide (c ≥ 0) && decide (r ≥ 0) && decide (c < COLS) && decide (r < ROWS)

/-- Source: `allow` of `bfsManhattanAvoiding`. -/
def allow (goal : Tile) (blocked : List Tile) (c r : Int) : Bool :=
  inb c r && (!blocked.contains ⟨c, r⟩ || (decide (c = goal.c) && decide (r = goal.r)))

/-- The mutable state of the BFS: the queue, the tiles marked `seen`, and the
`prev` links as (tile, predecessor) pairs. -/
structure BfsState where
  q : List Tile
  seen : List Tile
  prev : List (Tile × Tile)

/-- Source: the body of `for (const [dx, dy] of dirs)`. -/
def bfsVisit (goal : Tile) (blocked : List Tile) (cur : Tile) (st : BfsState) (d : Int × Int) :
    BfsState :=
  if !allow goal blocked (cur.c + d.1) (cur.r + d.2)
      || st.seen.contains ⟨cur.c + d.1, cur.r + d.2⟩ then st
  else
    { q := st.q ++ [⟨cur.c + d.1, cur.r + d.2⟩]
      seen := ⟨cur.c + d.1, cur.r + d.2⟩ :: st.seen
      prev := (⟨cur.c + d.1, cur.r + d.2⟩, cur) :: st.prev }

/-- Source: `dirs`. -/
def dirs : List (Int × Int) := [(1, 0), (-1, 0), (0, 1), (0, -1)]

/-- Source: the reconstruction loop `while (node) ...` (before `reverse`). -/
def reconstruct (prev : List (Tile × Tile)) : Nat → Tile → List Tile
  | 0, _ => []
  | fuel + 1, node =>
    node :: (match prev.lookup node with
             | some p => reconstruct prev fuel p
             | none => [])

/-- Source: the `while (q.length)` loop of `bfsManhattanAvoiding`. The outer
`none` means the fuel ran out; `some none` is the `return null` after the loop. -/
def bfsLoop (goal : Tile) (blocked : List Tile) : Nat → BfsState → Option (Option (List Tile))
  | 0, _ => none
  | fuel + 1, st =>
    match st.q with
    | [] => some none
    | cur :: rest =>
      if cur.c = goal.c ∧ cur.r = goal.r then
        some (some (reconstruct st.prev (COLS * ROWS).toNat cur).reverse)
      else
        bfsLoop goal blocked fuel (dirs.foldl (bfsVisit goal blocked cur) { st with q := rest })

/-- Source: `bfsManhattanAvoiding(start, goal, blocked)`; `none` is `null`.
Every tile enters the queue at most once, so `COLS * ROWS + 1` iterations
always suffice. -/
def bfsManhattanAvoiding (start goal : Tile) (blocked : List Tile) : Option (List Tile) :=
  if !allow goal blocked start.c start.r then none
  else
    (bfsLoop goal blocked ((COLS * ROWS).toNat + 1)
      { q := [start], seen := [start], prev := [] }).getD none

/-- Source: the `while (tries-- && usedRows.has(jr))` loop of
`buildSplitEntrancesBuffered`. -/
def dedupRow (usedRows : List Int) : Nat → Int → RNG → Int × RNG
  | 0, jr, g => (jr, g)
  | tries + 1, jr, g =>
    if usedRows.contains jr then
      dedupRow usedRows tries
        (clampi (jr + (if (g.chance 1 2).1 then 1 else -1) * (1 + ((g.chance 1 2).2.int1 2).1))
          1 (ROWS - 2))
        ((g.chance 1 2).2.int1 2).2
    else (jr, g)

/-- The values that `buildSplitEntrancesBuffered` returns or mutates. -/
structure SplitState where
  spawns : List Tile
  prefixes : List (List Tile)
  cells : List Nat
  usedRows : List Int
  rng : RNG

/-- Source: `feeder && feeder.length ? feeder : simpleSegment(s, merge)`. -/
def feederPath (s merge : Tile) (blocked : List Tile) : List Tile :=
  match bfsManhattanAvoiding s merge blocked with
  | some feeder => if feeder.length ≠ 0 then feeder else simpleSegment s merge
  | none => simpleSegment s merge

/-- Source: one iteration of `for (let k = 0; k < extra; k++)`. -/
def extraSpawn (merge : Tile) (blocked : List Tile) (st : SplitState) : SplitState :=
  let d1 := st.rng.chance 1 2
  let d2 := d1.2.int1 3
  let jr0 := clampi (merge.r + (if d1.1 then 1 else -1) * (2 + d2.1)) 1 (ROWS - 2)
  let dd := dedupRow st.usedRows 8 jr0 d2.2
  let s : Tile := ⟨0, dd.1⟩
  let fp := feederPath s merge blocked
  { spawns := st.spawns ++ [s]
    prefixes := st.prefixes ++ [fp]
    cells := cellsSet (fp.foldl (fun cs p => cellsSet cs p.c p.r CELL.PATH) st.cells) s.c s.r CELL.SPAWN
    usedRows := st.usedRows ++ [dd.1]
    rng := dd.2 }

/-- Source: `rng.chance(0.25) ? 2 : (rng.chance(0.5) ? 1 : 0)`. -/
def drawExtra (g : RNG) : Nat × RNG :=
  if (g.chance 1 4).1 then (2, (g.chance 1 4).2)
  else if ((g.chance 1 4).2.chance 1 2).1 then (1, ((g.chance 1 4).2.chance 1 2).2)
  else (0, ((g.chance 1 4).2.chance 1 2).2)

/-- Source: `rng.chance(0.25) ? 2 : (rng.chance(0.5) ? 1 : 0)` as a function of
the numerators `u1`, `u2` of the two draws it may read (`u / 2^32 < 0.25` is
`u * 4 < 2^32`, `u / 2^32 < 0.5` is `u * 2 < 2^32`). -/
def extraOfDraws (u1 u2 : Nat) : Nat :=
  if u1 * 4 < 1 * 2 ^ 32 then 2 else if u2 * 2 < 1 * 2 ^ 32 then 1 else 0

/-- Source: `buildSplitEntrancesBuffered(grid, path, rng)`. -/
def buildSplitEntrancesBuffered (cells : List Nat) (path : List Tile) (g : RNG) : SplitState :=
  let primary : Tile := ⟨0, (path.head?.map Tile.r).getD 1⟩
  let st0 : SplitState :=
    { spawns := [primary], prefixes := [[]], cells := cells, usedRows := [primary.r], rng := g }
  if path.length < 8 then st0
  else
    let ex := drawExtra g
    if ex.1 = 0 then { st0 with rng := ex.2 }
    else
      let iLo : Int := 3
      let iHi : Int := min 14 ((path.length : Int) - 4)
      let dm := ex.2.int1 (max 1 (iHi - iLo))
      let mergeIdx := clampi (iLo + dm.1) 2 ((path.length : Int) - 3)
      let merge := path.getD mergeIdx.toNat ⟨0, 0⟩
      let blocked := buildBufferMaskFromPath path merge
      Nat.iterate (extraSpawn merge blocked) ex.1 { st0 with rng := dm.2 }

/-- Source: the `while (c < COLS - 4)` loop of `generateCanonicalLR`; `c` grows
by at least 8 per iteration. -/
def columnsLoop : Nat → Int → RNG → List Int × RNG
  | 0, _, g => ([], g)
  | fuel + 1, c, g =>
    if c < COLS - 4 then
      (c :: (columnsLoop fuel (c + (8 + (g.int1 7).1)) (g.int1 7).2).1,
        (columnsLoop fuel (c + (8 + (g.int1 7).1)) (g.int1 7).2).2)
    else ([], g)

/-- Source: the `for (const wc of columns)` loop of `generateCanonicalLR`. -/
def waypointsLoop : List Int → Int → RNG → List Tile × RNG
  | [], _, g => ([], g)
  | wc :: rest, lastRow, g =>
    let maxStep : Int := max 2 (ROWS / 4)
    let dd := g.chance 1 2
    let ds := dd.2.int1 maxStep
    let nextRow := clampi (lastRow + (if dd.1 then 1 else -1) * (3 + ds.1)) 1 (ROWS - 2)
    (⟨wc, nextRow⟩ :: (waypointsLoop rest nextRow ds.2).1, (waypointsLoop rest nextRow ds.2).2)

/-- Source: the loop `for i < nodes.length - 1` of `generateCanonicalLR`; the
array `path` it fills is kept last tile first. -/
def carveAll : List Tile → List Tile → RNG → List Tile × RNG
  | a :: b :: rest, outRev, g =>
    carveAll (b :: rest) (carveSegmentWithOptionalArena outRev a b g).1
      (carveSegmentWithOptionalArena outRev a b g).2
  | _, outRev, g => (outRev, g)

/-- Source: `for (const p of path) g.set(p.c, p.r, CELL.PATH)`. -/
def stampPath (cells : List Nat) (path : List Tile) : List Nat :=
  path.foldl (fun cs p => cellsSet cs p.c p.r CELL.PATH) cells

/-- The route part of `generateCanonicalLR`: spawn, base, the sanitized path
and the generator after carving. -/
structure CanonRoute where
  spawn : Tile
  base : Tile
  path : List Tile
  rng : RNG

/-- Source: `generateCanonicalLR(rng)`, from `const spawnR = ...` to
`path = sanitizePath(path)`. -/
def canonRoute (g : RNG) : CanonRoute :=
  let d1 := g.rangeFloor ROWS.toNat
  let spawnR := clampi d1.1 1 (ROWS - 2)
  let d2 := d1.2.rangeFloor ROWS.toNat
  let baseR := clampi d2.1 1 (ROWS - 2)
  let spawn : Tile := ⟨0, spawnR⟩
  let base : Tile := ⟨COLS - 1, baseR⟩
  let d3 := d2.2.int1 3
  let cols := columnsLoop COLS.toNat (3 + d3.1) d3.2
  let wps := waypointsLoop cols.1 spawn.r cols.2
  let carved := carveAll ([spawn] ++ wps.1 ++ [base]) [] wps.2
  { spawn := spawn, base := base, path := sanitizePath carved.1.reverse, rng := carved.2 }

/-- Source: `new Grid(COLS, ROWS)` followed by the loop
`g.set(c, r, CELL.EMPTY)` over all cells, at the start of `generateCanonicalLR`. -/
def emptyCells : List Nat :=
  allCells.foldl (fun cs t => cellsSet cs t.c t.r CELL.EMPTY) Grid.new.cells

/-- Source: the three stamping lines of `generateCanonicalLR` (path, spawn,
base) on the emptied cell array. -/
def canonCells (rt : CanonRoute) : List Nat :=
  cellsSet (cellsSet (stampPath emptyCells rt.path) rt.spawn.c rt.spawn.r CELL.SPAWN)
    rt.base.c rt.base.r CELL.BASE

/-- Source: `generateCanonicalLR(rng)`. -/
def generateCanonicalLR (g : RNG) : Grid × RNG :=
  ({ cells := (buildSplitEntrancesBuffered (canonCells (canonRoute g)) (canonRoute g).path
        (canonRoute g).rng).cells
     path := (canonRoute g).path
     spawn := (buildSplitEntrancesBuffered (canonCells (canonRoute g)) (canonRoute g).path
        (canonRoute g).rng).spawns.headD ⟨0, 0⟩
     base := (canonRoute g).base
     spawns := (buildSplitEntrancesBuffered (canonCells (canonRoute g)) (canonRoute g).path
        (canonRoute g).rng).spawns
     spawnPrefixes := (buildSplitEntrancesBuffered (canonCells (canonRoute g))
        (canonRoute g).path (canonRoute g).rng).prefixes },
    (buildSplitEntrancesBuffered (canonCells (canonRoute g)) (canonRoute g).path
      (canonRoute g).rng).rng)

/-- Source: the body of the copy loop of `orientGrid`. -/
def copyCell (canon : List Nat) (orient : Int) (cells : List Nat) (t : Tile) : List Nat :=
  match cellsGet canon t.c t.r with
  | some cell =>
    if cell = CELL.EMPTY then cells
    else cellsSet cells (rotateCR t.c t.r orient).c (rotateCR t.c t.r orient).r cell
  | none => cellsSet cells (rotateCR t.c t.r orient).c (rotateCR t.c t.r orient).r 0

/-- Source: `while (g.spawnPrefixes.length < g.spawns.length) g.spawnPrefixes.push([])`. -/
def padPrefixes (prefixes : List (List Tile)) (n : Nat) : List (List Tile) :=
  prefixes ++ List.replicate (n - prefixes.length) []

/-- Source: `orientGrid(canon, orient)`. -/
def orientGrid (canon : Grid) (orient : Int) : Grid :=
  let g0 := Grid.new
  let cells1 := allCells.foldl (copyCell canon.cells orient) g0.cells
  let rot := fun (p : Tile) => rotateCR p.c p.r orient
  let spawn := rot canon.spawn
  let base := rot canon.base
  let path := canon.path.map rot
  let spawns := canon.spawns.map rot
  let prefixes := canon.spawnPrefixes.map fun arr => arr.map rot
  let cells2 := stampPath cells1 path
  let cells3 := spawns.foldl (fun cs s => cellsSet cs s.c s.r CELL.SPAWN) cells2
  let cells4 := cellsSet cells3 base.c base.r CELL.BASE
  let spawns' := if spawns.length = 0 then [spawn] else spawns
  { cells := cells4
    path := path
    spawn := spawn
    base := base
    spawns := spawns'
    spawnPrefixes := padPrefixes prefixes spawns'.length }

/-- Source: the restamp loop of `generateGrid`
(`if (canon.get(c, r) === CELL.PATH) canon.set(c, r, CELL.EMPTY)`). -/
def clearPath (cells : List Nat) : List Nat :=
  allCells.foldl
    (fun cs t => if cellsGet cs t.c t.r = some CELL.PATH then cellsSet cs t.c t.r CELL.EMPTY else cs)
    cells

/-- Source: the `if (... canon.path.length > PATH_MAX_TILES)` block of
`generateGrid`. -/
def trimCanon (canon : Grid) : Grid :=
  if canon.path.length > PATH_MAX_TILES then
    let path := limitPathLength canon.path PATH_MAX_TILES
    { canon with
      path := path
      cells := cellsSet (cellsSet (stampPath (clearPath canon.cells) path)
        canon.spawn.c canon.spawn.r CELL.SPAWN) canon.base.c canon.base.r CELL.BASE }
  else canon

/-- Source: `generateGrid(seed)` from the generator state after `new RNG(seed)`. -/
def generateGridFrom (g : RNG) : Grid :=
  orientGrid (trimCanon (generateCanonicalLR g).1) ((generateCanonicalLR g).2.int1 4).1

/-- Source: `generateGrid(seed)`. -/
def generateGrid (seed : String) : Grid := generateGridFrom (RNG.ofSeed seed)

/-! ## Creep.js

JavaScript numbers in `Creep.js` and `WaveSystem.js` are modelled as exact
rationals in this section; the next section repeats `update` with rounding.
`Math.hypot` is not rational in general and is a parameter `hypot` of `update`
(on the axis-aligned displacements of a Manhattan path it is `|dx| + |dy|`). -/

/-- Source: `export const TILE = 32`. -/
def TILE : ℚ := 32

/-- A world-space point `{x, y}`. -/
structure Pt where
  x : ℚ
  y : ℚ
deriving DecidableEq

/-- Source: `Math.sign` on a number. -/
def sgn (q : ℚ) : Int := if q > 0 then 1 else if q < 0 then -1 else 0

/-- Source: `const EPS = 1e-6` in `update`. -/
def EPS : ℚ := 1 / 1000000

/-- Source: the arrival tolerance `0.001` in `update`. -/
def ARRIVE_TOL : ℚ := 1 / 1000

/-- Source: the tile centre `{ x: n.c * TILE + TILE / 2, y: n.r * TILE + TILE / 2 }`. -/
def tileCentre (n : Tile) : Pt := ⟨n.c * TILE + TILE / 2, n.r * TILE + TILE / 2⟩

/-- Source: the loop of the constructor that builds `pts`, dropping a point
equal to the last pushed one (`last = none` is the initial `NaN`). -/
def dedupPts : Option Pt → List Tile → List Pt
  | _, [] => []
  | last, n :: rest =>
    if last = some (tileCentre n) then dedupPts last rest
    else tileCentre n :: dedupPts (some (tileCentre n)) rest

/-- Source: the loop of `compressCollinear`; `a` is the last point kept and the
list holds `points[i], points[i + 1], ...`. Returns the points pushed after `a`,
the final point included. -/
def compressLoop (a : Pt) : List Pt → List Pt
  | b :: c :: rest =>
    if sgn (b.x - a.x) ≠ sgn (c.x - b.x) ∨ sgn (b.y - a.y) ≠ sgn (c.y - b.y) then
      b :: compressLoop b (c :: rest)
    else compressLoop a (c :: rest)
  | [last] => [last]
  | [] => []

/-- Source: `compressCollinear(points)`. -/
def compressCollinear (points : List Pt) : List Pt :=
  match points with
  | p0 :: b :: c :: rest => p0 :: compressLoop p0 (b :: c :: rest)
  | _ => points

/-- Source: `unitAxis(a, b)`. -/
def unitAxis (a b : Pt) : Int × Int := (sgn (b.x - a.x), sgn (b.y - a.y))

/-- Source: `class Creep` (`tilePos` mirrors `x`, `y` and is left out; `bounty`
is the field that `makeCreep` attaches). -/
structure Creep where
  maxHP : ℚ
  hp : ℚ
  alive : Bool
  points : List Pt
  x : ℚ
  y : ℚ
  idx : Nat
  baseSpeed : ℚ
  pathIndex : Nat
  slowPct : ℚ
  slowTime : ℚ
  bounty : Option Nat

/-- Source: `this.points = compressCollinear(pts); if (length === 0) push({0, 0})`. -/
def waypointsOf (path : List Tile) : List Pt :=
  if (compressCollinear (dedupPts none path)).length = 0 then [⟨0, 0⟩]
  else compressCollinear (dedupPts none path)

/-- Source: `new Creep(path, speedTilesPerSec, maxHP)`. -/
def Creep.new (path : List Tile) (speedTilesPerSec maxHP : ℚ) : Creep :=
  { maxHP := maxHP
    hp := maxHP
    alive := true
    points := waypointsOf path
    x := ((waypointsOf path).headD ⟨0, 0⟩).x
    y := ((waypointsOf path).headD ⟨0, 0⟩).y
    idx := min 1 ((waypointsOf path).length - 1)
    baseSpeed := max 0 speedTilesPerSec * TILE
    pathIndex := 0
    slowPct := 0
    slowTime := 0
    bounty := none }

/-- Source: `applySlow(pct, duration)`. -/
def Creep.applySlow (c : Creep) (pct duration : ℚ) : Creep :=
  if max 0 (min (19 / 20) pct) > c.slowPct ∨
      (max 0 (min (19 / 20) pct) = c.slowPct ∧ max 0 duration > c.slowTime) then
    { c with slowPct := max 0 (min (19 / 20) pct), slowTime := max 0 duration }
  else c

/-- Source: `currentSpeed()`. -/
def Creep.currentSpeed (c : Creep) : ℚ := c.baseSpeed * max (1 / 20) (1 - c.slowPct)

/-- Source: `takeDamage(dmg)`. -/
def Creep.takeDamage (c : Creep) (dmg : ℚ) : Creep :=
  if !c.alive then c
  else if c.hp - dmg ≤ 0 then { c with hp := c.hp - dmg, alive := false }
  else { c with hp := c.hp - dmg }

/-- Source: the slow-timer block at the start of `update`. -/
def Creep.tickSlow (c : Creep) (dt : ℚ) : Creep :=
  if c.slowTime > 0 then
    if c.slowTime - dt ≤ 0 then { c with slowTime := 0, slowPct := 0 }
    else { c with slowTime := c.slowTime - dt }
  else c

/-- How the `while` loop of `update` was left. -/
inductive LoopExit where
  /-- The `return 'reached'` inside the loop. -/
  | returned
  /-- A `break` or the loop condition becoming false. -/
  | fell
deriving DecidableEq

/-- Source: `dist = Math.hypot(tgt.x - this.x, tgt.y - this.y)`. -/
def distTo (hypot : ℚ → ℚ → ℚ) (c : Creep) (tgt : Pt) : ℚ := hypot (tgt.x - c.x) (tgt.y - c.y)

/-- Source: `step = Math.min(remaining, dist)`. -/
def stepLen (hypot : ℚ → ℚ → ℚ) (c : Creep) (tgt : Pt) (remaining : ℚ) : ℚ :=
  min remaining (distTo hypot c tgt)

/-- Source: `inv = 1 / Math.max(dist, EPS); this.x += dx * inv * step;
this.y += dy * inv * step`. -/
def movedTo (hypot : ℚ → ℚ → ℚ) (c : Creep) (tgt : Pt) (remaining : ℚ) : Creep :=
  { c with
    x := c.x + (tgt.x - c.x) * (1 / max (distTo hypot c tgt) EPS) * stepLen hypot c tgt remaining
    y := c.y + (tgt.y - c.y) * (1 / max (distTo hypot c tgt) EPS) * stepLen hypot c tgt remaining }

/-- Source: `Math.abs(this.x - tgt.x) <= 0.001 && Math.abs(this.y - tgt.y) <= 0.001`. -/
def arrivedAt (c : Creep) (tgt : Pt) : Prop :=
  |c.x - tgt.x| ≤ ARRIVE_TOL ∧ |c.y - tgt.y| ≤ ARRIVE_TOL

instance (c : Creep) (tgt : Pt) : Decidable (arrivedAt c tgt) :=
  inferInstanceAs (Decidable (_ ∧ _))

/-- Source: `this.idx++; this.pathIndex = this.idx`. -/
def advance (c : Creep) : Creep := { c with idx := c.idx + 1, pathIndex := c.idx + 1 }

/-- Source: `prev = this.points[this.idx - 1] ?? this.points[this.idx]`, where
`tgt` is `this.points[this.idx]`. -/
def prevPoint (c : Creep) (tgt : Pt) : Pt :=
  if c.idx = 0 then tgt else (c.points[c.idx - 1]?).getD tgt

/-- Source: the `while (remaining > 0 && this.idx < this.points.length)` loop
of `update`; each iteration that does not leave the loop increments `idx`, so
`points.length + 1` iterations always suffice. -/
def moveLoop (hypot : ℚ → ℚ → ℚ) : Nat → Creep → ℚ → Creep × LoopExit
  | 0, c, _ => (c, LoopExit.fell)
  | fuel + 1, c, remaining =>
    if remaining > 0 ∧ c.idx < c.points.length then
      match c.points[c.idx]? with
      | none => (c, LoopExit.fell)
      | some tgt =>
        if distTo hypot c tgt ≤ EPS then moveLoop hypot fuel (advance c) remaining
        else if arrivedAt (movedTo hypot c tgt remaining) tgt then
          match c.points[c.idx + 1]? with
          | some next =>
            if unitAxis (prevPoint c tgt) tgt ≠ unitAxis tgt next then
              (advance (movedTo hypot c tgt remaining), LoopExit.fell)
            else
              moveLoop hypot fuel (advance (movedTo hypot c tgt remaining))
                (remaining - stepLen hypot c tgt remaining)
          | none => (advance (movedTo hypot c tgt remaining), LoopExit.returned)
        else (movedTo hypot c tgt remaining, LoopExit.fell)
    else (c, LoopExit.fell)

/-- Source: `update(dt)`; the Boolean is `true` when it returns `'reached'`. -/
def Creep.update (hypot : ℚ → ℚ → ℚ) (c : Creep) (dt : ℚ) : Creep × Bool :=
  if !c.alive then (c, false)
  else if (c.tickSlow dt).idx ≥ (c.tickSlow dt).points.length then (c.tickSlow dt, true)
  else
    match moveLoop hypot ((c.tickSlow dt).points.length + 1) (c.tickSlow dt)
        ((c.tickSlow dt).currentSpeed * dt) with
    | (c1, LoopExit.returned) => (c1, true)
    | (c1, LoopExit.fell) =>
      if c1.idx ≥ c1.points.length then
        ({ c1 with x := (c1.points.getLast?.getD ⟨c1.x, c1.y⟩).x,
                   y := (c1.points.getLast?.getD ⟨c1.x, c1.y⟩).y }, true)
      else (c1, false)

/-- The creep states that the constructor, `applySlow`, `takeDamage` and
`update` can produce. -/
inductive Creep.Reachable (hypot : ℚ → ℚ → ℚ) : Creep → Prop where
  | new (path : List Tile) (speed maxHP : ℚ) : Creep.Reachable hypot (Creep.new path speed maxHP)
  | applySlow (c : Creep) (pct duration : ℚ) :
      Creep.Reachable hypot c → Creep.Reachable hypot (c.applySlow pct duration)
  | takeDamage (c : Creep) (dmg : ℚ) :
      Creep.Reachable hypot c → Creep.Reachable hypot (c.takeDamage dmg)
  | update (c : Creep) (dt : ℚ) :
      Creep.Reachable hypot c → Creep.Reachable hypot (c.update hypot dt).1

/-! ## Creep.js in binary64

The definitions of this section repeat `currentSpeed`, the slow timer and
`update` of `Creep.js` with a rounding `rd` applied to the result of every
addition, subtraction, multiplication and division and to every decimal
constant, in the order in which the source evaluates them. With the identity
for `rd` they are the exact definitions above; with `round64` they are the
arithmetic of the source. Comparisons, `Math.min`, `Math.max`, `Math.abs` and
`Math.sign` are exact, and so are the tile centres. -/

/-- The integer with at most 53 significant bits nearest to `n / d`, ties to
even (`d > 0`). -/
def roundRatio (n d : Nat) : Nat :=
  let e := halvings 4096 (n / d)
  let q := n / (d * 2 ^ e)
  let r := n % (d * 2 ^ e)
  if 2 * r < d * 2 ^ e then q * 2 ^ e
  else if d * 2 ^ e < 2 * r then (q + 1) * 2 ^ e
  else if q % 2 = 0 then q * 2 ^ e else (q + 1) * 2 ^ e

/-- The binary64 value nearest to the rational `q`, ties to even: a multiple
of `2^-1074` with at most 53 significant bits (overflow to infinity is not
modelled). -/
def round64 (q : ℚ) : ℚ :=
  if 0 ≤ q then (roundRatio (q.num.toNat * 2 ^ 1074) q.den : ℚ) / 2 ^ 1074
  else -((roundRatio ((-q).num.toNat * 2 ^ 1074) q.den : ℚ) / 2 ^ 1074)

/-- Source: `new Creep(path, speedTilesPerSec, maxHP)`, with
`baseSpeed = Math.max(0, speedTilesPerSec) * TILE` rounded. -/
def Creep.newR (rd : ℚ → ℚ) (path : List Tile) (speedTilesPerSec maxHP : ℚ) : Creep :=
  { Creep.new path speedTilesPerSec maxHP with baseSpeed := rd (max 0 speedTilesPerSec * TILE) }

/-- Source: `currentSpeed()`: `mult = 1 - pct`, `baseSpeed * Math.max(0.05, mult)`. -/
def Creep.currentSpeedR (rd : ℚ → ℚ) (c : Creep) : ℚ :=
  rd (c.baseSpeed * max (rd (1 / 20)) (rd (1 - c.slowPct)))

/-- Source: the slow-timer block at the start of `update`. -/
def Creep.tickSlowR (rd : ℚ → ℚ) (c : Creep) (dt : ℚ) : Creep :=
  if c.slowTime > 0 then
    if rd (c.slowTime - dt) ≤ 0 then { c with slowTime := 0, slowPct := 0 }
    else { c with slowTime := rd (c.slowTime - dt) }
  else c

/-- Source: `dx = tgt.x - this.x; dy = tgt.y - this.y; dist = Math.hypot(dx, dy)`. -/
def distToR (rd : ℚ → ℚ) (hypot : ℚ → ℚ → ℚ) (c : Creep) (tgt : Pt) : ℚ :=
  hypot (rd (tgt.x - c.x)) (rd (tgt.y - c.y))

/-- Source: `step = Math.min(remaining, dist)`. -/
def stepLenR (rd : ℚ → ℚ) (hypot : ℚ → ℚ → ℚ) (c : Creep) (tgt : Pt) (remaining : ℚ) : ℚ :=
  min remaining (distToR rd hypot c tgt)

/-- Source: `inv = 1 / Math.max(dist, EPS); this.x += dx * inv * step;
this.y += dy * inv * step`. -/
def movedToR (rd : ℚ → ℚ) (hypot : ℚ → ℚ → ℚ) (c : Creep) (tgt : Pt) (remaining : ℚ) : Creep :=
  { c with
    x := rd (c.x + rd (rd (rd (tgt.x - c.x) * rd (1 / max (distToR rd hypot c tgt) (rd EPS)))
      * stepLenR rd hypot c tgt remaining))
    y := rd (c.y + rd (rd (rd (tgt.y - c.y) * rd (1 / max (distToR rd hypot c tgt) (rd EPS)))
      * stepLenR rd hypot c tgt remaining)) }

/-- Source: `Math.abs(this.x - tgt.x) <= 0.001 && Math.abs(this.y - tgt.y) <= 0.001`. -/
def arrivedAtR (rd : ℚ → ℚ) (c : Creep) (tgt : Pt) : Prop :=
  |rd (c.x - tgt.x)| ≤ rd ARRIVE_TOL ∧ |rd (c.y - tgt.y)| ≤ rd ARRIVE_TOL

instance (rd : ℚ → ℚ) (c : Creep) (tgt : Pt) : Decidable (arrivedAtR rd c tgt) :=
  inferInstanceAs (Decidable (_ ∧ _))

/-- Source: the `while (remaining > 0 && this.idx < this.points.length)` loop
of `update`; `points.length + 1` iterations always suffice. -/
def moveLoopR (rd : ℚ → ℚ) (hypot : ℚ → ℚ → ℚ) : Nat → Creep → ℚ → Creep × LoopExit
  | 0, c, _ => (c, LoopExit.fell)
  | fuel + 1, c, remaining =>
    if remaining > 0 ∧ c.idx < c.points.length then
      match c.points[c.idx]? with
      | none => (c, LoopExit.fell)
      | some tgt =>
        if distToR rd hypot c tgt ≤ rd EPS then moveLoopR rd hypot fuel (advance c) remaining
        else if arrivedAtR rd (movedToR rd hypot c tgt remaining) tgt then
          match c.points[c.idx + 1]? with
          | some next =>
            if unitAxis (prevPoint c tgt) tgt ≠ unitAxis tgt next then
              (advance (movedToR rd hypot c tgt remaining), LoopExit.fell)
            else
              moveLoopR rd hypot fuel (advance (movedToR rd hypot c tgt remaining))
                (rd (remaining - stepLenR rd hypot c tgt remaining))
          | none => (advance (movedToR rd hypot c tgt remaining), LoopExit.returned)
        else (movedToR rd hypot c tgt remaining, LoopExit.fell)
    else (c, LoopExit.fell)

/-- Source: `update(dt)`; the Boolean is `true` when it returns `'reached'`. -/
def Creep.updateR (rd : ℚ → ℚ) (hypot : ℚ → ℚ → ℚ) (c : Creep) (dt : ℚ) : Creep × Bool :=
  if !c.alive then (c, false)
  else if (c.tickSlowR rd dt).idx ≥ (c.tickSlowR rd dt).points.length then
    (c.tickSlowR rd dt, true)
  else
    match moveLoopR rd hypot ((c.tickSlowR rd dt).points.length + 1) (c.tickSlowR rd dt)
        (rd ((c.tickSlowR rd dt).currentSpeedR rd * dt)) with
    | (c1, LoopExit.returned) => (c1, true)
    | (c1, LoopExit.fell) =>
      if c1.idx ≥ c1.points.length then
        ({ c1 with x := (c1.points.getLast?.getD ⟨c1.x, c1.y⟩).x,
                   y := (c1.points.getLast?.getD ⟨c1.x, c1.y⟩).y }, true)
      else (c1, false)

/-! ## Properties of a generated grid -/

/-- Two tiles are 4-adjacent: their Manhattan distance is exactly 1. -/
def adjacent4 (a b : Tile) : Prop := (a.c - b.c).natAbs + (a.r - b.r).natAbs = 1

instance (a b : Tile) : Decidable (adjacent4 a b) :=
  inferInstanceAs (Decidable ((a.c - b.c).natAbs + (a.r - b.r).natAbs = 1))

/-- Every two consecutive tiles of the sequence are 4-adjacent. -/
def PathConnected (p : List Tile) : Prop :=
  ∀ (i : Nat) (a b : Tile), p[i]? = some a → p[i + 1]? = some b → adjacent4 a b

/-- The buffer property of one feeder prefix against the main path: every tile
of the prefix other than its last tile (the merge tile) has no 4-neighbour on
the path, except a neighbour that is the merge tile. -/
def KeepsBuffer (path pre : List Tile) : Prop :=
  ∀ t ∈ pre.dropLast, ∀ n ∈ path, adjacent4 t n → pre.getLast? = some n

/-- Every non-empty feeder prefix starts at its spawn and ends on the path. -/
def FeedersAttached (g : Grid) : Prop :=
  ∀ (i : Nat) (pre : List Tile), g.spawnPrefixes[i]? = some pre → pre ≠ [] →
    pre.head? = g.spawns[i]? ∧ ∃ l ∈ g.path, pre.getLast? = some l

/-- Every tile of the path and of every feeder prefix is walkable. -/
def AllWalkable (g : Grid) : Prop :=
  (∀ t ∈ g.path, g.isWalkable t.c t.r = true) ∧
    ∀ pre ∈ g.spawnPrefixes, ∀ t ∈ pre, g.isWalkable t.c t.r = true

/-! ## WaveSystem.js -/

/-- Source: a wave entry `{ type, count, interval }`. -/
structure WaveEntry where
  type : String
  count : Nat
  interval : ℚ

/-- Source: a wave definition `{ name, entries }`. -/
structure WaveDef where
  name : String
  entries : List WaveEntry

/-- Source: a queued spawn job `{ at, type, spawnIndex }`. -/
structure SpawnJob where
  fireAt : ℚ
  type : String
  spawnIndex : Int

/-- Source: `class WaveSystem`; `mainPath` is `this.grid.path`. -/
structure WaveSystem where
  mainPath : List Tile
  rng : RNG
  waves : List WaveDef
  waveIndex : Int
  waveNumber : Int
  active : Bool
  spawnTimer : ℚ
  queue : List SpawnJob
  spawnPoints : List Tile
  spawnPrefixes : List (List Tile)
  hpScale : ℚ
  spdScale : ℚ
  multiSpawnActivationWave : Int

/-- Source: `setSpawnsFromGrid(grid)`, the spawn points. -/
def spawnPointsOf (grid : Grid) : List Tile :=
  if grid.spawns.length ≠ 0 then grid.spawns else [grid.spawn]

/-- Source: `new WaveSystem(grid, rng)`. -/
def WaveSystem.new (grid : Grid) (rng : RNG) : WaveSystem :=
  { mainPath := grid.path
    rng := rng
    waves := []
    waveIndex := -1
    waveNumber := 0
    active := false
    spawnTimer := 0
    queue := []
    spawnPoints := spawnPointsOf grid
    spawnPrefixes := grid.spawnPrefixes
    hpScale := 1
    spdScale := 1
    multiSpawnActivationWave := 3 }

/-- Source: `setMultiSpawnActivationWave(n)` for an integer `n`. -/
def WaveSystem.setMultiSpawnActivationWave (ws : WaveSystem) (n : Int) : WaveSystem :=
  { ws with multiSpawnActivationWave := max 1 n }

/-- Source: `addSpawnPoint(tileC, tileR, prefix)`. -/
def WaveSystem.addSpawnPoint (ws : WaveSystem) (tileC tileR : Int) (pre : List Tile) :
    WaveSystem :=
  { ws with spawnPoints := ws.spawnPoints ++ [⟨tileC, tileR⟩]
            spawnPrefixes := ws.spawnPrefixes ++ [pre] }

/-- Source: the array `defs` of `queueDefaultSet`. -/
def defaultWaves : List WaveDef :=
  [ ⟨"Scouts", [⟨"basic", 10, 6 / 10⟩]⟩,
    ⟨"Drifters", [⟨"fast", 12, 5 / 10⟩]⟩,
    ⟨"Bulks", [⟨"tank", 8, 8 / 10⟩]⟩,
    ⟨"Mixed Bag", [⟨"basic", 8, 55 / 100⟩, ⟨"fast", 6, 55 / 100⟩]⟩,
    ⟨"Pressure", [⟨"basic", 16, 45 / 100⟩]⟩ ]

/-- Source: `queueDefaultSet()`. -/
def WaveSystem.queueDefaultSet (ws : WaveSystem) : WaveSystem :=
  { ws with waves := ws.waves ++ defaultWaves }

/-- Source: `_getActiveSpawnsCount()`. -/
def WaveSystem.getActiveSpawnsCount (ws : WaveSystem) : Int :=
  if ws.waveNumber < ws.multiSpawnActivationWave then min 1 (ws.spawnPoints.length : Int)
  else (ws.spawnPoints.length : Int)

/-- Source: `_pickSpawnIndex(i, activeSpawns)`. -/
def pickSpawnIndex (i : Nat) (activeSpawns : Int) : Int :=
  if max 1 activeSpawns > 1 then (i : Int) % max 1 activeSpawns else 0

/-- Source: `jitter = (this.rng.range(1) - 0.5) * Math.min(0.2, e.interval * 0.25)`
for the draw numerator `u`. -/
def jitterOf (u : Nat) (interval : ℚ) : ℚ :=
  ((u : ℚ) / 2 ^ 32 - 1 / 2) * min (2 / 10) (interval * (1 / 4))

/-- Source: the inner loop `for (let i = 0; i < e.count; i++)` of
`startNextWave`, entered with the index `i`, the time `t` and `n` jobs still to
create; returns the jobs pushed and the generator. -/
def entryJobs (e : WaveEntry) (activeSpawns : Int) : Nat → Nat → ℚ → RNG → List SpawnJob × RNG
  | 0, _, _, g => ([], g)
  | n + 1, i, t, g =>
    (⟨max 0 (t + jitterOf g.mulberry32.1 e.interval), e.type, pickSpawnIndex i activeSpawns⟩ ::
        (entryJobs e activeSpawns n (i + 1) (t + e.interval) g.mulberry32.2).1,
      (entryJobs e activeSpawns n (i + 1) (t + e.interval) g.mulberry32.2).2)

/-- Source: the outer loop `for (const e of def.entries)` of `startNextWave`. -/
def waveJobs (activeSpawns : Int) : List WaveEntry → RNG → List SpawnJob × RNG
  | [], g => ([], g)
  | e :: rest, g =>
    ((entryJobs e activeSpawns e.count 0 0 g).1 ++
        (waveJobs activeSpawns rest (entryJobs e activeSpawns e.count 0 0 g).2).1,
      (waveJobs activeSpawns rest (entryJobs e activeSpawns e.count 0 0 g).2).2)

/-- The order of `this._queue.sort((a, b) => a.at - b.at)`. -/
def jobLe (a b : SpawnJob) : Prop := a.fireAt ≤ b.fireAt

instance : DecidableRel jobLe := fun a b => inferInstanceAs (Decidable (a.fireAt ≤ b.fireAt))

/-- Source: `this._queue.sort((a, b) => a.at - b.at)`, a stable ascending sort. -/
def sortJobs (q : List SpawnJob) : List SpawnJob := q.insertionSort jobLe

/-- Source: `startNextWave()`; the Boolean is the value returned. -/
def WaveSystem.startNextWave (ws : WaveSystem) : WaveSystem × Bool :=
  if ws.active then (ws, false)
  else if ws.waveIndex + 1 ≥ (ws.waves.length : Int) then (ws, false)
  else
    match ws.waves[(ws.waveIndex + 1).toNat]? with
    | none => (ws, false)
    | some d =>
      ({ ws with
          waveIndex := ws.waveIndex + 1
          waveNumber := ws.waveIndex + 1 + 1
          queue := sortJobs (waveJobs
            ({ ws with waveNumber := ws.waveIndex + 1 + 1 }).getActiveSpawnsCount d.entries
            ws.rng).1
          rng := (waveJobs
            ({ ws with waveNumber := ws.waveIndex + 1 + 1 }).getActiveSpawnsCount d.entries
            ws.rng).2
          spawnTimer := 0
          active := true
          hpScale := ws.hpScale * (115 / 100)
          spdScale := ws.spdScale * (103 / 100) }, true)

/-- Source: the search `for (...) if (main[i] equals t) { idx = i; break; }`:
the first index of `t` in `main`, if any. -/
def firstIndexOf (main : List Tile) (t : Tile) : Option Nat :=
  if main.indexOf t < main.length then some (main.indexOf t) else none

/-- Source: `Math.abs(p.c - spawn.c) + Math.abs(p.r - spawn.r)`. -/
def manhattanInt (p spawn : Tile) : Int := |p.c - spawn.c| + |p.r - spawn.r|

/-- Source: the loop `if (d < best) { best = d; idx = i; }` of
`_pathAlignedToSpawn`, from the index `i` with the current `best` (`none` is
`Infinity`) and `idx`. -/
def nearestLoop (spawn : Tile) : List Tile → Nat → Option Int → Nat → Nat
  | [], _, _, idx => idx
  | p :: rest, i, best, idx =>
    match best with
    | none => nearestLoop spawn rest (i + 1) (some (manhattanInt p spawn)) i
    | some b =>
      if manhattanInt p spawn < b then nearestLoop spawn rest (i + 1) (some (manhattanInt p spawn)) i
      else nearestLoop spawn rest (i + 1) (some b) idx

/-- Source: `_pathAlignedToSpawn(spawn, spawnIdx)`, given the prefix
`this._spawnPrefixes[spawnIdx] || []`. -/
def pathAlignedToSpawn (main : List Tile) (pre : List Tile) (spawn : Tile) : List Tile :=
  if main.length = 0 then main
  else
    match pre.getLast? with
    | some merge => pre ++ main.drop ((firstIndexOf main merge).getD 0 + 1)
    | none =>
      match firstIndexOf main spawn with
      | some idx => main.drop idx
      | none => main.drop (nearestLoop spawn main 0 none 0)

/-- Source: `makeCreep(type, path, hpScale, spdScale)`. -/
def makeCreep (type : String) (path : List Tile) (hpScale spdScale : ℚ) : Creep :=
  if type = "fast" then { Creep.new path (32 / 10 * spdScale) (16 * hpScale) with bounty := some 2 }
  else if type = "tank" then
    { Creep.new path (16 / 10 * spdScale) (60 * hpScale) with bounty := some 4 }
  else { Creep.new path (22 / 10 * spdScale) (28 * hpScale) with bounty := some 3 }

/-- Source: the body of the `while` loop of `update`: the creep spawned for
one job. -/
def WaveSystem.spawnCreep (ws : WaveSystem) (job : SpawnJob) : Creep :=
  let idx := min job.spawnIndex (ws.getActiveSpawnsCount - 1)
  let spawn :=
    if 0 ≤ idx then (ws.spawnPoints[idx.toNat]?).getD (ws.spawnPoints.headD ⟨0, 0⟩)
    else ws.spawnPoints.headD ⟨0, 0⟩
  let pre := if 0 ≤ idx then (ws.spawnPrefixes[idx.toNat]?).getD [] else []
  makeCreep job.type (pathAlignedToSpawn ws.mainPath pre spawn) ws.hpScale ws.spdScale

/-- Source: the `while (this._queue.length && this._queue[0].at <= this._spawnTimer)`
loop of `update`: the jobs left in the queue and the creeps pushed. -/
def WaveSystem.drain (ws : WaveSystem) (clock : ℚ) : List SpawnJob → List SpawnJob × List Creep
  | [] => ([], [])
  | job :: rest =>
    if job.fireAt ≤ clock then
      ((ws.drain clock rest).1, ws.spawnCreep job :: (ws.drain clock rest).2)
    else (job :: rest, [])

/-- Source: `update(dt, creepsOut)`; the list holds the creeps pushed onto
`creepsOut`, in order. -/
def WaveSystem.update (ws : WaveSystem) (dt : ℚ) : WaveSystem × List Creep :=
  if !ws.active then (ws, [])
  else
    ({ ws with
        spawnTimer := ws.spawnTimer + dt
        queue := (ws.drain (ws.spawnTimer + dt) ws.queue).1
        active := if (ws.drain (ws.spawnTimer + dt) ws.queue).1.length = 0 then false else true },
      (ws.drain (ws.spawnTimer + dt) ws.queue).2)

/-- The states that the constructor and the public operations of
`WaveSystem` can produce. -/
inductive WaveSystem.Reachable : WaveSystem → Prop where
  | new (grid : Grid) (rng : RNG) : WaveSystem.Reachable (WaveSystem.new grid rng)
  | queueDefaultSet (ws : WaveSystem) :
      WaveSystem.Reachable ws → WaveSystem.Reachable ws.queueDefaultSet
  | addSpawnPoint (ws : WaveSystem) (c r : Int) (pre : List Tile) :
      WaveSystem.Reachable ws → WaveSystem.Reachable (ws.addSpawnPoint c r pre)
  | setMultiSpawnActivationWave (ws : WaveSystem) (n : Int) :
      WaveSystem.Reachable ws → WaveSystem.Reachable (ws.setMultiSpawnActivationWave n)
  | startNextWave (ws : WaveSystem) :
      WaveSystem.Reachable ws → WaveSystem.Reachable ws.startNextWave.1
  | update (ws : WaveSystem) (dt : ℚ) :
      WaveSystem.Reachable ws → WaveSystem.Reachable (ws.update dt).1

/-- Source: successive calls `update(dt)`, one for each `dt` of the list. -/
def WaveSystem.updates (ws : WaveSystem) (dts : List ℚ) : WaveSystem :=
  dts.foldl (fun w dt => (w.update dt).1) ws

/-! ## Tower.js and Combat.js

Only the targeting part of `updateCombat` is modelled. A creep's `tilePos` is
always a copy of its `x`, `y` (`Creep.js` assigns both together), so the creep
position read by `updateCombat` is `(c.x, c.y)`. -/

/-- Source: `class Tower`, the fields that `updateCombat` reads or writes. -/
structure Tower where
  x : ℚ
  y : ℚ
  range : ℚ
  cooldown : ℚ
  baseCooldown : ℚ

/-- Source: `Tower.update(dt)`. -/
def Tower.update (t : Tower) (dt : ℚ) : Tower := { t with cooldown := max 0 (t.cooldown - dt) }

/-- Source: `Tower.canFire()`. -/
def Tower.canFire (t : Tower) : Bool := decide (t.cooldown ≤ 0)

/-- Source: `Tower.fire()`. -/
def Tower.fire (t : Tower) : Tower := { t with cooldown := t.baseCooldown }

/-- Source: `dist2(ax, ay, bx, by)`. -/
def dist2 (ax ay bx b_y : ℚ) : ℚ := (ax - bx) * (ax - bx) + (ay - b_y) * (ay - b_y)

/-- Source: the body of `for (const c of creeps)` in `updateCombat`, on the
pair `(best, bestD2)` (`none` is `best = null`). -/
def targetStep (t : Tower) (best : Option (Creep × ℚ)) (c : Creep) : Option (Creep × ℚ) :=
  if !c.alive then best
  else if dist2 t.x t.y c.x c.y > t.range * t.range then best
  else
    match best with
    | none => some (c, dist2 t.x t.y c.x c.y)
    | some (b, bestD2) =>
      if c.hp < b.hp then some (c, dist2 t.x t.y c.x c.y)
      else if c.hp = b.hp then
        if c.pathIndex > b.pathIndex then some (c, dist2 t.x t.y c.x c.y)
        else if c.pathIndex = b.pathIndex ∧ dist2 t.x t.y c.x c.y < bestD2 then
          some (c, dist2 t.x t.y c.x c.y)
        else best
      else best

/-- Source: the targeting loop of `updateCombat` for one tower: the final
`best`. -/
def pickTarget (t : Tower) (creeps : List Creep) : Option Creep :=
  (creeps.foldl (targetStep t) none).map Prod.fst

/-- Source: one iteration of `for (const t of towers)` in `updateCombat`: the
tower afterwards and the target of the projectile pushed, if any. -/
def towerFire (t : Tower) (creeps : List Creep) : Tower × Option Creep :=
  if !t.canFire then (t, none)
  else
    match pickTarget t creeps with
    | some b => (t.fire, some b)
    | none => (t, none)
/-! ## Properties and sample states of creeps -/

/-- The slow slot `{pct, time}` of a creep. -/
def slowSlot (c : Creep) : ℚ × ℚ := (c.slowPct, c.slowTime)

/-- The slot update with the duration stored as given: with
`p = clamp(pct, 0, 0.95)` the slot after `applySlow(pct, duration)` is
`(p, duration)` if `p > pct0` or (`p = pct0` and `duration > time0`), and is
unchanged otherwise. -/
def SlotStoresDuration (c : Creep) (pct duration : ℚ) : Prop :=
  slowSlot (c.applySlow pct duration) =
    if max 0 (min (19 / 20) pct) > c.slowPct ∨
        (max 0 (min (19 / 20) pct) = c.slowPct ∧ duration > c.slowTime) then
      (max 0 (min (19 / 20) pct), duration)
    else slowSlot c

/-- The creep stands within the arrival tolerance of its final waypoint, in
each coordinate. -/
def nearLast (c : Creep) : Prop :=
  ∃ last, c.points.getLast? = some last ∧
    |c.x - last.x| ≤ ARRIVE_TOL ∧ |c.y - last.y| ≤ ARRIVE_TOL

/-- A creep on the waypoints (0,0), (0,2), (2,2) in world units, standing on
the first one and heading for the second, with speed 100. -/
def cornerCreep : Creep :=
  { maxHP := 1, hp := 1, alive := true, points := [⟨0, 0⟩, ⟨0, 2⟩, ⟨2, 2⟩], x := 0, y := 0,
    idx := 1, baseSpeed := 100, pathIndex := 0, slowPct := 0, slowTime := 0, bounty := none }

/-- The creep `new Creep([(1,0),(0,0),(0,1)], 2.2)` after `update(1/15)`, in
binary64: it stands left of its start (48, 16), on the way to the corner
(16, 16). -/
def cornerRun : Creep :=
  ((Creep.newR round64 [⟨1, 0⟩, ⟨0, 0⟩, ⟨0, 1⟩] (round64 (22 / 10)) 25).updateR round64
    (fun dx dy => |dx| + |dy|) (round64 (1 / 15))).1

/-- The state of `new Creep([{c:0,r:0},{c:1,r:0}], 319995/320000, 1)`: two
waypoints 32 apart and a speed of 31.9995 per second. -/
def nearCreep : Creep :=
  { maxHP := 1, hp := 1, alive := true, points := [⟨16, 16⟩, ⟨48, 16⟩], x := 16, y := 16,
    idx := 1, baseSpeed := 319995 / 10000, pathIndex := 0, slowPct := 0, slowTime := 0,
    bounty := none }

/-- The creep presets as the spec lists them, before scaling: (speed in tiles
per second, HP, bounty) for `basic`, `fast`, `tank`; an unknown type is treated
as `basic`. -/
def specPreset (type : String) : ℚ × ℚ × Nat :=
  if type = "fast" then (32 / 10, 16, 2)
  else if type = "tank" then (16 / 10, 60, 4)
  else (22 / 10, 28, 3)

/-- A fresh wave system on an empty grid with the default waves queued. -/
def sampleWaves : WaveSystem := (WaveSystem.new Grid.new ⟨0⟩).queueDefaultSet

/-- A wave system on an empty grid with two spawn points added (three in all),
the default waves queued and every spawn point active from wave 1 on. -/
def multiSpawnWaves : WaveSystem :=
  ((((WaveSystem.new Grid.new ⟨0⟩).addSpawnPoint 0 5 []).addSpawnPoint 0 9 []).queueDefaultSet
    ).setMultiSpawnActivationWave 1

/-- The default wave system after wave 1 was started, one `update` of 100
seconds spawned all of its creeps, and wave 2 was started. -/
def twoWavesStarted : WaveSystem :=
  (sampleWaves.startNextWave.1.update 100).1.startNextWave.1


/-! ## Waypoints of a creep -/

/-- The step from tile `a` to tile `b` as a vector. -/
def stepDir (a b : Tile) : Int × Int := (b.c - a.c, b.r - a.r)

/-- The tiles kept after `prev` when only direction changes and the final tile
are kept: an interior tile `b` (with predecessor `prev` and successor `c`) is
kept exactly when the step into it differs from the step out of it. -/
def cornersFrom (prev : Tile) : List Tile → List Tile
  | b :: c :: rest =>
    if stepDir prev b ≠ stepDir b c then b :: cornersFrom b (c :: rest)
    else cornersFrom b (c :: rest)
  | [last] => [last]
  | [] => []

/-- The waypoints as the spec words them: the centre of the first tile, the
centres of the interior tiles where the direction of travel changes, and the
centre of the last tile. -/
def cornerWaypoints : List Tile → List Pt
  | [] => [⟨0, 0⟩]
  | p0 :: rest => tileCentre p0 :: (cornersFrom p0 rest).map tileCentre

/-- The direction `unitAxis` of every segment between consecutive points. -/
def segmentDirs (pts : List Pt) : List (Int × Int) :=
  (pts.zip pts.tail).map fun s => unitAxis s.1 s.2

/-- One of the four axis unit vectors. -/
def IsAxisDir (d : Int × Int) : Prop := d = (1, 0) ∨ d = (-1, 0) ∨ d = (0, 1) ∨ d = (0, -1)

instance (d : Int × Int) : Decidable (IsAxisDir d) :=
  inferInstanceAs (Decidable (d = (1, 0) ∨ d = (-1, 0) ∨ d = (0, 1) ∨ d = (0, -1)))

/-! ## Properties of the feeder BFS -/

/-- The `prev` links form chains back to `start`: every link leads from a
tile first seen at that moment to a tile seen before it. -/
def PrevWF (start : Tile) : List (Tile × Tile) → Prop
  | [] => True
  | e :: rest =>
    e.1 ∉ rest.map Prod.fst ++ [start] ∧ e.2 ∈ rest.map Prod.fst ++ [start] ∧ PrevWF start rest

/-- The invariant of the BFS loop that bounds it: `seen` has no repetition and
only holds tiles of the grid, the queue only holds seen tiles, and `seen` is
`start` followed by the tiles that received a `prev` link. -/
structure BfsTermInv (start : Tile) (st : BfsState) : Prop where
  seen_nodup : st.seen.Nodup
  seen_inb : ∀ t ∈ st.seen, inb t.c t.r = true
  q_seen : ∀ t ∈ st.q, t ∈ st.seen
  seen_eq : st.seen = st.prev.map Prod.fst ++ [start]
  prev_wf : PrevWF start st.prev

/-! ## Predicates and invariants used in the proofs -/

/-- The shape of the spawn lists that `buildSplitEntrancesBuffered` keeps:
`n` extra spawns, as many prefixes as spawns, the first prefix empty. -/
structure SplitShape (st : SplitState) (n : Nat) : Prop where
  spawns_len : st.spawns.length = n + 1
  prefixes_len : st.prefixes.length = n + 1
  prefixes_head : st.prefixes.head? = some []

/-- The spawn metadata of a grid is aligned: `n` extra spawns, one prefix per
spawn, the first prefix empty, and `spawn` is the first entry of `spawns`. -/
def SpawnsAligned (gr : Grid) (n : Nat) : Prop :=
  gr.spawns.length = n + 1 ∧ gr.spawnPrefixes.length = n + 1 ∧
    gr.spawnPrefixes.head? = some [] ∧ gr.spawns.head? = some gr.spawn

/-- The pairs of draws `(u1, u2)` with `0 ≤ u1, u2 < 2^32` for which the number
of extra spawns is `k`. -/
def extraEvent (k : Nat) : Finset (Nat × Nat) :=
  (Finset.range (2 ^ 32) ×ˢ Finset.range (2 ^ 32)).filter fun p => extraOfDraws p.1 p.2 = k

/-- A tile the BFS may stand on: in bounds, and unblocked or the goal. -/
def allowedTile (goal : Tile) (blocked : List Tile) (t : Tile) : Prop :=
  allow goal blocked t.c t.r = true

/-- What the BFS keeps true of its state: queued tiles are allowed, and every
`prev` link points to an allowed tile that is not the goal. -/
structure BfsInv (goal : Tile) (blocked : List Tile) (st : BfsState) : Prop where
  q_ok : ∀ t ∈ st.q, allowedTile goal blocked t
  prev_ok : ∀ p ∈ st.prev, allowedTile goal blocked p.2 ∧ p.2 ≠ goal

/-- What one run of the movement loop keeps and how it moves the indices. -/
structure MoveKeeps (c r : Creep) : Prop where
  points : r.points = c.points
  alive : r.alive = c.alive
  baseSpeed : r.baseSpeed = c.baseSpeed
  slowPct : r.slowPct = c.slowPct
  slowTime : r.slowTime = c.slowTime
  hp : r.hp = c.hp
  maxHP : r.maxHP = c.maxHP
  idx_le : c.idx ≤ r.idx
  idx_bound : c.idx ≤ c.points.length → r.idx ≤ c.points.length
  pathIndex : (r.pathIndex = c.pathIndex ∧ r.idx = c.idx) ∨ r.pathIndex = r.idx

/-- Bounds that every reachable creep satisfies. -/
structure CreepInv (c : Creep) : Prop where
  baseSpeed_nonneg : 0 ≤ c.baseSpeed
  slowPct_nonneg : 0 ≤ c.slowPct
  slowPct_le : c.slowPct ≤ 19 / 20
  slowTime_nonneg : 0 ≤ c.slowTime
  pathIndex_le : c.pathIndex ≤ c.idx
  idx_le : c.idx ≤ c.points.length

/-- The wave counters and the compounded scales agree. -/
structure ScaleInv (ws : WaveSystem) : Prop where
  waveIndex_ge : -1 ≤ ws.waveIndex
  waveNumber_eq : ws.waveNumber = ws.waveIndex + 1
  hpScale_eq : ws.hpScale = (115 / 100) ^ ws.waveNumber.toNat
  spdScale_eq : ws.spdScale = (103 / 100) ^ ws.waveNumber.toNat
  spawnPoints_ne : ws.spawnPoints ≠ []

instance : IsTotal SpawnJob jobLe := ⟨fun a b => le_total a.fireAt b.fireAt⟩

instance : IsTrans SpawnJob jobLe := ⟨fun _ _ _ h1 h2 => le_trans h1 h2⟩

/-! ## Properties of the generator state and of the row draws -/

/-- Source: the instance after `k` calls of `_mulberry32()`. -/
def RNG.after (g : RNG) : Nat → RNG
  | 0 => g
  | k + 1 => g.mulberry32.2.after k

/-- Source: `clampi(Math.floor(rng.range(ROWS)), 1, ROWS - 2)` as a function of
the numerator `u` of the draw (`spawnR` and `baseR` of `generateCanonicalLR`). -/
def rowOfDraw (u : Nat) : Int := clampi ((u * ROWS.toNat / 2 ^ 32 : Nat) : Int) 1 (ROWS - 2)

/-- The draws `0 ≤ u < 2^32` for which the row chosen is `r`. -/
def rowEvent (r : Int) : Finset Nat := (Finset.range (2 ^ 32)).filter fun u => rowOfDraw u = r

/-! ## Properties of target selection -/

/-- The creep is within the tower's range (`d2 <= range * range`). -/
def inRange (t : Tower) (c : Creep) : Prop := dist2 t.x t.y c.x c.y ≤ t.range * t.range

/-- The creep `b` is at least as good a target as `c` in the order lowest hp,
then highest `pathIndex`, then smallest squared distance to the tower. -/
def prefers (t : Tower) (b c : Creep) : Prop :=
  b.hp < c.hp ∨ (b.hp = c.hp ∧ (b.pathIndex > c.pathIndex ∨
    (b.pathIndex = c.pathIndex ∧ dist2 t.x t.y b.x b.y ≤ dist2 t.x t.y c.x c.y)))

/-- What the targeting loop keeps true of `(best, bestD2)` after the creeps
`seen`: no candidate so far, or a living in-range creep of `seen` that is at
least as good as every living in-range creep of `seen`. -/
def TargetInv (t : Tower) (seen : List Creep) : Option (Creep × ℚ) → Prop
  | none => ∀ c ∈ seen, c.alive = true → ¬ inRange t c
  | some (b, d) =>
    d = dist2 t.x t.y b.x b.y ∧ b ∈ seen ∧ b.alive = true ∧ inRange t b ∧
      ∀ c ∈ seen, c.alive = true → inRange t c → prefers t b c

/-! ## Routes of the feeder BFS -/

/-- A route from `start` to `goal` under the mask: it begins at `start`, ends
at `goal`, consecutive tiles are 4-adjacent, and every tile is in bounds and,
unless it is the goal, unblocked. -/
def IsRoute (start goal : Tile) (blocked route : List Tile) : Prop :=
  route.head? = some start ∧ route.getLast? = some goal ∧ route.Chain' adjacent4 ∧
    ∀ t ∈ route, inb t.c t.r = true ∧ (t = goal ∨ t ∉ blocked)

/-- The tile `t` has been expanded: it is not the goal and each of its allowed
neighbours is in `seen`. -/
def Expanded (goal : Tile) (blocked seen : List Tile) (t : Tile) : Prop :=
  t ≠ goal ∧ ∀ d ∈ dirs, allow goal blocked (t.c + d.1) (t.r + d.2) = true →
    (⟨t.c + d.1, t.r + d.2⟩ : Tile) ∈ seen

/-- The invariant of the BFS loop behind its correctness: `prev` links join
adjacent tiles, `start` is seen, and every seen tile is queued or expanded. -/
structure BfsRouteInv (start goal : Tile) (blocked : List Tile) (st : BfsState) : Prop where
  prev_adj : ∀ e ∈ st.prev, adjacent4 e.2 e.1
  start_seen : start ∈ st.seen
  closed : ∀ t ∈ st.seen, t ∈ st.q ∨ Expanded goal blocked st.seen t

/-! ## Position of a creep relative to its waypoints -/

/-- The point `(x, y)` lies on the axis-aligned segment from `a` to `b`. -/
def onSegment (a b : Pt) (x y : ℚ) : Prop :=
  (a.x = b.x ∧ x = a.x ∧ min a.y b.y ≤ y ∧ y ≤ max a.y b.y) ∨
    (a.y = b.y ∧ y = a.y ∧ min a.x b.x ≤ x ∧ x ≤ max a.x b.x)

/-- The point `(x, y)` lies on the polyline through the waypoints. -/
def onPolyline (pts : List Pt) (x y : ℚ) : Prop :=
  ∃ s ∈ pts.zip pts.tail, onSegment s.1 s.2 x y

/-- The state of `new Creep([(0,0),(1,0),(1,1)], 319995/320000, 1)` after
`update(1)`: it has moved 31.9995 of the 32 units to the corner (48, 16), which
counts as arrived, and now heads for (48, 48). -/
def slideCreep : Creep :=
  { maxHP := 1, hp := 1, alive := true, points := [⟨16, 16⟩, ⟨48, 16⟩, ⟨48, 48⟩],
    x := 95999 / 2000, y := 16, idx := 2, baseSpeed := 319995 / 10000, pathIndex := 2,
    slowPct := 0, slowTime := 0, bounty := none }

/-! ## Bounds of the canonical grid -/

/-- The tile is inside the grid and off the top and bottom border rows. -/
def InBox (t : Tile) : Prop := 0 ≤ t.c ∧ t.c ≤ COLS - 1 ∧ 1 ≤ t.r ∧ t.r ≤ ROWS - 2

instance (t : Tile) : Decidable (InBox t) :=
  inferInstanceAs (Decidable (0 ≤ t.c ∧ t.c ≤ COLS - 1 ∧ 1 ≤ t.r ∧ t.r ≤ ROWS - 2))

/-- Every tile of the list is in the box. -/
def AllInBox (l : List Tile) : Prop := ∀ t ∈ l, InBox t

/-- The path, the spawns, the feeder prefixes, the spawn and the base of a grid
are all in the box. -/
def CanonInBox (gr : Grid) : Prop :=
  AllInBox gr.path ∧ AllInBox gr.spawns ∧ (∀ p ∈ gr.spawnPrefixes, AllInBox p) ∧
    InBox gr.spawn ∧ InBox gr.base

/-- The spawns and feeder prefixes collected so far are in the box. -/
def SplitInBox (st : SplitState) : Prop :=
  AllInBox st.spawns ∧ ∀ p ∈ st.prefixes, AllInBox p

/-! ## Theorems -/


/-! ## Spawn lists -/

theorem extraSpawn_shape (merge : Tile) (blocked : List Tile) (st : SplitState) (n : Nat)
    (h : SplitShape st n) : SplitShape (extraSpawn merge blocked st) (n + 1) := by
  obtain ⟨h1, h2, h3⟩ := h
  refine ⟨?_, ?_, ?_⟩
  · simp [extraSpawn, h1]
  · simp [extraSpawn, h2]
  · cases hp : st.prefixes with
    | nil => simp [hp] at h2
    | cons a l => simp [extraSpawn, hp] at h3 ⊢; exact h3

theorem iterate_extraSpawn_shape (merge : Tile) (blocked : List Tile) (k : Nat) (st : SplitState)
    (n : Nat) (h : SplitShape st n) :
    SplitShape (Nat.iterate (extraSpawn merge blocked) k st) (n + k) := by
  induction k generalizing st n with
  | zero => simpa using h
  | succ k ih =>
    have := ih (extraSpawn merge blocked st) (n + 1) (extraSpawn_shape merge blocked st n h)
    simpa [Function.iterate_succ, Nat.add_assoc, Nat.add_comm 1 k] using this

theorem drawExtra_le (g : RNG) : (drawExtra g).1 ≤ 2 := by
  unfold drawExtra
  split_ifs <;> simp

theorem buildSplit_shape (cells : List Nat) (path : List Tile) (g : RNG) :
    ∃ n, n ≤ 2 ∧ SplitShape (buildSplitEntrancesBuffered cells path g) n := by
  unfold buildSplitEntrancesBuffered
  simp only
  split_ifs with h1 h2
  · exact ⟨0, by omega, ⟨rfl, rfl, rfl⟩⟩
  · exact ⟨0, by omega, ⟨rfl, rfl, rfl⟩⟩
  · refine ⟨0 + (drawExtra g).1, by have := drawExtra_le g; omega, ?_⟩
    exact iterate_extraSpawn_shape _ _ _ _ 0 ⟨rfl, rfl, rfl⟩

theorem trimCanon_spawn (canon : Grid) : (trimCanon canon).spawn = canon.spawn := by
  unfold trimCanon; split_ifs <;> rfl

theorem trimCanon_base (canon : Grid) : (trimCanon canon).base = canon.base := by
  unfold trimCanon; split_ifs <;> rfl

theorem trimCanon_spawns (canon : Grid) : (trimCanon canon).spawns = canon.spawns := by
  unfold trimCanon; split_ifs <;> rfl

theorem trimCanon_spawnPrefixes (canon : Grid) :
    (trimCanon canon).spawnPrefixes = canon.spawnPrefixes := by
  unfold trimCanon; split_ifs <;> rfl

theorem orientGrid_path (canon : Grid) (o : Int) :
    (orientGrid canon o).path = canon.path.map fun p => rotateCR p.c p.r o := rfl

theorem orientGrid_spawn (canon : Grid) (o : Int) :
    (orientGrid canon o).spawn = rotateCR canon.spawn.c canon.spawn.r o := rfl

theorem orientGrid_base (canon : Grid) (o : Int) :
    (orientGrid canon o).base = rotateCR canon.base.c canon.base.r o := rfl

theorem orientGrid_spawns (canon : Grid) (o : Int) :
    (orientGrid canon o).spawns =
      if (canon.spawns.map fun p => rotateCR p.c p.r o).length = 0 then
        [rotateCR canon.spawn.c canon.spawn.r o]
      else canon.spawns.map fun p => rotateCR p.c p.r o := rfl

theorem orientGrid_spawnPrefixes (canon : Grid) (o : Int) :
    (orientGrid canon o).spawnPrefixes =
      padPrefixes (canon.spawnPrefixes.map fun arr => arr.map fun p => rotateCR p.c p.r o)
        (orientGrid canon o).spawns.length := rfl

theorem generateCanonicalLR_fst (g : RNG) :
    (generateCanonicalLR g).1 =
      { cells := (buildSplitEntrancesBuffered (canonCells (canonRoute g)) (canonRoute g).path
          (canonRoute g).rng).cells
        path := (canonRoute g).path
        spawn := (buildSplitEntrancesBuffered (canonCells (canonRoute g)) (canonRoute g).path
          (canonRoute g).rng).spawns.headD ⟨0, 0⟩
        base := (canonRoute g).base
        spawns := (buildSplitEntrancesBuffered (canonCells (canonRoute g)) (canonRoute g).path
          (canonRoute g).rng).spawns
        spawnPrefixes := (buildSplitEntrancesBuffered (canonCells (canonRoute g))
          (canonRoute g).path (canonRoute g).rng).prefixes } := rfl


theorem spawnsAligned_of_shape (sp : SplitState) (cells : List Nat) (path : List Tile)
    (base : Tile) (n : Nat) (h : SplitShape sp n) :
    SpawnsAligned
      { cells := cells, path := path, spawn := sp.spawns.headD ⟨0, 0⟩, base := base,
        spawns := sp.spawns, spawnPrefixes := sp.prefixes } n := by
  obtain ⟨h1, h2, h3⟩ := h
  refine ⟨h1, h2, h3, ?_⟩
  cases hs : sp.spawns with
  | nil => simp [hs] at h1
  | cons a l => simp

theorem generateCanonicalLR_aligned (g : RNG) :
    ∃ n, n ≤ 2 ∧ SpawnsAligned (generateCanonicalLR g).1 n := by
  rw [generateCanonicalLR_fst]
  obtain ⟨n, hn, h⟩ := buildSplit_shape (canonCells (canonRoute g)) (canonRoute g).path
    (canonRoute g).rng
  exact ⟨n, hn, spawnsAligned_of_shape _ _ _ _ n h⟩

theorem trimCanon_aligned (canon : Grid) (n : Nat) (h : SpawnsAligned canon n) :
    SpawnsAligned (trimCanon canon) n := by
  unfold SpawnsAligned at h ⊢
  rw [trimCanon_spawn, trimCanon_spawns, trimCanon_spawnPrefixes]
  exact h

theorem orientGrid_aligned (canon : Grid) (o : Int) (n : Nat) (h : SpawnsAligned canon n) :
    SpawnsAligned (orientGrid canon o) n := by
  obtain ⟨h1, h2, h3, h4⟩ := h
  unfold SpawnsAligned
  rw [orientGrid_spawnPrefixes, orientGrid_spawns, orientGrid_spawn]
  cases hs : canon.spawns with
  | nil => simp [hs] at h1
  | cons a l =>
    cases hp : canon.spawnPrefixes with
    | nil => simp [hp] at h2
    | cons b m =>
      simp only [hs, hp, List.length_cons, List.head?_cons, Option.some.injEq] at h1 h2 h3 h4
      subst h3 h4
      simp [padPrefixes]
      omega

theorem generateGridFrom_aligned (g : RNG) :
    ∃ n, n ≤ 2 ∧ SpawnsAligned (generateGridFrom g) n := by
  obtain ⟨n, hn, h⟩ := generateCanonicalLR_aligned g
  exact ⟨n, hn, orientGrid_aligned _ _ n (trimCanon_aligned _ n h)⟩

/-! ## Distribution of the number of extra spawns -/

theorem drawExtra_eq_extraOfDraws (g : RNG) :
    (drawExtra g).1 = extraOfDraws g.mulberry32.1 g.mulberry32.2.mulberry32.1 := by
  unfold drawExtra extraOfDraws RNG.chance
  simp only [Nat.one_ne_zero, if_false, show ¬ (4 ≤ 1) by decide, show ¬ (2 ≤ 1) by decide,
    decide_eq_true_eq]
  split_ifs <;> rfl

theorem extraEvent_two :
    extraEvent 2 = Finset.range (2 ^ 30) ×ˢ Finset.range (2 ^ 32) := by
  ext ⟨a, b⟩
  simp only [extraEvent, extraOfDraws, Finset.mem_filter, Finset.mem_product, Finset.mem_range]
  by_cases h1 : a * 4 < 1 * 2 ^ 32 <;> by_cases h2 : b * 2 < 1 * 2 ^ 32 <;>
    simp only [h1, h2, if_true, if_false] <;> norm_num at h1 h2 ⊢ <;> omega

theorem extraEvent_one :
    extraEvent 1 = Finset.Ico (2 ^ 30) (2 ^ 32) ×ˢ Finset.range (2 ^ 31) := by
  ext ⟨a, b⟩
  simp only [extraEvent, extraOfDraws, Finset.mem_filter, Finset.mem_product, Finset.mem_range,
    Finset.mem_Ico]
  by_cases h1 : a * 4 < 1 * 2 ^ 32 <;> by_cases h2 : b * 2 < 1 * 2 ^ 32 <;>
    simp only [h1, h2, if_true, if_false] <;> norm_num at h1 h2 ⊢ <;> omega

theorem extraEvent_zero :
    extraEvent 0 = Finset.Ico (2 ^ 30) (2 ^ 32) ×ˢ Finset.Ico (2 ^ 31) (2 ^ 32) := by
  ext ⟨a, b⟩
  simp only [extraEvent, extraOfDraws, Finset.mem_filter, Finset.mem_product, Finset.mem_range,
    Finset.mem_Ico]
  by_cases h1 : a * 4 < 1 * 2 ^ 32 <;> by_cases h2 : b * 2 < 1 * 2 ^ 32 <;>
    simp only [h1, h2, if_true, if_false] <;> norm_num at h1 h2 ⊢ <;> omega

theorem extraEvent_card :
    (extraEvent 0).card = 3 * 2 ^ 61 ∧ (extraEvent 1).card = 3 * 2 ^ 61 ∧
      (extraEvent 2).card = 2 ^ 62 := by
  rw [extraEvent_zero, extraEvent_one, extraEvent_two]
  simp only [Finset.card_product, Finset.card_range, Nat.card_Ico]
  norm_num

/-! ## The buffer mask and the feeder BFS -/

theorem mem_maskAdd_of_mem (merge : Tile) (bl : List Tile) (n t : Tile) (h : t ∈ bl) :
    t ∈ maskAdd merge bl n := by
  unfold maskAdd
  split_ifs <;> simp [h]

theorem mem_maskAdd_self (merge : Tile) (bl : List Tile) (n : Tile)
    (hin : inb n.c n.r = true) (hne : n ≠ merge) : n ∈ maskAdd merge bl n := by
  unfold maskAdd
  have h1 : ¬ (n.c < 0 ∨ n.r < 0 ∨ n.c ≥ COLS ∨ n.r ≥ ROWS) := by
    simp only [inb, Bool.and_eq_true, decide_eq_true_eq] at hin
    omega
  have h2 : ¬ (n.c = merge.c ∧ n.r = merge.r) := by
    rintro ⟨hc, hr⟩
    apply hne
    cases n; cases merge; simp_all
  simp [h1, h2]

theorem mem_maskStep_of_mem (merge : Tile) (bl : List Tile) (p t : Tile) (h : t ∈ bl) :
    t ∈ maskStep merge bl p := by
  unfold maskStep
  simp only [List.foldl_cons, List.foldl_nil]
  repeat apply mem_maskAdd_of_mem
  split_ifs <;> simp [h]

theorem mem_maskStep_neighbour (merge : Tile) (bl : List Tile) (p n : Tile)
    (hadj : adjacent4 n p) (hin : inb n.c n.r = true) (hne : n ≠ merge) :
    n ∈ maskStep merge bl p := by
  unfold maskStep
  simp only [List.foldl_cons, List.foldl_nil]
  have hcases : n = ⟨p.c + 1, p.r⟩ ∨ n = ⟨p.c - 1, p.r⟩ ∨ n = ⟨p.c, p.r + 1⟩ ∨
      n = ⟨p.c, p.r - 1⟩ := by
    unfold adjacent4 at hadj
    cases n with
    | mk nc nr =>
      simp only [Tile.mk.injEq]
      simp only at hadj
      omega
  rcases hcases with h | h | h | h
  · subst h
    exact mem_maskAdd_of_mem _ _ _ _ (mem_maskAdd_of_mem _ _ _ _ (mem_maskAdd_of_mem _ _ _ _
      (mem_maskAdd_self _ _ _ hin hne)))
  · subst h
    exact mem_maskAdd_of_mem _ _ _ _ (mem_maskAdd_of_mem _ _ _ _
      (mem_maskAdd_self _ _ _ hin hne))
  · subst h
    exact mem_maskAdd_of_mem _ _ _ _ (mem_maskAdd_self _ _ _ hin hne)
  · subst h
    exact mem_maskAdd_self _ _ _ hin hne

theorem mem_foldl_maskStep_of_mem (merge : Tile) (path : List Tile) (bl : List Tile) (t : Tile)
    (h : t ∈ bl) : t ∈ path.foldl (maskStep merge) bl := by
  induction path generalizing bl with
  | nil => exact h
  | cons p rest ih => exact ih _ (mem_maskStep_of_mem merge bl p t h)

theorem mem_foldl_maskStep_neighbour (merge : Tile) (path : List Tile) (bl : List Tile)
    (p n : Tile) (hp : p ∈ path) (hadj : adjacent4 n p) (hin : inb n.c n.r = true)
    (hne : n ≠ merge) : n ∈ path.foldl (maskStep merge) bl := by
  induction path generalizing bl with
  | nil => simp at hp
  | cons q rest ih =>
    rcases List.mem_cons.1 hp with h | h
    · subst h
      exact mem_foldl_maskStep_of_mem merge rest _ n (mem_maskStep_neighbour merge bl p n hadj hin hne)
    · exact ih _ h

/-- Every in-bounds tile other than the merge tile that is 4-adjacent to a path
tile is blocked by the buffer mask. -/
theorem mask_blocks_neighbours (path : List Tile) (merge p n : Tile) (hp : p ∈ path)
    (hadj : adjacent4 n p) (hin : inb n.c n.r = true) (hne : n ≠ merge) :
    n ∈ buildBufferMaskFromPath path merge :=
  mem_foldl_maskStep_neighbour merge path [] p n hp hadj hin hne

theorem bfsVisit_inv (goal : Tile) (blocked : List Tile) (cur : Tile) (st : BfsState)
    (d : Int × Int) (hcur : allowedTile goal blocked cur) (hne : cur ≠ goal)
    (h : BfsInv goal blocked st) : BfsInv goal blocked (bfsVisit goal blocked cur st d) := by
  unfold bfsVisit
  split_ifs with hc
  · exact h
  · simp only [Bool.or_eq_true, Bool.not_eq_true', not_or, Bool.not_eq_false] at hc
    refine ⟨?_, ?_⟩
    · intro t ht
      simp only [List.mem_append, List.mem_singleton] at ht
      rcases ht with ht | ht
      · exact h.q_ok t ht
      · subst ht; exact hc.1
    · intro p hp
      simp only [List.mem_cons] at hp
      rcases hp with hp | hp
      · subst hp; exact ⟨hcur, hne⟩
      · exact h.prev_ok p hp

theorem foldl_bfsVisit_inv (goal : Tile) (blocked : List Tile) (cur : Tile)
    (hcur : allowedTile goal blocked cur) (hne : cur ≠ goal) (ds : List (Int × Int))
    (st : BfsState) (h : BfsInv goal blocked st) :
    BfsInv goal blocked (ds.foldl (bfsVisit goal blocked cur) st) := by
  induction ds generalizing st with
  | nil => exact h
  | cons d rest ih => exact ih _ (bfsVisit_inv goal blocked cur st d hcur hne h)

theorem lookup_mem (prev : List (Tile × Tile)) (node p : Tile)
    (h : prev.lookup node = some p) : (node, p) ∈ prev := by
  induction prev with
  | nil => simp [List.lookup] at h
  | cons x rest ih =>
    obtain ⟨k, v⟩ := x
    by_cases hk : node = k
    · subst hk
      simp [List.lookup] at h
      simp [h]
    · have hk2 : (node == k) = false := by simpa using hk
      simp only [List.lookup, hk2] at h
      exact List.mem_cons_of_mem _ (ih h)

theorem reconstruct_spec (goal : Tile) (blocked : List Tile) (prev : List (Tile × Tile))
    (hprev : ∀ p ∈ prev, allowedTile goal blocked p.2 ∧ p.2 ≠ goal) (fuel : Nat) (node : Tile) :
    ∃ rest, reconstruct prev (fuel + 1) node = node :: rest ∧
      ∀ t ∈ rest, allowedTile goal blocked t ∧ t ≠ goal := by
  induction fuel generalizing node with
  | zero =>
    cases hl : prev.lookup node with
    | none => exact ⟨[], by simp [reconstruct, hl], by simp⟩
    | some p => exact ⟨[], by simp [reconstruct, hl], by simp⟩
  | succ fuel ih =>
    cases hl : prev.lookup node with
    | none => exact ⟨[], by simp [reconstruct, hl], by simp⟩
    | some p =>
      obtain ⟨rest, hr, hall⟩ := ih p
      refine ⟨p :: rest, ?_, ?_⟩
      · rw [reconstruct, hl]
        simp only
        rw [hr]
      · intro t ht
        rcases List.mem_cons.1 ht with ht | ht
        · subst ht; exact hprev (node, t) (lookup_mem prev node t hl)
        · exact hall t ht

theorem bfsLoop_spec (goal : Tile) (blocked : List Tile) (fuel : Nat) (st : BfsState)
    (h : BfsInv goal blocked st) (f : List Tile)
    (hf : bfsLoop goal blocked fuel st = some (some f)) :
    ∃ rest, f = rest ++ [goal] ∧ ∀ t ∈ rest, allowedTile goal blocked t ∧ t ≠ goal := by
  induction fuel generalizing st with
  | zero => simp [bfsLoop] at hf
  | succ fuel ih =>
    rw [bfsLoop] at hf
    cases hq : st.q with
    | nil => simp [hq] at hf
    | cons cur rest =>
      simp only [hq] at hf
      have hcur : allowedTile goal blocked cur := h.q_ok cur (by simp [hq])
      by_cases hg : cur.c = goal.c ∧ cur.r = goal.r
      · have hcg : cur = goal := by cases cur; cases goal; simp_all
        simp only [hg, and_self, if_true, Option.some.injEq] at hf
        have h48 : (COLS * ROWS).toNat = 4799 + 1 := by decide
        rw [h48] at hf
        obtain ⟨tl, htl, hall⟩ := reconstruct_spec goal blocked st.prev h.prev_ok 4799 cur
        rw [htl] at hf
        refine ⟨tl.reverse, ?_, ?_⟩
        · rw [← hf, ← hcg]; simp
        · intro t ht; exact hall t (List.mem_reverse.1 ht)
      · simp only [hg, if_false] at hf
        have hne : cur ≠ goal := by
          intro hh; apply hg; subst hh; exact ⟨rfl, rfl⟩
        refine ih _ (foldl_bfsVisit_inv goal blocked cur hcur hne dirs
          { q := rest, seen := st.seen, prev := st.prev } ⟨?_, h.prev_ok⟩) hf
        intro t ht
        exact h.q_ok t (by rw [hq]; exact List.mem_cons_of_mem _ ht)

/-- A path returned by `bfsManhattanAvoiding` ends at the goal, and each of
its earlier tiles is allowed and is not the goal. -/
theorem bfsManhattanAvoiding_spec (start goal : Tile) (blocked : List Tile) (f : List Tile)
    (hf : bfsManhattanAvoiding start goal blocked = some f) :
    ∃ rest, f = rest ++ [goal] ∧ ∀ t ∈ rest, allowedTile goal blocked t ∧ t ≠ goal := by
  unfold bfsManhattanAvoiding at hf
  split_ifs at hf with hs
  simp only [Bool.not_eq_true', Bool.not_eq_false] at hs
  cases hl : bfsLoop goal blocked ((COLS * ROWS).toNat + 1)
      { q := [start], seen := [start], prev := [] } with
  | none => simp [hl] at hf
  | some r =>
    simp only [hl, Option.getD_some] at hf
    subst hf
    refine bfsLoop_spec goal blocked _ _ ⟨?_, ?_⟩ f hl
    · intro t ht
      simp only [List.mem_singleton] at ht
      subst ht; exact hs
    · intro p hp; simp at hp

theorem allowedTile_unblocked (goal : Tile) (blocked : List Tile) (t : Tile)
    (h : allowedTile goal blocked t) (hne : t ≠ goal) : inb t.c t.r = true ∧ t ∉ blocked := by
  unfold allowedTile allow at h
  simp only [Bool.and_eq_true, Bool.or_eq_true, Bool.not_eq_true', decide_eq_true_eq] at h
  refine ⟨h.1, ?_⟩
  rcases h.2 with h2 | h2
  · intro hm
    have : blocked.contains t = true := by simpa using hm
    cases t; simp_all
  · exfalso; apply hne; cases t; cases goal; simp_all
/-! ## RNG -/

theorem mulberry32_lt (g : RNG) : g.mulberry32.1 < 2 ^ 32 := by
  unfold RNG.mulberry32
  simp only
  apply Nat.xor_lt_two_pow
  · apply Nat.xor_lt_two_pow
    · exact Nat.mod_lt _ (by norm_num)
    · exact Nat.mod_lt _ (by norm_num)
  · rw [Nat.shiftRight_eq_div_pow]
    apply Nat.lt_of_le_of_lt (Nat.div_le_self _ _)
    apply Nat.xor_lt_two_pow
    · exact Nat.mod_lt _ (by norm_num)
    · exact Nat.mod_lt _ (by norm_num)

theorem halvings_le (fuel n : Nat) :
    halvings fuel n = 0 ∨ 2 ^ (halvings fuel n + 52) ≤ n := by
  induction fuel generalizing n with
  | zero => left; rfl
  | succ f ih =>
    rw [halvings]
    split_ifs with h
    · left; rfl
    · right
      rcases ih (n / 2) with h0 | h1
      · rw [h0]
        simpa using h
      · have : 2 ^ (halvings f (n / 2) + 52) * 2 ≤ n :=
          le_trans (Nat.mul_le_mul_right 2 h1) (Nat.div_mul_le_self n 2)
        calc 2 ^ (halvings f (n / 2) + 1 + 52) = 2 ^ (halvings f (n / 2) + 52) * 2 := by ring
          _ ≤ n := this

theorem halvings_of_lt (fuel n : Nat) (h : n < 2 ^ 53) : halvings fuel n = 0 := by
  cases fuel with
  | zero => rfl
  | succ f => rw [halvings, if_pos h]

theorem roundNat53_of_lt (n : Nat) (h : n < 2 ^ 53) : roundNat53 n = n := by
  unfold roundNat53
  simp [halvings_of_lt 1024 n h, Nat.mod_one]

theorem roundNat53_pow53 : roundNat53 (2 ^ 53) = 2 ^ 53 := by decide!

theorem roundNat53_of_le (n : Nat) (h : n ≤ 2 ^ 53) : roundNat53 n = n := by
  rcases Nat.lt_or_ge n (2 ^ 53) with h1 | h1
  · exact roundNat53_of_lt n h1
  · have : n = 2 ^ 53 := le_antisymm h h1
    rw [this]
    exact roundNat53_pow53

/-- Rounding to a double moves a natural number up by at most half a unit in
the last place. -/
theorem roundNat53_le (n : Nat) : roundNat53 n ≤ n + n / 2 ^ 53 := by
  unfold roundNat53
  simp only
  generalize he : halvings 1024 n = e
  have hdm := Nat.div_add_mod n (2 ^ e)
  have hq : n / 2 ^ e * 2 ^ e ≤ n := Nat.div_mul_le_self n (2 ^ e)
  rcases Nat.eq_zero_or_pos e with h0 | hpos
  · subst h0
    simp [Nat.mod_one]
  · have h52 : 2 ^ (e + 52) ≤ n := by
      rcases halvings_le 1024 n with h | h
      · omega
      · rwa [he] at h
    have hhalf : 2 ^ (e - 1) ≤ n / 2 ^ 53 := by
      rw [Nat.le_div_iff_mul_le (by positivity)]
      calc 2 ^ (e - 1) * 2 ^ 53 = 2 ^ (e + 52) := by
            rw [← pow_add]
            congr 1
            omega
        _ ≤ n := h52
    have hup : ∀ (_ : 2 ^ (e - 1) ≤ n % 2 ^ e),
        (n / 2 ^ e + 1) * 2 ^ e ≤ n + n / 2 ^ 53 := by
      intro hr
      have h2 : 2 ^ e = 2 ^ (e - 1) + 2 ^ (e - 1) := by
        conv_lhs => rw [show e = (e - 1) + 1 by omega]
        rw [pow_succ]
        ring
      have : (n / 2 ^ e + 1) * 2 ^ e = 2 ^ e * (n / 2 ^ e) + 2 ^ e := by ring
      omega
    split_ifs with h1 h2 h3
    · omega
    · exact hup (by omega)
    · omega
    · exact hup (by omega)

theorem rangeFloor_lt (g : RNG) (n : Nat) (hn : 0 < n) : (g.rangeFloor n).1 < n := by
  unfold RNG.rangeFloor
  simp only
  rw [Nat.div_lt_iff_lt_mul (by norm_num)]
  have hu := mulberry32_lt g
  have h1 : g.mulberry32.1 * n ≤ (2 ^ 32 - 1) * n :=
    Nat.mul_le_mul_right n (by omega)
  have h2 := roundNat53_le (g.mulberry32.1 * n)
  have h3 : g.mulberry32.1 * n / 2 ^ 53 ≤ (2 ^ 32 - 1) * n / 2 ^ 53 :=
    Nat.div_le_div_right h1
  have h4 : (2 ^ 32 - 1) * n / 2 ^ 53 < n := by
    rw [Nat.div_lt_iff_lt_mul (by norm_num)]
    omega
  omega

theorem rangeFloor_exact (g : RNG) (n : Nat) (hn : n ≤ 2 ^ 21) :
    (g.rangeFloor n).1 = g.mulberry32.1 * n / 2 ^ 32 := by
  unfold RNG.rangeFloor
  simp only
  rw [roundNat53_of_lt]
  have hu := mulberry32_lt g
  calc g.mulberry32.1 * n ≤ (2 ^ 32 - 1) * 2 ^ 21 :=
        Nat.mul_le_mul (by omega) hn
    _ < 2 ^ 53 := by norm_num

theorem roundInt53_of_abs_le (z : Int) (h1 : -(2 ^ 53) ≤ z) (h2 : z ≤ 2 ^ 53) :
    roundInt53 z = z := by
  unfold roundInt53
  split_ifs with h
  · rw [roundNat53_of_le _ (by omega)]
    omega
  · rw [roundNat53_of_le _ (by omega)]
    omega

theorem roundInt53_nonneg (z : Int) (h : 0 ≤ z) : 0 ≤ roundInt53 z := by
  unfold roundInt53
  rw [if_pos h]
  exact Int.ofNat_nonneg _

/-- On the safe integers, for a span of at most `2^53`, the result of `int` is
exact and lies in `[lo, hi)`. -/
theorem int_bounds (g : RNG) (lo hi : Int) (h : lo < hi)
    (hlo : -(2 ^ 53) ≤ lo) (hhi : hi ≤ 2 ^ 53) (hspan : hi - lo ≤ 2 ^ 53) :
    lo ≤ (g.int lo hi).1 ∧ (g.int lo hi).1 < hi := by
  unfold RNG.int
  rw [if_neg (by omega)]
  simp only
  rw [roundInt53_of_abs_le (hi - lo) (by omega) hspan]
  have hpos : 0 < (hi - lo).toNat := by omega
  have := rangeFloor_lt g (hi - lo).toNat hpos
  rw [roundInt53_of_abs_le _ (by omega) (by omega)]
  omega

theorem count_set_add {α : Type} [DecidableEq α] (l : List α) (n : Nat) (h : n < l.length)
    (a x : α) :
    (l.set n a).count x + (if l[n] = x then 1 else 0) = l.count x + (if a = x then 1 else 0) := by
  have h1 : l.set n a = l.take n ++ a :: l.drop (n + 1) := List.set_eq_take_cons_drop a h
  have h2 : l = l.take n ++ l[n] :: l.drop (n + 1) := by
    conv_lhs => rw [← List.take_append_drop n l, List.drop_eq_getElem_cons h]
  rw [h1]
  conv_rhs => rw [h2]
  simp only [List.count_append, List.count_cons, beq_iff_eq]
  omega

theorem swap_perm {α : Type} (l : List α) (i j : Nat) (hi : i < l.length) (hj : j < l.length) :
    ((l.set i l[j]).set j l[i]).Perm l := by
  classical
  rw [List.perm_iff_count]
  intro x
  have hj1 : j < (l.set i l[j]).length := by simpa using hj
  have e1 := count_set_add l i hi l[j] x
  have e2 := count_set_add (l.set i l[j]) j hj1 l[i] x
  have e3 : (l.set i l[j])[j] = l[j] := by
    rw [List.getElem_set]
    split_ifs <;> rfl
  rw [e3] at e2
  omega

theorem shuffleStep_perm {α : Type} (arr : List α) (i : Nat) (g : RNG) :
    (shuffleStep arr i g).1.Perm arr := by
  unfold shuffleStep
  simp only
  cases hi : arr[i]? with
  | none => simp
  | some a =>
    cases hj : arr[((g.int1 ((i : Int) + 1)).1).toNat]? with
    | none => simp
    | some b =>
      simp only
      obtain ⟨hi1, hi2⟩ := List.getElem?_eq_some_iff.1 hi
      obtain ⟨hj1, hj2⟩ := List.getElem?_eq_some_iff.1 hj
      subst hi2 hj2
      exact swap_perm arr i _ hi1 hj1

theorem shuffleFrom_perm {α : Type} (i : Nat) (arr : List α) (g : RNG) :
    (shuffleFrom i arr g).1.Perm arr := by
  induction i generalizing arr g with
  | zero => exact List.Perm.refl _
  | succ i ih =>
    rw [shuffleFrom]
    exact (ih _ _).trans (shuffleStep_perm arr (i + 1) g)

/-! ### Termination of the loops of the generator -/

theorem int1_nonneg (g : RNG) (n : Int) : 0 ≤ (g.int1 n).1 := by
  unfold RNG.int1 RNG.int
  by_cases h : n ≤ 0
  · rw [if_pos h]
  · rw [if_neg h]
    simp only
    apply roundInt53_nonneg
    omega

theorem manhattan_step_c (cur b : Tile) (h : cur.c ≠ b.c) :
    manhattan ⟨cur.c + Int.sign (b.c - cur.c), cur.r⟩ b + 1 = manhattan cur b := by
  unfold manhattan
  simp only
  rcases lt_or_gt_of_ne h with h1 | h1
  · rw [Int.sign_eq_one_of_pos (by omega)]; omega
  · rw [Int.sign_eq_neg_one_of_neg (by omega)]; omega

theorem manhattan_step_r (cur b : Tile) (h : cur.r ≠ b.r) :
    manhattan ⟨cur.c, cur.r + Int.sign (b.r - cur.r)⟩ b + 1 = manhattan cur b := by
  unfold manhattan
  simp only
  rcases lt_or_gt_of_ne h with h1 | h1
  · rw [Int.sign_eq_one_of_pos (by omega)]; omega
  · rw [Int.sign_eq_neg_one_of_neg (by omega)]; omega

theorem manhattan_eq_zero (cur b : Tile) (h : ¬ (cur.c ≠ b.c ∨ cur.r ≠ b.r)) :
    manhattan cur b = 0 := by
  unfold manhattan
  omega

theorem walkTo_fuel (b : Tile) (n : Nat) (cur : Tile) (h : manhattan cur b ≤ n) :
    walkTo b n cur = walkTo b (manhattan cur b) cur ∧
      (cur :: walkTo b n cur).getLast? = some b := by
  induction n generalizing cur with
  | zero =>
    have h0 : manhattan cur b = 0 := by omega
    rw [h0]
    refine ⟨rfl, ?_⟩
    unfold manhattan at h0
    have hc : cur.c = b.c := by omega
    have hr : cur.r = b.r := by omega
    cases cur; cases b
    simp only at hc hr
    subst hc; subst hr
    rfl
  | succ n ih =>
    by_cases hcond : cur.c ≠ b.c ∨ cur.r ≠ b.r
    · by_cases hc : cur.c ≠ b.c
      · have hm := manhattan_step_c cur b hc
        obtain ⟨e1, e2⟩ := ih ⟨cur.c + Int.sign (b.c - cur.c), cur.r⟩ (by omega)
        rw [← hm]
        simp only [walkTo, if_pos hcond, if_pos hc]
        refine ⟨by rw [e1], ?_⟩
        rw [List.getLast?_cons_cons]
        exact e2
      · have hr : cur.r ≠ b.r := by
          rcases hcond with h1 | h1
          · exact absurd h1 hc
          · exact h1
        have hm := manhattan_step_r cur b hr
        obtain ⟨e1, e2⟩ := ih ⟨cur.c, cur.r + Int.sign (b.r - cur.r)⟩ (by omega)
        rw [← hm]
        simp only [walkTo, if_pos hcond, if_neg hc]
        refine ⟨by rw [e1], ?_⟩
        rw [List.getLast?_cons_cons]
        exact e2
    · have h0 := manhattan_eq_zero cur b hcond
      rw [h0]
      simp only [walkTo, if_neg hcond]
      refine ⟨trivial, ?_⟩
      have hc : cur.c = b.c := by omega
      have hr : cur.r = b.r := by omega
      cases cur; cases b
      simp only at hc hr
      subst hc; subst hr
      rfl

theorem carveWalk_fuel (hf : Bool) (b : Tile) (n : Nat) (cur : Tile) (h : manhattan cur b ≤ n) :
    carveWalk hf b n cur = carveWalk hf b (manhattan cur b) cur ∧
      (cur :: carveWalk hf b n cur).getLast? = some b := by
  induction n generalizing cur with
  | zero =>
    have h0 : manhattan cur b = 0 := by omega
    rw [h0]
    refine ⟨rfl, ?_⟩
    unfold manhattan at h0
    have hc : cur.c = b.c := by omega
    have hr : cur.r = b.r := by omega
    cases cur; cases b
    simp only at hc hr
    subst hc; subst hr
    rfl
  | succ n ih =>
    by_cases hcond : cur.c ≠ b.c ∨ cur.r ≠ b.r
    · have stepc : cur.c ≠ b.c →
          (⟨cur.c + Int.sign (b.c - cur.c), cur.r⟩ ::
              carveWalk hf b n ⟨cur.c + Int.sign (b.c - cur.c), cur.r⟩ =
            carveWalk hf b (manhattan cur b) cur → 
            carveWalk hf b (n + 1) cur = ⟨cur.c + Int.sign (b.c - cur.c), cur.r⟩ ::
              carveWalk hf b n ⟨cur.c + Int.sign (b.c - cur.c), cur.r⟩ →
          carveWalk hf b (n + 1) cur = carveWalk hf b (manhattan cur b) cur ∧
            (cur :: carveWalk hf b (n + 1) cur).getLast? = some b) := by
        intro hc e0 e3
        obtain ⟨_, e2⟩ := ih ⟨cur.c + Int.sign (b.c - cur.c), cur.r⟩
          (by have := manhattan_step_c cur b hc; omega)
        refine ⟨e3.trans e0, ?_⟩
        rw [e3, List.getLast?_cons_cons]
        exact e2
      have stepr : cur.r ≠ b.r →
          (⟨cur.c, cur.r + Int.sign (b.r - cur.r)⟩ ::
              carveWalk hf b n ⟨cur.c, cur.r + Int.sign (b.r - cur.r)⟩ =
            carveWalk hf b (manhattan cur b) cur → 
            carveWalk hf b (n + 1) cur = ⟨cur.c, cur.r + Int.sign (b.r - cur.r)⟩ ::
              carveWalk hf b n ⟨cur.c, cur.r + Int.sign (b.r - cur.r)⟩ →
          carveWalk hf b (n + 1) cur = carveWalk hf b (manhattan cur b) cur ∧
            (cur :: carveWalk hf b (n + 1) cur).getLast? = some b) := by
        intro hr e0 e3
        obtain ⟨_, e2⟩ := ih ⟨cur.c, cur.r + Int.sign (b.r - cur.r)⟩
          (by have := manhattan_step_r cur b hr; omega)
        refine ⟨e3.trans e0, ?_⟩
        rw [e3, List.getLast?_cons_cons]
        exact e2
      cases hf with
      | true =>
        by_cases hc : cur.c ≠ b.c
        · have hm := manhattan_step_c cur b hc
          apply stepc hc
          · rw [← hm]
            simp only [carveWalk, if_pos hcond, if_pos hc, if_true]
            rw [(ih ⟨cur.c + Int.sign (b.c - cur.c), cur.r⟩ (by omega)).1]
          · simp only [carveWalk, if_pos hcond, if_pos hc, if_true]
        · have hr : cur.r ≠ b.r := by
            rcases hcond with h1 | h1
            · exact absurd h1 hc
            · exact h1
          have hm := manhattan_step_r cur b hr
          apply stepr hr
          · rw [← hm]
            simp only [carveWalk, if_pos hcond, if_neg hc, if_pos hr, if_true]
            rw [(ih ⟨cur.c, cur.r + Int.sign (b.r - cur.r)⟩ (by omega)).1]
          · simp only [carveWalk, if_pos hcond, if_neg hc, if_pos hr, if_true]
      | false =>
        by_cases hr : cur.r ≠ b.r
        · have hm := manhattan_step_r cur b hr
          apply stepr hr
          · rw [← hm]
            simp only [carveWalk, if_pos hcond, if_pos hr, Bool.false_eq_true, if_false]
            rw [(ih ⟨cur.c, cur.r + Int.sign (b.r - cur.r)⟩ (by omega)).1]
          · simp only [carveWalk, if_pos hcond, if_pos hr, Bool.false_eq_true, if_false]
        · have hc : cur.c ≠ b.c := by
            rcases hcond with h1 | h1
            · exact h1
            · exact absurd h1 hr
          have hm := manhattan_step_c cur b hc
          apply stepc hc
          · rw [← hm]
            simp only [carveWalk, if_pos hcond, if_neg hr, if_pos hc, Bool.false_eq_true, if_false]
            rw [(ih ⟨cur.c + Int.sign (b.c - cur.c), cur.r⟩ (by omega)).1]
          · simp only [carveWalk, if_pos hcond, if_neg hr, if_pos hc, Bool.false_eq_true, if_false]
    · have h0 := manhattan_eq_zero cur b hcond
      rw [h0]
      simp only [carveWalk, if_neg hcond]
      refine ⟨trivial, ?_⟩
      have hc : cur.c = b.c := by omega
      have hr : cur.r = b.r := by omega
      cases cur; cases b
      simp only at hc hr
      subst hc; subst hr
      rfl

theorem columnsLoop_fuel (n : Nat) (c : Int) (g : RNG) (h : (COLS - 4 - c).toNat ≤ n)
    (extra : Nat) : columnsLoop (n + extra) c g = columnsLoop n c g := by
  induction n generalizing c g with
  | zero =>
    have hc : ¬ c < COLS - 4 := by omega
    cases extra with
    | zero => rfl
    | succ e =>
      rw [Nat.zero_add]
      simp only [columnsLoop, if_neg hc]
  | succ n ih =>
    rw [Nat.add_right_comm]
    by_cases hc : c < COLS - 4
    · have h8 := int1_nonneg g 7
      have := ih (c + (8 + (g.int1 7).1)) (g.int1 7).2 (by omega)
      simp only [columnsLoop, if_pos hc, this]
    · simp only [columnsLoop, if_neg hc]

theorem length_flatMap_range (m n : Nat) (f : Nat → List Tile) (hf : ∀ r, (f r).length = m) :
    ((List.range n).flatMap f).length = n * m := by
  induction n with
  | zero => simp
  | succ n ih =>
    rw [List.range_succ, List.flatMap_append, List.length_append, ih]
    simp only [List.flatMap_cons, List.flatMap_nil, List.append_nil, hf]
    rw [Nat.succ_mul]

theorem length_castList (l : List Nat) : (l.flatMap fun a => [(a : Int)]).length = l.length := by
  induction l with
  | nil => rfl
  | cons a l ih => simp [List.flatMap_cons, ih]

theorem allCells_length : allCells.length = (COLS * ROWS).toNat := by
  unfold allCells
  rw [length_flatMap_range COLS.toNat ROWS.toNat _ (fun r => by
    rw [List.length_map]
    exact (length_castList _).trans (List.length_range _))]
  decide

theorem mem_allCells (t : Tile) (h : inb t.c t.r = true) : t ∈ allCells := by
  simp only [inb, COLS, ROWS, Bool.and_eq_true, decide_eq_true_eq] at h
  obtain ⟨⟨⟨h1, h2⟩, h3⟩, h4⟩ := h
  unfold allCells
  rw [List.mem_flatMap]
  refine ⟨t.r.toNat, List.mem_range.2 (by show t.r.toNat < 60; omega), ?_⟩
  rw [List.mem_map]
  refine ⟨t.c, ?_, ?_⟩
  · show t.c ∈ (List.range COLS.toNat).flatMap (fun a => [(a : Int)])
    rw [List.mem_flatMap]
    exact ⟨t.c.toNat, List.mem_range.2 (by show t.c.toNat < 80; omega),
      by simp [Int.toNat_of_nonneg h1]⟩
  · rw [Int.toNat_of_nonneg h2]

theorem seen_length_le (seen : List Tile) (hn : seen.Nodup)
    (hin : ∀ t ∈ seen, inb t.c t.r = true) : seen.length ≤ (COLS * ROWS).toNat := by
  rw [← allCells_length]
  exact (List.subperm_of_subset hn (fun t ht => mem_allCells t (hin t ht))).length_le

theorem bfsVisit_term (start goal : Tile) (blocked : List Tile) (cur : Tile) (st : BfsState)
    (d : Int × Int) (h : BfsTermInv start st) (hcur : cur ∈ st.seen) :
    BfsTermInv start (bfsVisit goal blocked cur st d) ∧
      cur ∈ (bfsVisit goal blocked cur st d).seen ∧
      (bfsVisit goal blocked cur st d).q.length + st.seen.length
        = st.q.length + (bfsVisit goal blocked cur st d).seen.length := by
  unfold bfsVisit
  split_ifs with hc
  · exact ⟨h, hcur, rfl⟩
  · simp only [Bool.or_eq_true, Bool.not_eq_true', not_or, Bool.not_eq_false] at hc
    obtain ⟨ha, hs⟩ := hc
    have hns : (⟨cur.c + d.1, cur.r + d.2⟩ : Tile) ∉ st.seen := by
      intro hm
      have hcon : st.seen.contains ⟨cur.c + d.1, cur.r + d.2⟩ = true := by simpa using hm
      rw [hcon] at hs
      exact absurd hs (by decide)
    have hinb : inb (cur.c + d.1) (cur.r + d.2) = true := by
      unfold allow at ha
      simp only [Bool.and_eq_true] at ha
      exact ha.1
    refine ⟨⟨?_, ?_, ?_, ?_, ?_⟩, List.mem_cons_of_mem _ hcur, ?_⟩
    · exact List.nodup_cons.2 ⟨hns, h.seen_nodup⟩
    · intro t ht
      rcases List.mem_cons.1 ht with ht | ht
      · rw [ht]; exact hinb
      · exact h.seen_inb t ht
    · intro t ht
      simp only [List.mem_append, List.mem_singleton] at ht
      rcases ht with ht | ht
      · exact List.mem_cons_of_mem _ (h.q_seen t ht)
      · rw [ht]; exact List.mem_cons_self _ _
    · show _ :: st.seen = _
      rw [h.seen_eq]; rfl
    · refine ⟨?_, ?_, h.prev_wf⟩
      · show _ ∉ st.prev.map Prod.fst ++ [start]
        rw [← h.seen_eq]; exact hns
      · show cur ∈ st.prev.map Prod.fst ++ [start]
        rw [← h.seen_eq]; exact hcur
    · simp only [List.length_append, List.length_cons, List.length_nil]
      omega

theorem foldl_bfsVisit_term (start goal : Tile) (blocked : List Tile) (cur : Tile)
    (ds : List (Int × Int)) (st : BfsState) (h : BfsTermInv start st) (hcur : cur ∈ st.seen) :
    BfsTermInv start (ds.foldl (bfsVisit goal blocked cur) st) ∧
      (ds.foldl (bfsVisit goal blocked cur) st).q.length + st.seen.length
        = st.q.length + (ds.foldl (bfsVisit goal blocked cur) st).seen.length := by
  induction ds generalizing st with
  | nil => exact ⟨h, rfl⟩
  | cons d ds ih =>
    obtain ⟨h1, h2, h3⟩ := bfsVisit_term start goal blocked cur st d h hcur
    obtain ⟨h4, h5⟩ := ih (bfsVisit goal blocked cur st d) h1 h2
    rw [List.foldl_cons]
    exact ⟨h4, by omega⟩

theorem prevWF_mem (start : Tile) (prev : List (Tile × Tile)) (h : PrevWF start prev)
    (e : Tile × Tile) (he : e ∈ prev) : e.2 ∈ prev.map Prod.fst ++ [start] := by
  induction prev with
  | nil => simp at he
  | cons x rest ih =>
    obtain ⟨_, h2, h3⟩ := h
    rcases List.mem_cons.1 he with he | he
    · rw [he, List.map_cons, List.cons_append]
      exact List.mem_cons_of_mem _ h2
    · rw [List.map_cons, List.cons_append]
      exact List.mem_cons_of_mem _ (ih h3 he)

theorem lookup_cons_ne (t p node : Tile) (rest : List (Tile × Tile)) (h : node ≠ t) :
    ((t, p) :: rest).lookup node = rest.lookup node := by
  rw [List.lookup_cons]
  have : (node == t) = false := by simpa using h
  rw [this]

theorem reconstruct_cons (start t p : Tile) (rest : List (Tile × Tile))
    (hwf : PrevWF start rest) (ht : t ∉ rest.map Prod.fst ++ [start]) (fuel : Nat) (node : Tile)
    (hnode : node ∈ rest.map Prod.fst ++ [start]) :
    reconstruct ((t, p) :: rest) fuel node = reconstruct rest fuel node := by
  induction fuel generalizing node with
  | zero => rfl
  | succ fuel ih =>
    have hne : node ≠ t := fun e => ht (e ▸ hnode)
    rw [reconstruct, reconstruct, lookup_cons_ne t p node rest hne]
    cases hl : rest.lookup node with
    | none => rfl
    | some p2 =>
      simp only
      rw [ih p2 (prevWF_mem start rest hwf (node, p2) (lookup_mem rest node p2 hl))]

theorem reconstruct_reaches_start (start : Tile) (prev : List (Tile × Tile))
    (hwf : PrevWF start prev) (fuel : Nat) (hfuel : prev.length + 1 ≤ fuel) (node : Tile)
    (hnode : node ∈ prev.map Prod.fst ++ [start]) :
    (reconstruct prev fuel node).getLast? = some start := by
  induction prev generalizing fuel node with
  | nil =>
    simp only [List.map_nil, List.nil_append, List.mem_singleton] at hnode
    subst hnode
    obtain ⟨k, rfl⟩ : ∃ k, fuel = k + 1 := ⟨fuel - 1, by omega⟩
    simp [reconstruct]
  | cons e rest ih =>
    obtain ⟨t, p⟩ := e
    obtain ⟨h1, h2, h3⟩ := hwf
    simp only at h1 h2
    rw [List.length_cons] at hfuel
    by_cases hnt : node = t
    · subst hnt
      obtain ⟨k, rfl⟩ : ∃ k, fuel = k + 1 := ⟨fuel - 1, by omega⟩
      have hl : ((node, p) :: rest).lookup node = some p := by
        rw [List.lookup_cons]; simp
      rw [reconstruct, hl]
      simp only
      rw [reconstruct_cons start node p rest h3 h1 k p h2]
      have := ih h3 k (by omega) p h2
      obtain ⟨k2, rfl⟩ : ∃ k2, k = k2 + 1 := ⟨k - 1, by omega⟩
      rw [reconstruct] at this ⊢
      rw [List.getLast?_cons_cons]
      exact this
    · have hn2 : node ∈ rest.map Prod.fst ++ [start] := by
        rw [List.map_cons, List.cons_append] at hnode
        rcases List.mem_cons.1 hnode with h | h
        · exact absurd h hnt
        · exact h
      rw [reconstruct_cons start t p rest h3 h1 fuel node hn2]
      exact ih h3 fuel (by omega) node hn2

theorem bfsLoop_terminates (start goal : Tile) (blocked : List Tile) (fuel : Nat)
    (st : BfsState) (h : BfsTermInv start st)
    (hfuel : st.q.length + ((COLS * ROWS).toNat - st.seen.length) < fuel) :
    ∃ r, bfsLoop goal blocked fuel st = some r ∧ ∀ f, r = some f → f.head? = some start := by
  induction fuel generalizing st with
  | zero => omega
  | succ fuel ih =>
    have hlen := seen_length_le st.seen h.seen_nodup h.seen_inb
    rw [bfsLoop]
    cases hq : st.q with
    | nil => exact ⟨none, rfl, by simp⟩
    | cons cur rest =>
      simp only
      have hcur : cur ∈ st.seen := h.q_seen cur (by rw [hq]; exact List.mem_cons_self _ _)
      split_ifs with hg
      · refine ⟨_, rfl, ?_⟩
        intro f hf
        rw [← Option.some.inj hf, List.head?_reverse]
        apply reconstruct_reaches_start start st.prev h.prev_wf
        · have : st.seen.length = st.prev.length + 1 := by
            rw [h.seen_eq]; simp
          omega
        · rw [← h.seen_eq]; exact hcur
      · have hinv : BfsTermInv start { q := rest, seen := st.seen, prev := st.prev } :=
          ⟨h.seen_nodup, h.seen_inb,
            fun t ht => h.q_seen t (by rw [hq]; exact List.mem_cons_of_mem _ ht),
            h.seen_eq, h.prev_wf⟩
        obtain ⟨h1, h2⟩ := foldl_bfsVisit_term start goal blocked cur dirs
          { q := rest, seen := st.seen, prev := st.prev } hinv hcur
        have hlen2 := seen_length_le _ h1.seen_nodup h1.seen_inb
        apply ih _ h1
        rw [hq] at hfuel
        simp only [List.length_cons] at hfuel h2
        omega

theorem bfsManhattanAvoiding_terminates (start goal : Tile) (blocked : List Tile)
    (ha : allow goal blocked start.c start.r = true) :
    ∃ r, bfsLoop goal blocked ((COLS * ROWS).toNat + 1) { q := [start], seen := [start], prev := [] }
        = some r ∧ bfsManhattanAvoiding start goal blocked = r ∧
      ∀ f, r = some f → f.head? = some start := by
  have hinb : inb start.c start.r = true := by
    unfold allow at ha
    simp only [Bool.and_eq_true] at ha
    exact ha.1
  obtain ⟨r, h1, h2⟩ := bfsLoop_terminates start goal blocked ((COLS * ROWS).toNat + 1)
    { q := [start], seen := [start], prev := [] }
    ⟨List.nodup_singleton _, by
        intro t ht
        rw [List.mem_singleton.1 ht]; exact hinb,
      fun t ht => ht, rfl, trivial⟩
    (by simp [COLS, ROWS])
  refine ⟨r, h1, ?_, h2⟩
  unfold bfsManhattanAvoiding
  rw [h1, ha]
  simp

theorem cellsSet_length (cells : List Nat) (c r : Int) (v : Nat) :
    (cellsSet cells c r v).length = cells.length := by
  unfold cellsSet
  split_ifs
  · exact List.length_set _ _ _
  · rfl

theorem foldl_cells_length {α : Type} (f : List Nat → α → List Nat)
    (hf : ∀ cs a, (f cs a).length = cs.length) (l : List α) (cells : List Nat) :
    (l.foldl f cells).length = cells.length := by
  induction l generalizing cells with
  | nil => rfl
  | cons a l ih => rw [List.foldl_cons, ih, hf]

theorem copyCell_length (canon : List Nat) (orient : Int) (cells : List Nat) (t : Tile) :
    (copyCell canon orient cells t).length = cells.length := by
  unfold copyCell
  split
  · split_ifs
    · rfl
    · exact cellsSet_length _ _ _ _
  · exact cellsSet_length _ _ _ _

theorem orientGrid_cells_length (canon : Grid) (orient : Int) :
    (orientGrid canon orient).cells.length = (COLS * ROWS).toNat := by
  unfold orientGrid
  simp only
  rw [cellsSet_length, foldl_cells_length _ (fun cs s => cellsSet_length cs _ _ _), stampPath,
    foldl_cells_length _ (fun cs s => cellsSet_length cs _ _ _),
    foldl_cells_length _ (copyCell_length _ _)]
  exact List.length_replicate _ _

theorem generateGridFrom_cells_length (g : RNG) :
    (generateGridFrom g).cells.length = (COLS * ROWS).toNat :=
  orientGrid_cells_length _ _
/-! ## Creep -/

theorem MoveKeeps.refl (c : Creep) : MoveKeeps c c :=
  ⟨rfl, rfl, rfl, rfl, rfl, rfl, rfl, Nat.le_refl _, fun h => h, Or.inl ⟨rfl, rfl⟩⟩

theorem MoveKeeps.trans {a b c : Creep} (h1 : MoveKeeps a b) (h2 : MoveKeeps b c) :
    MoveKeeps a c := by
  refine ⟨h2.points.trans h1.points, h2.alive.trans h1.alive, h2.baseSpeed.trans h1.baseSpeed,
    h2.slowPct.trans h1.slowPct, h2.slowTime.trans h1.slowTime, h2.hp.trans h1.hp,
    h2.maxHP.trans h1.maxHP, Nat.le_trans h1.idx_le h2.idx_le, ?_, ?_⟩
  · intro h
    have := h2.idx_bound (by rw [h1.points]; exact h1.idx_bound h)
    rwa [h1.points] at this
  · rcases h2.pathIndex with ⟨h3, h4⟩ | h3
    · rcases h1.pathIndex with ⟨h5, h6⟩ | h5
      · exact Or.inl ⟨h3.trans h5, h4.trans h6⟩
      · exact Or.inr (by rw [h3, h4, h5])
    · exact Or.inr h3

theorem moveKeeps_movedTo (hypot : ℚ → ℚ → ℚ) (c : Creep) (tgt : Pt) (remaining : ℚ) :
    MoveKeeps c (movedTo hypot c tgt remaining) :=
  ⟨rfl, rfl, rfl, rfl, rfl, rfl, rfl, Nat.le_refl _, fun h => h, Or.inl ⟨rfl, rfl⟩⟩

theorem moveKeeps_advance (c : Creep) (h : c.idx < c.points.length) : MoveKeeps c (advance c) :=
  ⟨rfl, rfl, rfl, rfl, rfl, rfl, rfl, Nat.le_succ _, fun _ => h, Or.inr rfl⟩

theorem moveKeeps_step (hypot : ℚ → ℚ → ℚ) (c : Creep) (tgt : Pt) (remaining : ℚ)
    (h : c.idx < c.points.length) : MoveKeeps c (advance (movedTo hypot c tgt remaining)) :=
  (moveKeeps_movedTo hypot c tgt remaining).trans (moveKeeps_advance _ h)

theorem moveLoop_keeps (hypot : ℚ → ℚ → ℚ) (fuel : Nat) (c : Creep) (remaining : ℚ) :
    MoveKeeps c (moveLoop hypot fuel c remaining).1 := by
  induction fuel generalizing c remaining with
  | zero => exact MoveKeeps.refl c
  | succ fuel ih =>
    rw [moveLoop]
    by_cases h1 : remaining > 0 ∧ c.idx < c.points.length
    · rw [if_pos h1]
      repeat' split
      all_goals
        first
        | exact MoveKeeps.refl c
        | exact moveKeeps_movedTo hypot c _ remaining
        | exact moveKeeps_step hypot c _ remaining h1.2
        | exact (moveKeeps_advance c h1.2).trans (ih _ _)
        | exact (moveKeeps_step hypot c _ remaining h1.2).trans (ih _ _)
    · rw [if_neg h1]
      exact MoveKeeps.refl c

theorem tickSlow_fields (c : Creep) (dt : ℚ) :
    (c.tickSlow dt).points = c.points ∧ (c.tickSlow dt).alive = c.alive ∧
      (c.tickSlow dt).baseSpeed = c.baseSpeed ∧ (c.tickSlow dt).idx = c.idx ∧
      (c.tickSlow dt).pathIndex = c.pathIndex ∧ (c.tickSlow dt).hp = c.hp ∧
      (c.tickSlow dt).x = c.x ∧ (c.tickSlow dt).y = c.y ∧ (c.tickSlow dt).maxHP = c.maxHP := by
  unfold Creep.tickSlow
  split_ifs <;> exact ⟨rfl, rfl, rfl, rfl, rfl, rfl, rfl, rfl, rfl⟩

/-- On a living creep `update` is the slow tick followed by the movement loop
(and possibly the final snap), which keep everything but position and indices. -/
theorem update_keeps (hypot : ℚ → ℚ → ℚ) (c : Creep) (dt : ℚ) (h : c.alive = true) :
    MoveKeeps (c.tickSlow dt) (c.update hypot dt).1 := by
  unfold Creep.update
  rw [h]
  simp only [Bool.not_true, Bool.false_eq_true, if_false]
  split_ifs with h1
  · exact MoveKeeps.refl _
  · have hk := moveLoop_keeps hypot ((c.tickSlow dt).points.length + 1) (c.tickSlow dt)
      ((c.tickSlow dt).currentSpeed * dt)
    generalize moveLoop hypot ((c.tickSlow dt).points.length + 1) (c.tickSlow dt)
      ((c.tickSlow dt).currentSpeed * dt) = r at hk
    obtain ⟨c1, e⟩ := r
    cases e with
    | returned => exact hk
    | fell =>
      simp only
      split_ifs with h2
      · exact ⟨hk.points, hk.alive, hk.baseSpeed, hk.slowPct, hk.slowTime, hk.hp, hk.maxHP,
          hk.idx_le, hk.idx_bound, hk.pathIndex⟩
      · exact hk

theorem update_dead (hypot : ℚ → ℚ → ℚ) (c : Creep) (dt : ℚ) (h : c.alive = false) :
    c.update hypot dt = (c, false) := by
  unfold Creep.update
  simp [h]

theorem creepInv_new (path : List Tile) (speed maxHP : ℚ) :
    CreepInv (Creep.new path speed maxHP) := by
  refine ⟨?_, ?_, ?_, ?_, ?_, ?_⟩
  · show 0 ≤ max 0 speed * TILE
    exact mul_nonneg (le_max_left _ _) (by norm_num [TILE])
  · show (0 : ℚ) ≤ 0
    exact le_refl _
  · show (0 : ℚ) ≤ 19 / 20
    norm_num
  · show (0 : ℚ) ≤ 0
    exact le_refl _
  · exact Nat.zero_le _
  · show min 1 ((waypointsOf path).length - 1) ≤ (waypointsOf path).length
    omega

theorem creepInv_applySlow (c : Creep) (pct duration : ℚ) (h : CreepInv c) :
    CreepInv (c.applySlow pct duration) := by
  unfold Creep.applySlow
  split_ifs
  · exact ⟨h.baseSpeed_nonneg, le_max_left _ _, max_le (by norm_num) (min_le_left _ _),
      le_max_left _ _, h.pathIndex_le, h.idx_le⟩
  · exact h

theorem creepInv_takeDamage (c : Creep) (dmg : ℚ) (h : CreepInv c) :
    CreepInv (c.takeDamage dmg) := by
  unfold Creep.takeDamage
  split_ifs <;> exact ⟨h.1, h.2, h.3, h.4, h.5, h.6⟩

theorem creepInv_tickSlow (c : Creep) (dt : ℚ) (h : CreepInv c) : CreepInv (c.tickSlow dt) := by
  unfold Creep.tickSlow
  split_ifs with h1 h2
  · exact ⟨h.1, le_refl _, by norm_num, le_refl _, h.5, h.6⟩
  · exact ⟨h.1, h.2, h.3, le_of_lt (not_le.1 h2), h.5, h.6⟩
  · exact h

theorem creepInv_update (hypot : ℚ → ℚ → ℚ) (c : Creep) (dt : ℚ) (h : CreepInv c) :
    CreepInv (c.update hypot dt).1 := by
  cases ha : c.alive with
  | false => rw [update_dead hypot c dt ha]; exact h
  | true =>
    have hk := update_keeps hypot c dt ha
    have ht := creepInv_tickSlow c dt h
    refine ⟨hk.baseSpeed ▸ ht.1, hk.slowPct ▸ ht.2, hk.slowPct ▸ ht.3, hk.slowTime ▸ ht.4, ?_, ?_⟩
    · rcases hk.pathIndex with ⟨h1, h2⟩ | h1
      · rw [h1, h2]; exact ht.5
      · exact le_of_eq h1
    · rw [hk.points]; exact hk.idx_bound ht.6

theorem creepInv_of_reachable (hypot : ℚ → ℚ → ℚ) (c : Creep) (h : Creep.Reachable hypot c) :
    CreepInv c := by
  induction h with
  | new path speed maxHP => exact creepInv_new path speed maxHP
  | applySlow c pct duration _ ih => exact creepInv_applySlow c pct duration ih
  | takeDamage c dmg _ ih => exact creepInv_takeDamage c dmg ih
  | update c dt _ ih => exact creepInv_update hypot c dt ih

theorem movedTo_exact (hypot : ℚ → ℚ → ℚ) (c : Creep) (tgt : Pt) (remaining : ℚ)
    (hfar : EPS < distTo hypot c tgt) (hbudget : distTo hypot c tgt ≤ remaining) :
    (movedTo hypot c tgt remaining).x = tgt.x ∧ (movedTo hypot c tgt remaining).y = tgt.y := by
  have hpos : 0 < distTo hypot c tgt := lt_trans (by norm_num [EPS]) hfar
  have hmax : max (distTo hypot c tgt) EPS = distTo hypot c tgt := max_eq_left (le_of_lt hfar)
  have hmin : min remaining (distTo hypot c tgt) = distTo hypot c tgt := min_eq_right hbudget
  have hne : distTo hypot c tgt ≠ 0 := ne_of_gt hpos
  constructor
  · show c.x + (tgt.x - c.x) * (1 / max (distTo hypot c tgt) EPS) * stepLen hypot c tgt remaining
      = tgt.x
    rw [stepLen, hmax, hmin]
    field_simp
  · show c.y + (tgt.y - c.y) * (1 / max (distTo hypot c tgt) EPS) * stepLen hypot c tgt remaining
      = tgt.y
    rw [stepLen, hmax, hmin]
    field_simp

theorem moveLoop_corner (hypot : ℚ → ℚ → ℚ) (fuel : Nat) (c : Creep) (remaining : ℚ)
    (tgt next : Pt) (htgt : c.points[c.idx]? = some tgt)
    (hnext : c.points[c.idx + 1]? = some next)
    (hcorner : unitAxis (prevPoint c tgt) tgt ≠ unitAxis tgt next)
    (hfar : EPS < distTo hypot c tgt) (hbudget : distTo hypot c tgt ≤ remaining) :
    moveLoop hypot (fuel + 1) c remaining =
      (advance (movedTo hypot c tgt remaining), LoopExit.fell) := by
  have hlt : c.idx < c.points.length := (List.getElem?_eq_some_iff.1 htgt).1
  have hrem : remaining > 0 := lt_of_lt_of_le (lt_trans (by norm_num [EPS]) hfar) hbudget
  obtain ⟨hx, hy⟩ := movedTo_exact hypot c tgt remaining hfar hbudget
  have harr : arrivedAt (movedTo hypot c tgt remaining) tgt := by
    unfold arrivedAt
    rw [hx, hy]
    norm_num [ARRIVE_TOL]
  rw [moveLoop, if_pos ⟨hrem, hlt⟩, htgt]
  simp only
  rw [if_neg (not_le.2 hfar), if_pos harr, hnext]
  simp only
  rw [if_pos hcorner]

theorem waypointsOf_two : waypointsOf [⟨0, 0⟩, ⟨1, 0⟩] = [⟨16, 16⟩, ⟨48, 16⟩] := by
  have h1 : tileCentre ⟨0, 0⟩ = ⟨16, 16⟩ := by norm_num [tileCentre, TILE]
  have h2 : tileCentre ⟨1, 0⟩ = ⟨48, 16⟩ := by norm_num [tileCentre, TILE]
  have h3 : dedupPts none [⟨0, 0⟩, ⟨1, 0⟩] = [⟨16, 16⟩, ⟨48, 16⟩] := by
    rw [dedupPts, if_neg (by simp), dedupPts, h1, h2, if_neg (by norm_num), dedupPts]
  rw [waypointsOf, h3]
  rfl

theorem nearCreep_new : Creep.new [⟨0, 0⟩, ⟨1, 0⟩] (319995 / 320000) 1 = nearCreep := by
  unfold Creep.new
  rw [waypointsOf_two]
  norm_num [nearCreep, TILE]

theorem nearCreep_update :
    nearCreep.update (fun dx dy => |dx| + |dy|) 1 =
      ({ nearCreep with x := 95999 / 2000, idx := 2, pathIndex := 2 }, true) := by
  unfold Creep.update
  have h1 : nearCreep.tickSlow 1 = nearCreep := by
    norm_num [Creep.tickSlow, nearCreep]
  rw [h1]
  norm_num [nearCreep, moveLoop, distTo, movedTo, stepLen, arrivedAt, advance, Creep.currentSpeed,
    EPS, ARRIVE_TOL, abs_le]

theorem moveLoop_returned (hypot : ℚ → ℚ → ℚ) (fuel : Nat) (c : Creep) (remaining : ℚ)
    (h : (moveLoop hypot fuel c remaining).2 = LoopExit.returned) :
    (moveLoop hypot fuel c remaining).1.idx = (moveLoop hypot fuel c remaining).1.points.length ∧
      nearLast (moveLoop hypot fuel c remaining).1 := by
  induction fuel generalizing c remaining with
  | zero => simp [moveLoop] at h
  | succ fuel ih =>
    rw [moveLoop] at h ⊢
    by_cases h1 : remaining > 0 ∧ c.idx < c.points.length
    · rw [if_pos h1] at h ⊢
      cases hp : c.points[c.idx]? with
      | none => simp [hp] at h
      | some tgt =>
        simp only [hp] at h ⊢
        by_cases h2 : distTo hypot c tgt ≤ EPS
        · rw [if_pos h2] at h ⊢
          exact ih _ _ h
        · rw [if_neg h2] at h ⊢
          by_cases h3 : arrivedAt (movedTo hypot c tgt remaining) tgt
          · rw [if_pos h3] at h ⊢
            cases hn : c.points[c.idx + 1]? with
            | some next =>
              simp only [hn] at h ⊢
              by_cases h4 : unitAxis (prevPoint c tgt) tgt ≠ unitAxis tgt next
              · rw [if_pos h4] at h; simp at h
              · rw [if_neg h4] at h ⊢
                exact ih _ _ h
            | none =>
              simp only [hn]
              have hlen : c.idx + 1 = c.points.length := by
                have := List.getElem?_eq_none_iff.1 hn
                omega
              refine ⟨hlen, tgt, ?_, h3⟩
              show c.points.getLast? = some tgt
              rw [List.getLast?_eq_getElem?, ← hp]
              congr 1
              omega
          · rw [if_neg h3] at h; simp at h
    · rw [if_neg h1] at h; simp at h

theorem sgn_mul_tile (n : Int) (h : n = 1 ∨ n = -1 ∨ n = 0) : sgn ((n : ℚ) * TILE) = n := by
  rcases h with h | h | h <;> subst h <;> norm_num [sgn, TILE]

theorem adjacent4_cases (a b : Tile) (h : adjacent4 a b) :
    (b.c - a.c = 1 ∧ b.r - a.r = 0) ∨ (b.c - a.c = -1 ∧ b.r - a.r = 0) ∨
      (b.c - a.c = 0 ∧ b.r - a.r = 1) ∨ (b.c - a.c = 0 ∧ b.r - a.r = -1) := by
  unfold adjacent4 at h
  omega

theorem isAxisDir_stepDir (a b : Tile) (h : adjacent4 a b) : IsAxisDir (stepDir a b) := by
  unfold IsAxisDir stepDir
  rcases adjacent4_cases a b h with ⟨h1, h2⟩ | ⟨h1, h2⟩ | ⟨h1, h2⟩ | ⟨h1, h2⟩ <;> rw [h1, h2] <;> simp

theorem unitAxis_centres (a b : Tile) (h : adjacent4 a b) :
    unitAxis (tileCentre a) (tileCentre b) = stepDir a b := by
  have hx : (tileCentre b).x - (tileCentre a).x = ((b.c - a.c : Int) : ℚ) * TILE := by
    simp only [tileCentre]; push_cast; ring
  have hy : (tileCentre b).y - (tileCentre a).y = ((b.r - a.r : Int) : ℚ) * TILE := by
    simp only [tileCentre]; push_cast; ring
  unfold unitAxis stepDir
  rw [hx, hy, sgn_mul_tile, sgn_mul_tile]
  · rcases adjacent4_cases a b h with h | h | h | h <;> omega
  · rcases adjacent4_cases a b h with h | h | h | h <;> omega

theorem sgn_add (p q : ℚ) (s : Int) (hp : sgn p = s) (hq : sgn q = s) : sgn (p + q) = s := by
  unfold sgn at *
  split_ifs at hp hq ⊢ <;> first | exact hp | exact hq | (exfalso; linarith)

theorem unitAxis_extend (a b c : Pt) (d : Int × Int) (h1 : unitAxis a b = d)
    (h2 : unitAxis b c = d) : unitAxis a c = d := by
  unfold unitAxis at *
  have hx : c.x - a.x = (b.x - a.x) + (c.x - b.x) := by ring
  have hy : c.y - a.y = (b.y - a.y) + (c.y - b.y) := by ring
  have e1 := congrArg Prod.fst h1
  have e2 := congrArg Prod.snd h1
  have e3 := congrArg Prod.fst h2
  have e4 := congrArg Prod.snd h2
  simp only at e1 e2 e3 e4
  rw [hx, hy, sgn_add _ _ d.1 e1 e3, sgn_add _ _ d.2 e2 e4]

theorem tileCentre_ne (a b : Tile) (h : adjacent4 a b) : tileCentre a ≠ tileCentre b := by
  intro he
  have hu := unitAxis_centres a b h
  rw [he] at hu
  have h0 : unitAxis (tileCentre b) (tileCentre b) = (0, 0) := by
    simp [unitAxis, sgn]
  rw [h0] at hu
  rcases isAxisDir_stepDir a b h with h | h | h | h <;> rw [h] at hu <;> revert hu <;> decide

theorem dedupPts_connected (prev : Tile) (rest : List Tile)
    (h : List.Chain adjacent4 prev rest) :
    dedupPts (some (tileCentre prev)) rest = rest.map tileCentre := by
  induction rest generalizing prev with
  | nil => rfl
  | cons b rest ih =>
    rw [List.chain_cons] at h
    rw [dedupPts, if_neg, ih b h.2, List.map_cons]
    intro he
    exact tileCentre_ne prev b h.1 (Option.some.inj he)

theorem segmentDirs_cons (a b : Pt) (rest : List Pt) :
    segmentDirs (a :: b :: rest) = unitAxis a b :: segmentDirs (b :: rest) := rfl

theorem compressLoop_connected (prev b : Tile) (rest : List Tile) (a : Pt)
    (h : List.Chain adjacent4 prev (b :: rest))
    (ha : unitAxis a (tileCentre b) = stepDir prev b) :
    compressLoop a ((b :: rest).map tileCentre) = (cornersFrom prev (b :: rest)).map tileCentre ∧
      ∃ ds, segmentDirs (a :: compressLoop a ((b :: rest).map tileCentre)) = stepDir prev b :: ds ∧
        List.Chain (fun d e => d ≠ e) (stepDir prev b) ds ∧ ∀ d ∈ ds, IsAxisDir d := by
  induction rest generalizing prev b a with
  | nil =>
    refine ⟨rfl, [], ?_, List.Chain.nil, by simp⟩
    show [unitAxis a (tileCentre b)] = _
    rw [ha]
  | cons c rest ih =>
    rw [List.chain_cons] at h
    obtain ⟨_, h2⟩ := h
    have hbc := unitAxis_centres b c (List.chain_cons.1 h2).1
    have hcond : (sgn ((tileCentre b).x - a.x) ≠ sgn ((tileCentre c).x - (tileCentre b).x) ∨
        sgn ((tileCentre b).y - a.y) ≠ sgn ((tileCentre c).y - (tileCentre b).y))
        ↔ stepDir prev b ≠ stepDir b c := by
      rw [← ha, ← hbc]
      unfold unitAxis
      simp only [Ne, Prod.mk.injEq, not_and_or]
    simp only [List.map_cons, compressLoop, cornersFrom]
    by_cases hc : stepDir prev b ≠ stepDir b c
    · rw [if_pos (hcond.2 hc), if_pos hc]
      obtain ⟨e1, ds, e2, e3, e4⟩ := ih b c (tileCentre b) h2 hbc
      simp only [List.map_cons] at e1 e2
      refine ⟨by rw [e1, List.map_cons], stepDir b c :: ds, ?_, List.Chain.cons hc e3, ?_⟩
      · rw [segmentDirs_cons, e2, ha]
      · intro d hd
        rcases List.mem_cons.1 hd with hd | hd
        · rw [hd]; exact isAxisDir_stepDir b c (List.chain_cons.1 h2).1
        · exact e4 d hd
    · rw [if_neg (fun hh => hc (hcond.1 hh)), if_neg hc]
      have heq : stepDir prev b = stepDir b c := not_not.1 hc
      obtain ⟨e1, ds, e2, e3, e4⟩ := ih b c a h2
        (unitAxis_extend a (tileCentre b) (tileCentre c) _ (ha.trans heq) hbc)
      simp only [List.map_cons] at e1 e2
      rw [heq]
      exact ⟨e1, ds, e2, e3, e4⟩

theorem cornersFrom_sublist (prev : Tile) (l : List Tile) : (cornersFrom prev l).Sublist l := by
  induction l generalizing prev with
  | nil => exact List.Sublist.slnil
  | cons b rest ih =>
    cases rest with
    | nil => exact List.Sublist.refl _
    | cons c rest =>
      rw [cornersFrom]
      split_ifs
      · exact (ih b).cons₂ b
      · exact (ih b).cons b

theorem cornersFrom_ne_nil (prev b : Tile) (l : List Tile) : cornersFrom prev (b :: l) ≠ [] := by
  induction l generalizing prev b with
  | nil => simp [cornersFrom]
  | cons c rest ih =>
    rw [cornersFrom]
    split_ifs
    · simp
    · exact ih b c

theorem cornersFrom_getLast? (prev b : Tile) (l : List Tile) :
    (cornersFrom prev (b :: l)).getLast? = (b :: l).getLast? := by
  induction l generalizing prev b with
  | nil => rfl
  | cons c rest ih =>
    rw [cornersFrom, List.getLast?_cons_cons]
    split_ifs
    · obtain ⟨x, xs, hx⟩ := List.exists_cons_of_ne_nil (cornersFrom_ne_nil b c rest)
      rw [hx, List.getLast?_cons_cons, ← hx, ih b c]
    · exact ih b c

theorem compressCollinear_cons (p0 : Pt) (rest : List Pt) :
    compressCollinear (p0 :: rest) = p0 :: compressLoop p0 rest := by
  match rest with
  | [] => rfl
  | [_] => rfl
  | _ :: _ :: _ => rfl

theorem waypointsOf_connected (p0 : Tile) (rest : List Tile)
    (h : List.Chain adjacent4 p0 rest) :
    waypointsOf (p0 :: rest) = tileCentre p0 :: compressLoop (tileCentre p0) (rest.map tileCentre) := by
  have hd : dedupPts none (p0 :: rest) = tileCentre p0 :: rest.map tileCentre := by
    rw [dedupPts, if_neg (by simp), dedupPts_connected p0 rest h]
  rw [waypointsOf, hd, compressCollinear_cons]
  simp
/-! ## WaveSystem -/

theorem startNextWave_false (ws : WaveSystem) (h : ws.startNextWave.2 = false) :
    ws.startNextWave.1 = ws := by
  unfold WaveSystem.startNextWave at h ⊢
  split_ifs with h1 h2
  · rfl
  · rfl
  · rw [if_neg h1, if_neg h2] at h
    cases hw : ws.waves[(ws.waveIndex + 1).toNat]? with
    | none => rfl
    | some d => rw [hw] at h; simp at h

theorem startNextWave_true_iff (ws : WaveSystem) (hidx : -1 ≤ ws.waveIndex) :
    ws.startNextWave.2 = true ↔
      ws.active = false ∧ ws.waveIndex + 1 < (ws.waves.length : Int) := by
  unfold WaveSystem.startNextWave
  by_cases h1 : ws.active = true
  · simp [h1]
  · by_cases h2 : ws.waveIndex + 1 ≥ (ws.waves.length : Int)
    · rw [if_neg h1, if_pos h2]
      simp only [Bool.false_eq_true, false_iff, not_and, not_lt]
      intro _; exact h2
    · rw [if_neg h1, if_neg h2]
      have hlt : (ws.waveIndex + 1).toNat < ws.waves.length := by omega
      rw [List.getElem?_eq_getElem hlt]
      simp only [true_iff]
      exact ⟨by simpa using h1, by omega⟩

theorem scaleInv_new (grid : Grid) (rng : RNG) : ScaleInv (WaveSystem.new grid rng) := by
  refine ⟨by show (-1 : Int) ≤ -1; decide, rfl, by simp [WaveSystem.new],
    by simp [WaveSystem.new], ?_⟩
  show spawnPointsOf grid ≠ []
  unfold spawnPointsOf
  split_ifs with h
  · intro h2; rw [h2] at h; simp at h
  · simp

theorem scaleInv_startNextWave (ws : WaveSystem) (h : ScaleInv ws) :
    ScaleInv ws.startNextWave.1 := by
  cases hr : ws.startNextWave.2 with
  | false => rw [startNextWave_false ws hr]; exact h
  | true =>
    unfold WaveSystem.startNextWave at hr ⊢
    by_cases h1 : ws.active = true
    · rw [if_pos h1] at hr; simp at hr
    · by_cases h2 : ws.waveIndex + 1 ≥ (ws.waves.length : Int)
      · rw [if_neg h1, if_pos h2] at hr; simp at hr
      · rw [if_neg h1, if_neg h2] at hr ⊢
        cases hw : ws.waves[(ws.waveIndex + 1).toNat]? with
        | none => rw [hw] at hr; simp at hr
        | some d =>
          simp only
          have h3 := h.waveIndex_ge
          have h4 : (ws.waveIndex + 1 + 1).toNat = ws.waveNumber.toNat + 1 := by
            rw [h.waveNumber_eq]; omega
          refine ⟨by show -1 ≤ ws.waveIndex + 1; omega, rfl, ?_, ?_, h.spawnPoints_ne⟩
          · show ws.hpScale * (115 / 100) = (115 / 100) ^ (ws.waveIndex + 1 + 1).toNat
            rw [h4, pow_succ, h.hpScale_eq]
          · show ws.spdScale * (103 / 100) = (103 / 100) ^ (ws.waveIndex + 1 + 1).toNat
            rw [h4, pow_succ, h.spdScale_eq]

theorem scaleInv_update (ws : WaveSystem) (dt : ℚ) (h : ScaleInv ws) :
    ScaleInv (ws.update dt).1 := by
  unfold WaveSystem.update
  split_ifs <;> first | exact h | exact ⟨h.1, h.2, h.3, h.4, h.5⟩

theorem scaleInv_of_reachable (ws : WaveSystem) (h : WaveSystem.Reachable ws) : ScaleInv ws := by
  induction h with
  | new grid rng => exact scaleInv_new grid rng
  | queueDefaultSet ws _ ih => exact ⟨ih.1, ih.2, ih.3, ih.4, ih.5⟩
  | addSpawnPoint ws c r pre _ ih =>
    exact ⟨ih.1, ih.2, ih.3, ih.4, by
      show ws.spawnPoints ++ [⟨c, r⟩] ≠ []
      simp⟩
  | setMultiSpawnActivationWave ws n _ ih => exact ⟨ih.1, ih.2, ih.3, ih.4, ih.5⟩
  | startNextWave ws _ ih => exact scaleInv_startNextWave ws ih
  | update ws dt _ ih => exact scaleInv_update ws dt ih

theorem sortJobs_perm (q : List SpawnJob) : (sortJobs q).Perm q := List.perm_insertionSort jobLe q

theorem sortJobs_sorted (q : List SpawnJob) : (sortJobs q).Sorted jobLe :=
  List.sorted_insertionSort jobLe q

theorem entryJobs_types (e : WaveEntry) (a : Int) (n i : Nat) (t : ℚ) (g : RNG) :
    (entryJobs e a n i t g).1.map SpawnJob.type = List.replicate n e.type := by
  induction n generalizing i t g with
  | zero => rfl
  | succ n ih =>
    rw [entryJobs]
    simp only [List.map_cons, List.replicate_succ]
    rw [ih]

theorem waveJobs_types (a : Int) (es : List WaveEntry) (g : RNG) :
    (waveJobs a es g).1.map SpawnJob.type
      = es.flatMap fun e => List.replicate e.count e.type := by
  induction es generalizing g with
  | nil => rfl
  | cons e rest ih =>
    rw [waveJobs]
    simp only [List.map_append, List.flatMap_cons]
    rw [entryJobs_types, ih]

theorem pickSpawnIndex_eq (i : Nat) (a : Int) : pickSpawnIndex i a = (i : Int) % max 1 a := by
  unfold pickSpawnIndex
  split_ifs with h
  · rfl
  · have : max 1 a = 1 := by omega
    rw [this]; omega

theorem entryJobs_spawnIndex (e : WaveEntry) (a : Int) (n i : Nat) (t : ℚ) (g : RNG) (k : Nat)
    (job : SpawnJob) (h : (entryJobs e a n i t g).1[k]? = some job) :
    job.spawnIndex = ((i + k : Nat) : Int) % max 1 a := by
  induction n generalizing i t g k with
  | zero => simp [entryJobs] at h
  | succ n ih =>
    rw [entryJobs] at h
    cases k with
    | zero =>
      simp only [List.getElem?_cons_zero, Option.some.injEq] at h
      rw [← h]
      exact pickSpawnIndex_eq i a
    | succ k =>
      simp only [List.getElem?_cons_succ] at h
      have := ih (i + 1) _ _ k h
      rw [this]
      congr 2
      omega

theorem entryJobs_spawnIndex_lt (e : WaveEntry) (a : Int) (n i : Nat) (t : ℚ) (g : RNG)
    (job : SpawnJob) (h : job ∈ (entryJobs e a n i t g).1) :
    0 ≤ job.spawnIndex ∧ job.spawnIndex < max 1 a := by
  obtain ⟨k, hk⟩ := List.mem_iff_getElem?.1 h
  rw [entryJobs_spawnIndex e a n i t g k job hk]
  have hpos : (0 : Int) < max 1 a := by omega
  exact ⟨Int.emod_nonneg _ (ne_of_gt hpos), Int.emod_lt_of_pos _ hpos⟩

theorem waveJobs_spawnIndex_lt (a : Int) (es : List WaveEntry) (g : RNG) (job : SpawnJob)
    (h : job ∈ (waveJobs a es g).1) : 0 ≤ job.spawnIndex ∧ job.spawnIndex < max 1 a := by
  induction es generalizing g with
  | nil => simp [waveJobs] at h
  | cons e rest ih =>
    rw [waveJobs] at h
    rcases List.mem_append.1 h with h1 | h1
    · exact entryJobs_spawnIndex_lt e a _ _ _ _ job h1
    · exact ih _ h1

theorem getActiveSpawnsCount_eq (ws : WaveSystem) (h : ws.spawnPoints ≠ []) :
    ws.getActiveSpawnsCount =
      if ws.waveNumber < ws.multiSpawnActivationWave then 1 else (ws.spawnPoints.length : Int) := by
  unfold WaveSystem.getActiveSpawnsCount
  have : 1 ≤ ws.spawnPoints.length := by
    cases hs : ws.spawnPoints with
    | nil => exact absurd hs h
    | cons a l => simp
  split_ifs <;> omega

/-- What a successful `startNextWave` returns, field by field. -/
theorem startNextWave_true (ws : WaveSystem) (h : ws.startNextWave.2 = true) :
    ∃ d, ws.waves[(ws.waveIndex + 1).toNat]? = some d ∧
      ws.startNextWave.1 =
        { ws with
          waveIndex := ws.waveIndex + 1
          waveNumber := ws.waveIndex + 1 + 1
          queue := sortJobs (waveJobs
            ({ ws with waveNumber := ws.waveIndex + 1 + 1 }).getActiveSpawnsCount d.entries
            ws.rng).1
          rng := (waveJobs
            ({ ws with waveNumber := ws.waveIndex + 1 + 1 }).getActiveSpawnsCount d.entries
            ws.rng).2
          spawnTimer := 0
          active := true
          hpScale := ws.hpScale * (115 / 100)
          spdScale := ws.spdScale * (103 / 100) } := by
  unfold WaveSystem.startNextWave at h ⊢
  by_cases h1 : ws.active = true
  · rw [if_pos h1] at h; simp at h
  · by_cases h2 : ws.waveIndex + 1 ≥ (ws.waves.length : Int)
    · rw [if_neg h1, if_pos h2] at h; simp at h
    · rw [if_neg h1, if_neg h2] at h ⊢
      cases hw : ws.waves[(ws.waveIndex + 1).toNat]? with
      | none => rw [hw] at h; simp at h
      | some d => exact ⟨d, rfl, rfl⟩

theorem drain_sorted (ws : WaveSystem) (clock : ℚ) (q : List SpawnJob) (h : q.Sorted jobLe) :
    (ws.drain clock q).1 = q.filter (fun j => decide (¬ j.fireAt ≤ clock)) ∧
      (ws.drain clock q).2 = (q.filter (fun j => decide (j.fireAt ≤ clock))).map ws.spawnCreep := by
  induction q with
  | nil => exact ⟨rfl, rfl⟩
  | cons job rest ih =>
    rw [List.sorted_cons] at h
    obtain ⟨h1, h2⟩ := h
    rw [WaveSystem.drain]
    by_cases hj : job.fireAt ≤ clock
    · rw [if_pos hj]
      obtain ⟨ih1, ih2⟩ := ih h2
      simp only [List.filter_cons, hj, not_true_eq_false, decide_False, decide_True,
        Bool.false_eq_true, if_false, if_true, List.map_cons]
      exact ⟨ih1, by rw [ih2]⟩
    · rw [if_neg hj]
      have hall : ∀ j ∈ rest, ¬ j.fireAt ≤ clock := by
        intro j hjm hle
        exact hj (le_trans (h1 j hjm) hle)
      constructor
      · symm
        rw [List.filter_eq_self]
        intro j hjm
        rcases List.mem_cons.1 hjm with hh | hh
        · subst hh; simpa using hj
        · simpa using hall j hh
      · symm
        simp only [List.map_eq_nil_iff, List.filter_eq_nil_iff]
        intro j hjm
        rcases List.mem_cons.1 hjm with hh | hh
        · subst hh; simpa using hj
        · simpa using hall j hh

theorem mem_drain (ws : WaveSystem) (clock : ℚ) (q : List SpawnJob) (c : Creep)
    (h : c ∈ (ws.drain clock q).2) : ∃ job ∈ q, c = ws.spawnCreep job := by
  induction q with
  | nil => simp [WaveSystem.drain] at h
  | cons job rest ih =>
    rw [WaveSystem.drain] at h
    split_ifs at h with hj
    · rcases List.mem_cons.1 h with h1 | h1
      · exact ⟨job, List.mem_cons_self _ _, h1⟩
      · obtain ⟨j, hj1, hj2⟩ := ih h1
        exact ⟨j, List.mem_cons_of_mem _ hj1, hj2⟩
    · simp at h

theorem makeCreep_stats (type : String) (path : List Tile) (hpScale spdScale : ℚ)
    (hs : 0 ≤ spdScale) :
    (makeCreep type path hpScale spdScale).maxHP = (specPreset type).2.1 * hpScale ∧
      (makeCreep type path hpScale spdScale).hp = (specPreset type).2.1 * hpScale ∧
      (makeCreep type path hpScale spdScale).baseSpeed = (specPreset type).1 * spdScale * TILE ∧
      (makeCreep type path hpScale spdScale).bounty = some (specPreset type).2.2 := by
  unfold makeCreep specPreset
  split_ifs
  · refine ⟨rfl, rfl, ?_, rfl⟩
    show max 0 (32 / 10 * spdScale) * TILE = 32 / 10 * spdScale * TILE
    rw [max_eq_right (by positivity)]
  · refine ⟨rfl, rfl, ?_, rfl⟩
    show max 0 (16 / 10 * spdScale) * TILE = 16 / 10 * spdScale * TILE
    rw [max_eq_right (by positivity)]
  · refine ⟨rfl, rfl, ?_, rfl⟩
    show max 0 (22 / 10 * spdScale) * TILE = 22 / 10 * spdScale * TILE
    rw [max_eq_right (by positivity)]

theorem sampleWaves_start : sampleWaves.startNextWave.2 = true := by
  rw [startNextWave_true_iff sampleWaves (by show (-1 : Int) ≤ -1; decide)]
  exact ⟨rfl, by show (-1 : Int) + 1 < (([] ++ defaultWaves : List WaveDef).length : Int); decide⟩

theorem startNextWave_sorted_active (ws : WaveSystem) (h : ws.startNextWave.2 = true) :
    ws.startNextWave.1.queue.Sorted jobLe ∧ ws.startNextWave.1.active = true := by
  obtain ⟨d, -, heq⟩ := startNextWave_true ws h
  rw [heq]
  exact ⟨sortJobs_sorted _, rfl⟩

theorem specPreset_values :
    specPreset "basic" = (22 / 10, 28, 3) ∧ specPreset "fast" = (32 / 10, 16, 2) ∧
      specPreset "tank" = (16 / 10, 60, 4) ∧ specPreset "other" = (22 / 10, 28, 3) := by
  unfold specPreset
  refine ⟨?_, ?_, ?_, ?_⟩
  · rw [if_neg (by decide), if_neg (by decide)]
  · rw [if_pos rfl]
  · rw [if_neg (by decide), if_pos rfl]
  · rw [if_neg (by decide), if_neg (by decide)]

theorem nearestLoop_spec (spawn : Tile) (f : Nat → Int) (rest : List Tile) (i : Nat) (b : Int)
    (idx : Nat) (hrest : ∀ j p, rest[j]? = some p → manhattanInt p spawn = f (i + j))
    (hidx : idx < i) (hb : f idx = b) (hmin : ∀ j, j < i → b ≤ f j)
    (hfirst : ∀ j, j < idx → b < f j) :
    nearestLoop spawn rest i (some b) idx < i + rest.length ∧
      (∀ j, j < i + rest.length → f (nearestLoop spawn rest i (some b) idx) ≤ f j) ∧
      (∀ j, j < nearestLoop spawn rest i (some b) idx →
        f (nearestLoop spawn rest i (some b) idx) < f j) := by
  induction rest generalizing i b idx with
  | nil =>
    simp only [nearestLoop, List.length_nil, Nat.add_zero]
    exact ⟨hidx, fun j hj => hb ▸ hmin j hj, fun j hj => hb ▸ hfirst j hj⟩
  | cons p rest ih =>
    have hp : manhattanInt p spawn = f i := by
      have := hrest 0 p (by simp)
      simpa using this
    have hrest' : ∀ j q, rest[j]? = some q → manhattanInt q spawn = f (i + 1 + j) := by
      intro j q hq
      have := hrest (j + 1) q (by simpa using hq)
      rw [this]; congr 1; omega
    rw [nearestLoop]
    simp only [List.length_cons]
    have hlen : i + (rest.length + 1) = i + 1 + rest.length := by omega
    rw [hlen]
    by_cases hlt : manhattanInt p spawn < b
    · rw [if_pos hlt]
      apply ih (i + 1) (manhattanInt p spawn) i hrest' (by omega) hp.symm
      · intro j hj
        rcases Nat.lt_succ_iff_lt_or_eq.1 hj with h | h
        · exact le_of_lt (lt_of_lt_of_le hlt (hmin j h))
        · rw [h, hp]
      · intro j hj
        exact lt_of_lt_of_le hlt (hmin j hj)
    · rw [if_neg hlt]
      apply ih (i + 1) b idx hrest' (by omega) hb
      · intro j hj
        rcases Nat.lt_succ_iff_lt_or_eq.1 hj with h | h
        · exact hmin j h
        · rw [h, ← hp]; exact not_lt.1 hlt
      · exact hfirst

theorem nearestLoop_start (spawn : Tile) (main : List Tile) (hmain : main ≠ []) :
    nearestLoop spawn main 0 none 0 < main.length ∧
      (∀ j, j < main.length →
        manhattanInt (main.getD (nearestLoop spawn main 0 none 0) ⟨0, 0⟩) spawn
          ≤ manhattanInt (main.getD j ⟨0, 0⟩) spawn) ∧
      (∀ j, j < nearestLoop spawn main 0 none 0 →
        manhattanInt (main.getD (nearestLoop spawn main 0 none 0) ⟨0, 0⟩) spawn
          < manhattanInt (main.getD j ⟨0, 0⟩) spawn) := by
  cases main with
  | nil => exact absurd rfl hmain
  | cons p rest =>
    rw [nearestLoop]
    have := nearestLoop_spec spawn (fun j => manhattanInt ((p :: rest).getD j ⟨0, 0⟩) spawn) rest 1
      (manhattanInt p spawn) 0
      (by
        intro j q hq
        have h1 : (p :: rest).getD (1 + j) ⟨0, 0⟩ = q := by
          rw [Nat.add_comm, List.getD_cons_succ, List.getD_eq_getElem?_getD, hq]
          rfl
        simp only [h1])
      (by omega) (by simp)
      (by
        intro j hj
        have : j = 0 := by omega
        subst this; simp)
      (by intro j hj; omega)
    simp only [List.length_cons]
    rw [Nat.add_comm rest.length 1]
    exact this

theorem indexOf_le_of_getElem? (l : List Tile) (a : Tile) (j : Nat) (h : l[j]? = some a) :
    l.indexOf a ≤ j := by
  induction l generalizing j with
  | nil => simp at h
  | cons b l ih =>
    by_cases hb : b = a
    · subst hb; simp
    · cases j with
      | zero =>
        simp at h
        exact absurd h hb
      | succ j =>
        rw [List.indexOf_cons_ne _ hb]
        have := ih j (by simpa using h)
        omega

/-! ## Generator state and row draws -/

theorem mulberry32_state (g : RNG) (h : g.state + 0x6D2B79F5 < 2 ^ 53) :
    g.mulberry32.2.state = g.state + 0x6D2B79F5 := by
  unfold RNG.mulberry32
  simp only
  rw [if_pos (by omega)]

theorem after_state (g : RNG) (k : Nat) (h : g.state + k * 0x6D2B79F5 < 2 ^ 53) :
    (g.after k).state = g.state + k * 0x6D2B79F5 := by
  induction k generalizing g with
  | zero => simp [RNG.after]
  | succ k ih =>
    have h1 : g.mulberry32.2.state = g.state + 0x6D2B79F5 :=
      mulberry32_state g (by omega)
    rw [RNG.after, ih _ (by rw [h1]; omega), h1]
    ring

theorem xmur3_lt (str : List Nat) : xmur3 str < 2 ^ 32 := by
  unfold xmur3
  simp only
  apply Nat.xor_lt_two_pow
  · exact Nat.mod_lt _ (by norm_num)
  · rw [Nat.shiftRight_eq_div_pow]
    exact lt_of_le_of_lt (Nat.div_le_self _ _) (Nat.mod_lt _ (by norm_num))

theorem canonRoute_rows (g : RNG) :
    (canonRoute g).spawn = ⟨0, rowOfDraw g.mulberry32.1⟩ ∧
      (canonRoute g).base = ⟨COLS - 1, rowOfDraw g.mulberry32.2.mulberry32.1⟩ := by
  have h1 : (canonRoute g).spawn =
      ⟨0, clampi ((g.rangeFloor ROWS.toNat).1 : Int) 1 (ROWS - 2)⟩ := rfl
  have h2 : (canonRoute g).base =
      ⟨COLS - 1, clampi ((g.mulberry32.2.rangeFloor ROWS.toNat).1 : Int) 1 (ROWS - 2)⟩ := rfl
  rw [h1, h2, rangeFloor_exact _ _ (by decide), rangeFloor_exact _ _ (by decide)]
  exact ⟨rfl, rfl⟩

theorem rowOfDraw_eq (u : Nat) :
    rowOfDraw u = if u * 60 / 2 ^ 32 < 1 then 1 else if 58 < u * 60 / 2 ^ 32 then 58
      else ((u * 60 / 2 ^ 32 : Nat) : Int) := by
  unfold rowOfDraw clampi
  show (if ((u * 60 / 2 ^ 32 : Nat) : Int) < 1 then (1 : Int)
    else if ((u * 60 / 2 ^ 32 : Nat) : Int) > 60 - 2 then 60 - 2
    else ((u * 60 / 2 ^ 32 : Nat) : Int)) = _
  split_ifs <;> omega

theorem rowEvent_first : rowEvent 1 = Finset.range 143165577 := by
  ext u
  simp only [rowEvent, Finset.mem_filter, Finset.mem_range, rowOfDraw_eq]
  norm_num
  split_ifs <;> omega

theorem rowEvent_last : rowEvent 58 = Finset.Ico 4151801720 (2 ^ 32) := by
  ext u
  simp only [rowEvent, Finset.mem_filter, Finset.mem_range, Finset.mem_Ico, rowOfDraw_eq]
  norm_num
  split_ifs <;> omega

theorem rowEvent_inner (k : Nat) (h2 : 2 ≤ k) (h57 : k ≤ 57) :
    rowEvent (k : Int) = Finset.Ico ((k * 2 ^ 32 + 59) / 60) (((k + 1) * 2 ^ 32 + 59) / 60) := by
  ext u
  simp only [rowEvent, Finset.mem_filter, Finset.mem_range, Finset.mem_Ico, rowOfDraw_eq]
  norm_num
  split_ifs <;> omega

theorem rowOfDraw_bounds (u : Nat) : 1 ≤ rowOfDraw u ∧ rowOfDraw u ≤ ROWS - 2 := by
  rw [rowOfDraw_eq]
  simp only [ROWS]
  split_ifs <;> omega

/-! ## Slow expiry and jitter -/

theorem tickSlow_slot (c : Creep) (dt : ℚ) (hs : c.slowTime > 0) :
    (c.tickSlow dt).slowTime = max 0 (c.slowTime - dt) ∧
      (c.tickSlow dt).slowPct = (if c.slowTime - dt ≤ 0 then 0 else c.slowPct) := by
  unfold Creep.tickSlow
  rw [if_pos hs]
  by_cases h : c.slowTime - dt ≤ 0
  · rw [if_pos h, if_pos h]
    exact ⟨(max_eq_left h).symm, rfl⟩
  · rw [if_neg h, if_neg h]
    exact ⟨(max_eq_right (le_of_lt (not_le.1 h))).symm, rfl⟩

theorem jitterOf_abs (u : Nat) (hu : u < 2 ^ 32) (interval : ℚ) (hi : 0 ≤ interval) :
    |jitterOf u interval| ≤ interval / 8 := by
  unfold jitterOf
  have h1 : (0 : ℚ) ≤ (u : ℚ) / 2 ^ 32 := by positivity
  have h2 : (u : ℚ) / 2 ^ 32 < 1 := by
    rw [div_lt_one (by positivity)]
    exact_mod_cast hu
  have h3 : |(u : ℚ) / 2 ^ 32 - 1 / 2| ≤ 1 / 2 := by
    rw [abs_le]; constructor <;> linarith
  have h4 : (0 : ℚ) ≤ min (2 / 10) (interval * (1 / 4)) := le_min (by norm_num) (by positivity)
  have h5 : min (2 / 10) (interval * (1 / 4)) ≤ interval * (1 / 4) := min_le_right _ _
  rw [abs_mul, abs_of_nonneg h4]
  calc |(u : ℚ) / 2 ^ 32 - 1 / 2| * min (2 / 10) (interval * (1 / 4))
      ≤ 1 / 2 * (interval * (1 / 4)) := mul_le_mul h3 h5 h4 (by norm_num)
    _ = interval / 8 := by ring

theorem entryJobs_fireAt (e : WaveEntry) (hi : 0 ≤ e.interval) (activeSpawns : Int) (n i : Nat)
    (t : ℚ) (ht : 0 ≤ t) (g : RNG) (k : Nat) (job : SpawnJob)
    (h : (entryJobs e activeSpawns n i t g).1[k]? = some job) :
    0 ≤ job.fireAt ∧ |job.fireAt - (t + k * e.interval)| ≤ e.interval / 8 := by
  induction n generalizing i t g k with
  | zero => simp [entryJobs] at h
  | succ n ih =>
    rw [entryJobs] at h
    cases k with
    | zero =>
      simp only [List.getElem?_cons_zero, Option.some.injEq] at h
      subst h
      simp only [Nat.cast_zero, zero_mul, add_zero]
      refine ⟨le_max_left _ _, ?_⟩
      have hj := jitterOf_abs g.mulberry32.1 (mulberry32_lt g) e.interval hi
      rw [abs_le] at hj ⊢
      by_cases hneg : t + jitterOf g.mulberry32.1 e.interval ≤ 0
      · rw [max_eq_left hneg]
        constructor <;> linarith [hj.1, hj.2]
      · rw [max_eq_right (le_of_lt (not_le.1 hneg))]
        constructor <;> linarith [hj.1, hj.2]
    | succ k =>
      simp only [List.getElem?_cons_succ] at h
      obtain ⟨h1, h2⟩ := ih (i + 1) (t + e.interval) (by linarith) g.mulberry32.2 k h
      refine ⟨h1, ?_⟩
      have : t + ((k + 1 : Nat) : ℚ) * e.interval = t + e.interval + k * e.interval := by
        push_cast; ring
      rw [this]
      exact h2

/-! ## Target selection -/

theorem prefers_refl (t : Tower) (b : Creep) : prefers t b b :=
  Or.inr ⟨rfl, Or.inr ⟨rfl, le_refl _⟩⟩

theorem prefers_trans (t : Tower) (a b c : Creep) (h1 : prefers t a b) (h2 : prefers t b c) :
    prefers t a c := by
  unfold prefers at *
  rcases h1 with h1 | ⟨e1, r1⟩
  · rcases h2 with h2 | ⟨e2, _⟩
    · exact Or.inl (lt_trans h1 h2)
    · exact Or.inl (e2 ▸ h1)
  · rcases h2 with h2 | ⟨e2, r2⟩
    · exact Or.inl (e1 ▸ h2)
    · refine Or.inr ⟨e1.trans e2, ?_⟩
      rcases r1 with r1 | ⟨p1, d1⟩
      · rcases r2 with r2 | ⟨p2, _⟩
        · exact Or.inl (by omega)
        · exact Or.inl (by omega)
      · rcases r2 with r2 | ⟨p2, d2⟩
        · exact Or.inl (by omega)
        · exact Or.inr ⟨p1.trans p2, le_trans d1 d2⟩

theorem targetInv_replace (t : Tower) (seen : List Creep) (b c : Creep) (d : ℚ)
    (h : TargetInv t seen (some (b, d))) (ha : c.alive = true) (hr : inRange t c)
    (hp : prefers t c b) :
    TargetInv t (seen ++ [c]) (some (c, dist2 t.x t.y c.x c.y)) := by
  obtain ⟨_, _, _, _, h5⟩ := h
  refine ⟨rfl, by simp, ha, hr, ?_⟩
  intro x hx hxa hxr
  rcases List.mem_append.1 hx with hx | hx
  · exact prefers_trans t c b x hp (h5 x hx hxa hxr)
  · rw [List.mem_singleton.1 hx]; exact prefers_refl t c

theorem targetInv_keep (t : Tower) (seen : List Creep) (b c : Creep) (d : ℚ)
    (h : TargetInv t seen (some (b, d))) (hp : c.alive = true → inRange t c → prefers t b c) :
    TargetInv t (seen ++ [c]) (some (b, d)) := by
  obtain ⟨h1, h2, h3, h4, h5⟩ := h
  refine ⟨h1, List.mem_append_left _ h2, h3, h4, ?_⟩
  intro x hx hxa hxr
  rcases List.mem_append.1 hx with hx | hx
  · exact h5 x hx hxa hxr
  · rw [List.mem_singleton.1 hx] at hxa hxr ⊢; exact hp hxa hxr

theorem targetStep_inv (t : Tower) (seen : List Creep) (best : Option (Creep × ℚ)) (c : Creep)
    (h : TargetInv t seen best) : TargetInv t (seen ++ [c]) (targetStep t best c) := by
  unfold targetStep
  by_cases ha : c.alive = true
  · rw [ha]
    simp only [Bool.not_true, Bool.false_eq_true, if_false]
    by_cases hr : dist2 t.x t.y c.x c.y > t.range * t.range
    · rw [if_pos hr]
      have hnr : ¬ inRange t c := not_le.2 hr
      cases best with
      | none =>
        intro x hx hxa hxr
        rcases List.mem_append.1 hx with hx | hx
        · exact h x hx hxa hxr
        · rw [List.mem_singleton.1 hx] at hxr; exact hnr hxr
      | some p =>
        obtain ⟨b, d⟩ := p
        exact targetInv_keep t seen b c d h (fun _ hcr => absurd hcr hnr)
    · rw [if_neg hr]
      have hin : inRange t c := not_lt.1 hr
      cases best with
      | none =>
        refine ⟨rfl, by simp, ha, hin, ?_⟩
        intro x hx hxa hxr
        rcases List.mem_append.1 hx with hx | hx
        · exact absurd hxr (h x hx hxa)
        · rw [List.mem_singleton.1 hx]; exact prefers_refl t c
      | some p =>
        obtain ⟨b, d⟩ := p
        have hd : d = dist2 t.x t.y b.x b.y := h.1
        simp only
        by_cases h1 : c.hp < b.hp
        · rw [if_pos h1]
          exact targetInv_replace t seen b c d h ha hin (Or.inl h1)
        · rw [if_neg h1]
          by_cases h2 : c.hp = b.hp
          · rw [if_pos h2]
            by_cases h3 : c.pathIndex > b.pathIndex
            · rw [if_pos h3]
              exact targetInv_replace t seen b c d h ha hin (Or.inr ⟨h2, Or.inl h3⟩)
            · rw [if_neg h3]
              by_cases h4 : c.pathIndex = b.pathIndex ∧ dist2 t.x t.y c.x c.y < d
              · rw [if_pos h4]
                exact targetInv_replace t seen b c d h ha hin
                  (Or.inr ⟨h2, Or.inr ⟨h4.1, hd ▸ le_of_lt h4.2⟩⟩)
              · rw [if_neg h4]
                apply targetInv_keep t seen b c d h
                intro _ _
                refine Or.inr ⟨h2.symm, ?_⟩
                rcases Nat.lt_or_ge c.pathIndex b.pathIndex with h5 | h5
                · exact Or.inl h5
                · have h6 : c.pathIndex = b.pathIndex := by omega
                  refine Or.inr ⟨h6.symm, ?_⟩
                  rw [← hd]
                  exact not_lt.1 (fun hlt => h4 ⟨h6, hlt⟩)
          · rw [if_neg h2]
            apply targetInv_keep t seen b c d h
            intro _ _
            exact Or.inl (lt_of_le_of_ne (not_lt.1 h1) (fun e => h2 e.symm))
  · have ha2 : c.alive = false := by simpa using ha
    rw [ha2]
    simp only [Bool.not_false, if_true]
    cases best with
    | none =>
      intro x hx hxa hxr
      rcases List.mem_append.1 hx with hx | hx
      · exact h x hx hxa hxr
      · rw [List.mem_singleton.1 hx] at hxa; exact ha hxa
    | some p =>
      obtain ⟨b, d⟩ := p
      exact targetInv_keep t seen b c d h (fun hca _ => absurd hca ha)

theorem foldl_targetStep_inv (t : Tower) (l seen : List Creep) (best : Option (Creep × ℚ))
    (h : TargetInv t seen best) : TargetInv t (seen ++ l) (l.foldl (targetStep t) best) := by
  induction l generalizing seen best with
  | nil => simpa using h
  | cons c l ih =>
    have := ih (seen ++ [c]) (targetStep t best c) (targetStep_inv t seen best c h)
    rw [List.append_assoc] at this
    exact this

theorem pickTarget_spec (t : Tower) (creeps : List Creep) :
    ((pickTarget t creeps).isSome = true ↔ ∃ c ∈ creeps, c.alive = true ∧ inRange t c) ∧
      ∀ b, pickTarget t creeps = some b →
        b ∈ creeps ∧ b.alive = true ∧ inRange t b ∧
          ∀ c ∈ creeps, c.alive = true → inRange t c → prefers t b c := by
  have h := foldl_targetStep_inv t creeps [] none (by intro c hc; simp at hc)
  rw [List.nil_append] at h
  unfold pickTarget
  cases hb : creeps.foldl (targetStep t) none with
  | none =>
    rw [hb] at h
    refine ⟨?_, by simp⟩
    simp only [Option.map_none', Option.isSome_none, Bool.false_eq_true, false_iff]
    rintro ⟨c, hc, hca, hcr⟩
    exact h c hc hca hcr
  | some p =>
    obtain ⟨b, d⟩ := p
    rw [hb] at h
    obtain ⟨_, h2, h3, h4, h5⟩ := h
    refine ⟨?_, ?_⟩
    · simp only [Option.map_some', Option.isSome_some, true_iff]
      exact ⟨b, h2, h3, h4⟩
    · intro b2 hb2
      simp only [Option.map_some', Option.some.injEq] at hb2
      subst hb2
      exact ⟨h2, h3, h4, h5⟩

/-! ## Correctness of the feeder BFS -/

theorem allowedTile_iff (goal : Tile) (blocked : List Tile) (t : Tile) :
    allowedTile goal blocked t ↔ inb t.c t.r = true ∧ (t = goal ∨ t ∉ blocked) := by
  unfold allowedTile allow
  simp only [Bool.and_eq_true, Bool.or_eq_true, Bool.not_eq_true', decide_eq_true_eq]
  constructor
  · rintro ⟨h1, h2⟩
    refine ⟨h1, ?_⟩
    rcases h2 with h2 | h2
    · right
      intro hm
      have : blocked.contains (⟨t.c, t.r⟩ : Tile) = true := by simpa using hm
      rw [this] at h2
      exact absurd h2 (by decide)
    · left
      cases t; cases goal
      simp only at h2
      rw [h2.1, h2.2]
  · rintro ⟨h1, h2⟩
    refine ⟨h1, ?_⟩
    rcases h2 with h2 | h2
    · right; rw [h2]; exact ⟨rfl, rfl⟩
    · left
      cases hc : blocked.contains (⟨t.c, t.r⟩ : Tile) with
      | false => rfl
      | true =>
        exfalso; apply h2
        have : (⟨t.c, t.r⟩ : Tile) ∈ blocked := by simpa using hc
        exact this

theorem adjacent4_dir (cur : Tile) (d : Int × Int) (hd : d ∈ dirs) :
    adjacent4 cur ⟨cur.c + d.1, cur.r + d.2⟩ := by
  unfold dirs at hd
  simp only [List.mem_cons, List.mem_singleton, List.not_mem_nil, or_false] at hd
  unfold adjacent4
  rcases hd with h | h | h | h <;> subst h <;> simp only <;> omega

theorem dir_of_adjacent4 (a b : Tile) (h : adjacent4 a b) :
    ∃ d ∈ dirs, b = ⟨a.c + d.1, a.r + d.2⟩ := by
  have hb : ∀ (x y : Int), b.c = a.c + x → b.r = a.r + y → b = ⟨a.c + x, a.r + y⟩ := by
    intro x y h1 h2
    cases b
    simp only at h1 h2
    rw [h1, h2]
  rcases adjacent4_cases a b h with h | h | h | h
  · exact ⟨(1, 0), by simp [dirs], hb 1 0 (by omega) (by omega)⟩
  · exact ⟨(-1, 0), by simp [dirs], hb (-1) 0 (by omega) (by omega)⟩
  · exact ⟨(0, 1), by simp [dirs], hb 0 1 (by omega) (by omega)⟩
  · exact ⟨(0, -1), by simp [dirs], hb 0 (-1) (by omega) (by omega)⟩

theorem adjacent4_symm (a b : Tile) (h : adjacent4 a b) : adjacent4 b a := by
  unfold adjacent4 at *
  omega

theorem reconstruct_chain (prev : List (Tile × Tile)) (hadj : ∀ e ∈ prev, adjacent4 e.2 e.1)
    (fuel : Nat) (node : Tile) :
    List.Chain' (fun a b => adjacent4 b a) (reconstruct prev fuel node) := by
  induction fuel generalizing node with
  | zero => exact List.chain'_nil
  | succ fuel ih =>
    rw [reconstruct]
    cases hl : prev.lookup node with
    | none => exact List.chain'_singleton _
    | some p =>
      simp only
      have hp := ih p
      cases fuel with
      | zero => exact List.chain'_singleton _
      | succ k =>
        rw [reconstruct] at hp ⊢
        exact List.Chain'.cons (hadj (node, p) (lookup_mem prev node p hl)) hp

/-- The part of the invariant that holds while the neighbours of `cur` are
being visited: `cur` is no longer queued, and the directions `done` have been
handled. -/
theorem bfsVisit_route (start goal : Tile) (blocked : List Tile) (cur : Tile) (st : BfsState)
    (d : Int × Int) (done : List (Int × Int)) (hd : d ∈ dirs)
    (hadj : ∀ e ∈ st.prev, adjacent4 e.2 e.1) (hstart : start ∈ st.seen)
    (hcl : ∀ t ∈ st.seen, t ∈ st.q ∨ t = cur ∨ Expanded goal blocked st.seen t)
    (hdone : ∀ e ∈ done, allow goal blocked (cur.c + e.1) (cur.r + e.2) = true →
      (⟨cur.c + e.1, cur.r + e.2⟩ : Tile) ∈ st.seen) :
    (∀ e ∈ (bfsVisit goal blocked cur st d).prev, adjacent4 e.2 e.1) ∧
      start ∈ (bfsVisit goal blocked cur st d).seen ∧
      (∀ t ∈ (bfsVisit goal blocked cur st d).seen,
        t ∈ (bfsVisit goal blocked cur st d).q ∨ t = cur ∨
          Expanded goal blocked (bfsVisit goal blocked cur st d).seen t) ∧
      (∀ e ∈ done ++ [d], allow goal blocked (cur.c + e.1) (cur.r + e.2) = true →
        (⟨cur.c + e.1, cur.r + e.2⟩ : Tile) ∈ (bfsVisit goal blocked cur st d).seen) := by
  unfold bfsVisit
  split_ifs with hc
  · refine ⟨hadj, hstart, hcl, ?_⟩
    intro e he hal
    rcases List.mem_append.1 he with he | he
    · exact hdone e he hal
    · rw [List.mem_singleton.1 he] at hal ⊢
      rw [hal] at hc
      simp only [Bool.not_true, Bool.false_or] at hc
      simpa using hc
  · refine ⟨?_, List.mem_cons_of_mem _ hstart, ?_, ?_⟩
    · intro e he
      rcases List.mem_cons.1 he with he | he
      · rw [he]; exact adjacent4_dir cur d hd
      · exact hadj e he
    · intro t ht
      rcases List.mem_cons.1 ht with ht | ht
      · left; rw [ht]; simp
      · rcases hcl t ht with h | h | h
        · left; exact List.mem_append_left _ h
        · right; left; exact h
        · right; right
          exact ⟨h.1, fun e he hal => List.mem_cons_of_mem _ (h.2 e he hal)⟩
    · intro e he hal
      rcases List.mem_append.1 he with he | he
      · exact List.mem_cons_of_mem _ (hdone e he hal)
      · rw [List.mem_singleton.1 he]; exact List.mem_cons_self _ _

theorem foldl_bfsVisit_route (start goal : Tile) (blocked : List Tile) (cur : Tile)
    (ds : List (Int × Int)) (st : BfsState) (done : List (Int × Int)) (hds : ∀ d ∈ ds, d ∈ dirs)
    (hadj : ∀ e ∈ st.prev, adjacent4 e.2 e.1) (hstart : start ∈ st.seen)
    (hcl : ∀ t ∈ st.seen, t ∈ st.q ∨ t = cur ∨ Expanded goal blocked st.seen t)
    (hdone : ∀ e ∈ done, allow goal blocked (cur.c + e.1) (cur.r + e.2) = true →
      (⟨cur.c + e.1, cur.r + e.2⟩ : Tile) ∈ st.seen) :
    (∀ e ∈ (ds.foldl (bfsVisit goal blocked cur) st).prev, adjacent4 e.2 e.1) ∧
      start ∈ (ds.foldl (bfsVisit goal blocked cur) st).seen ∧
      (∀ t ∈ (ds.foldl (bfsVisit goal blocked cur) st).seen,
        t ∈ (ds.foldl (bfsVisit goal blocked cur) st).q ∨ t = cur ∨
          Expanded goal blocked (ds.foldl (bfsVisit goal blocked cur) st).seen t) ∧
      (∀ e ∈ done ++ ds, allow goal blocked (cur.c + e.1) (cur.r + e.2) = true →
        (⟨cur.c + e.1, cur.r + e.2⟩ : Tile) ∈ (ds.foldl (bfsVisit goal blocked cur) st).seen) := by
  induction ds generalizing st done with
  | nil =>
    rw [List.append_nil]
    exact ⟨hadj, hstart, hcl, hdone⟩
  | cons d ds ih =>
    obtain ⟨h1, h2, h3, h4⟩ := bfsVisit_route start goal blocked cur st d done
      (hds d (List.mem_cons_self _ _)) hadj hstart hcl hdone
    have := ih (bfsVisit goal blocked cur st d) (done ++ [d])
      (fun e he => hds e (List.mem_cons_of_mem _ he)) h1 h2 h3 h4
    rw [List.append_assoc] at this
    exact this

theorem route_stays_in (goal : Tile) (blocked seen : List Tile)
    (hcl : ∀ t ∈ seen, Expanded goal blocked seen t) (a : Tile) (ha : a ∈ seen)
    (rest : List Tile) (hch : List.Chain adjacent4 a rest)
    (hal : ∀ t ∈ rest, allowedTile goal blocked t) : ∀ t ∈ rest, t ∈ seen := by
  induction rest generalizing a with
  | nil => intro t ht; simp at ht
  | cons b rest ih =>
    rw [List.chain_cons] at hch
    obtain ⟨d, hd, hb⟩ := dir_of_adjacent4 a b hch.1
    have hbs : b ∈ seen := by
      rw [hb]
      apply (hcl a ha).2 d hd
      have := hal b (List.mem_cons_self _ _)
      rw [hb] at this
      exact this
    intro t ht
    rcases List.mem_cons.1 ht with ht | ht
    · rw [ht]; exact hbs
    · exact ih b hbs hch.2 (fun x hx => hal x (List.mem_cons_of_mem _ hx)) t ht

theorem bfsLoop_route (start goal : Tile) (blocked : List Tile) (fuel : Nat) (st : BfsState)
    (hinv : BfsInv goal blocked st) (h : BfsRouteInv start goal blocked st)
    (r : Option (List Tile)) (hr : bfsLoop goal blocked fuel st = some r) :
    (∀ f, r = some f → f.Chain' adjacent4 ∧ allowedTile goal blocked goal) ∧
      (r = none → ∀ rest, List.Chain adjacent4 start rest →
        (∀ t ∈ rest, allowedTile goal blocked t) → start ≠ goal ∧ goal ∉ rest) := by
  induction fuel generalizing st with
  | zero => simp [bfsLoop] at hr
  | succ fuel ih =>
    rw [bfsLoop] at hr
    cases hqq : st.q with
    | nil =>
      simp only [hqq, Option.some.injEq] at hr
      subst hr
      refine ⟨by simp, ?_⟩
      intro _ rest hch hal
      have hcl : ∀ t ∈ st.seen, Expanded goal blocked st.seen t := by
        intro t ht
        rcases h.closed t ht with h1 | h1
        · rw [hqq] at h1; simp at h1
        · exact h1
      refine ⟨(hcl start h.start_seen).1, ?_⟩
      intro hg
      exact (hcl goal (route_stays_in goal blocked st.seen hcl start h.start_seen rest hch hal
        goal hg)).1 rfl
    | cons cur rest =>
      simp only [hqq] at hr
      have hcur : allowedTile goal blocked cur :=
        hinv.q_ok cur (by rw [hqq]; exact List.mem_cons_self _ _)
      by_cases hg : cur.c = goal.c ∧ cur.r = goal.r
      · rw [if_pos hg] at hr
        have hcg : cur = goal := by
          cases cur; cases goal
          simp only at hg
          rw [hg.1, hg.2]
        simp only [Option.some.injEq] at hr
        subst hr
        refine ⟨?_, by simp⟩
        intro f hf
        simp only [Option.some.injEq] at hf
        subst hf
        refine ⟨?_, hcg ▸ hcur⟩
        rw [List.chain'_reverse]
        exact reconstruct_chain st.prev h.prev_adj _ cur
      · rw [if_neg hg] at hr
        have hne : cur ≠ goal := fun e => hg ⟨by rw [e], by rw [e]⟩
        obtain ⟨h1, h2, h3, h4⟩ := foldl_bfsVisit_route start goal blocked cur dirs
          { q := rest, seen := st.seen, prev := st.prev } [] (fun d hd => hd) h.prev_adj
          h.start_seen
          (by
            intro t ht
            rcases h.closed t ht with hc | hc
            · rw [hqq] at hc
              rcases List.mem_cons.1 hc with hc | hc
              · right; left; exact hc
              · left; exact hc
            · right; right; exact hc)
          (by intro e he; simp at he)
        rw [List.nil_append] at h4
        have hinv2 := foldl_bfsVisit_inv goal blocked cur hcur hne dirs
          { q := rest, seen := st.seen, prev := st.prev }
          ⟨fun t ht => hinv.q_ok t (by rw [hqq]; exact List.mem_cons_of_mem _ ht), hinv.prev_ok⟩
        refine ih _ hinv2 ⟨h1, h2, ?_⟩ hr
        intro t ht
        rcases h3 t ht with hc | hc | hc
        · left; exact hc
        · right; rw [hc]; exact ⟨hne, h4⟩
        · right; exact hc

theorem bfs_sound (start goal : Tile) (blocked f : List Tile)
    (hf : bfsManhattanAvoiding start goal blocked = some f) :
    IsRoute start goal blocked f ∧
      ∃ rest, f = rest ++ [goal] ∧ ∀ t ∈ rest, allowedTile goal blocked t ∧ t ≠ goal := by
  have ha : allow goal blocked start.c start.r = true := by
    unfold bfsManhattanAvoiding at hf
    split_ifs at hf with hs
    simpa using hs
  obtain ⟨r, h1, h2, h3⟩ := bfsManhattanAvoiding_terminates start goal blocked ha
  rw [hf] at h2
  subst h2
  obtain ⟨rest, e1, e2⟩ := bfsManhattanAvoiding_spec start goal blocked f hf
  obtain ⟨c1, _⟩ := bfsLoop_route start goal blocked _ _
    ⟨by
      intro t ht
      rw [List.mem_singleton.1 ht]; exact ha,
     by intro p hp; simp at hp⟩
    ⟨by intro e he; simp at he, List.mem_singleton_self _,
      fun t ht => Or.inl ht⟩ (some f) h1
  obtain ⟨hch, hga⟩ := c1 f rfl
  refine ⟨⟨h3 f rfl, by rw [e1]; simp, hch, ?_⟩, rest, e1, e2⟩
  intro t ht
  rw [e1] at ht
  rcases List.mem_append.1 ht with ht | ht
  · exact (allowedTile_iff goal blocked t).1 (e2 t ht).1
  · rw [List.mem_singleton.1 ht]
    exact (allowedTile_iff goal blocked goal).1 hga

theorem bfs_complete (start goal : Tile) (blocked route : List Tile)
    (hroute : IsRoute start goal blocked route) :
    (bfsManhattanAvoiding start goal blocked).isSome = true := by
  obtain ⟨hh, hl, hch, hall⟩ := hroute
  cases route with
  | nil => simp at hh
  | cons a rest =>
    simp only [List.head?_cons, Option.some.injEq] at hh
    subst hh
    have ha : allow goal blocked a.c a.r = true :=
      (allowedTile_iff goal blocked a).2 (hall a (List.mem_cons_self _ _))
    obtain ⟨r, h1, h2, _⟩ := bfsManhattanAvoiding_terminates a goal blocked ha
    rw [h2]
    cases r with
    | some f => rfl
    | none =>
      exfalso
      obtain ⟨_, c2⟩ := bfsLoop_route a goal blocked _ _
        ⟨by
          intro t ht
          rw [List.mem_singleton.1 ht]; exact ha,
         by intro p hp; simp at hp⟩
        ⟨by intro e he; simp at he, List.mem_singleton_self _,
          fun t ht => Or.inl ht⟩ none h1
      obtain ⟨n1, n2⟩ := c2 rfl rest hch
        (fun t ht => (allowedTile_iff goal blocked t).2 (hall t (List.mem_cons_of_mem _ ht)))
      have hmem : goal ∈ a :: rest := List.mem_of_getLast?_eq_some hl
      rcases List.mem_cons.1 hmem with h | h
      · exact n1 h.symm
      · exact n2 h

theorem bfs_last_step (start goal : Tile) (blocked f : List Tile)
    (hf : bfsManhattanAvoiding start goal blocked = some f) (hne : start ≠ goal) :
    ∃ x, adjacent4 x goal ∧ allowedTile goal blocked x ∧ x ≠ goal := by
  obtain ⟨⟨hh, _, hch, _⟩, rest, e1, e2⟩ := bfs_sound start goal blocked f hf
  rcases List.eq_nil_or_concat rest with h | ⟨ini, x, h⟩
  · rw [e1, h] at hh
    simp only [List.nil_append, List.head?_cons, Option.some.injEq] at hh
    exact absurd hh.symm hne
  · rw [List.concat_eq_append] at h
    have hx := e2 x (by rw [h]; simp)
    refine ⟨x, ?_, hx.1, hx.2⟩
    rw [e1, h, List.append_assoc, List.singleton_append, List.chain'_split] at hch
    exact List.chain'_pair.1 hch.2

/-! ## One tick of movement -/

theorem moveLoop_one_segment (hypot : ℚ → ℚ → ℚ) (fuel : Nat) (c : Creep) (remaining : ℚ)
    (tgt : Pt) (htgt : c.points[c.idx]? = some tgt) (hfar : EPS < distTo hypot c tgt)
    (hrem : 0 ≤ remaining)
    (hcorner : ∀ next, c.points[c.idx + 1]? = some next →
      unitAxis (prevPoint c tgt) tgt ≠ unitAxis tgt next) :
    (moveLoop hypot (fuel + 1) c remaining).1.x = (movedTo hypot c tgt remaining).x ∧
      (moveLoop hypot (fuel + 1) c remaining).1.y = (movedTo hypot c tgt remaining).y ∧
      ((moveLoop hypot (fuel + 1) c remaining).2 = LoopExit.returned ∨
        (moveLoop hypot (fuel + 1) c remaining).1.idx
          < (moveLoop hypot (fuel + 1) c remaining).1.points.length) := by
  have hlt : c.idx < c.points.length := (List.getElem?_eq_some_iff.1 htgt).1
  have hpos : 0 < distTo hypot c tgt := lt_trans (by norm_num [EPS]) hfar
  by_cases hr : remaining > 0
  · rw [moveLoop, if_pos ⟨hr, hlt⟩, htgt]
    simp only
    rw [if_neg (not_le.2 hfar)]
    by_cases harr : arrivedAt (movedTo hypot c tgt remaining) tgt
    · rw [if_pos harr]
      cases hn : c.points[c.idx + 1]? with
      | none => exact ⟨rfl, rfl, Or.inl rfl⟩
      | some next =>
        simp only
        rw [if_pos (hcorner next hn)]
        exact ⟨rfl, rfl, Or.inr (List.getElem?_eq_some_iff.1 hn).1⟩
    · rw [if_neg harr]
      exact ⟨rfl, rfl, Or.inr hlt⟩
  · have h0 : remaining = 0 := le_antisymm (not_lt.1 hr) hrem
    have hnot : ¬ (remaining > 0 ∧ c.idx < c.points.length) := fun h => hr h.1
    have hstep : stepLen hypot c tgt remaining = 0 := by
      unfold stepLen
      rw [h0]
      exact min_eq_left (le_of_lt hpos)
    rw [moveLoop, if_neg hnot]
    refine ⟨?_, ?_, Or.inr hlt⟩
    · show c.x = c.x + (tgt.x - c.x) * (1 / max (distTo hypot c tgt) EPS)
        * stepLen hypot c tgt remaining
      rw [hstep]; ring
    · show c.y = c.y + (tgt.y - c.y) * (1 / max (distTo hypot c tgt) EPS)
        * stepLen hypot c tgt remaining
      rw [hstep]; ring

theorem update_one_segment (hypot : ℚ → ℚ → ℚ) (c : Creep) (dt : ℚ) (tgt : Pt)
    (ha : c.alive = true) (htgt : c.points[c.idx]? = some tgt)
    (hfar : EPS < hypot (tgt.x - c.x) (tgt.y - c.y))
    (hb : 0 ≤ (c.tickSlow dt).currentSpeed * dt)
    (hcorner : ∀ next, c.points[c.idx + 1]? = some next →
      unitAxis (prevPoint c tgt) tgt ≠ unitAxis tgt next) :
    (c.update hypot dt).1.x = c.x + (tgt.x - c.x) * (1 / hypot (tgt.x - c.x) (tgt.y - c.y))
        * min ((c.tickSlow dt).currentSpeed * dt) (hypot (tgt.x - c.x) (tgt.y - c.y)) ∧
      (c.update hypot dt).1.y = c.y + (tgt.y - c.y) * (1 / hypot (tgt.x - c.x) (tgt.y - c.y))
        * min ((c.tickSlow dt).currentSpeed * dt) (hypot (tgt.x - c.x) (tgt.y - c.y)) := by
  obtain ⟨f1, _, _, f4, _, _, f7, f8, _⟩ := tickSlow_fields c dt
  have hd : distTo hypot (c.tickSlow dt) tgt = hypot (tgt.x - c.x) (tgt.y - c.y) := by
    unfold distTo; rw [f7, f8]
  have hlt : c.idx < c.points.length := (List.getElem?_eq_some_iff.1 htgt).1
  have hpp : prevPoint (c.tickSlow dt) tgt = prevPoint c tgt := by
    unfold prevPoint; rw [f4, f1]
  obtain ⟨hx, hy, hexit⟩ := moveLoop_one_segment hypot (c.tickSlow dt).points.length
    (c.tickSlow dt) ((c.tickSlow dt).currentSpeed * dt) tgt (by rw [f4, f1]; exact htgt)
    (by rw [hd]; exact hfar) hb (by rw [f4, f1, hpp]; exact hcorner)
  have hmx : (movedTo hypot (c.tickSlow dt) tgt ((c.tickSlow dt).currentSpeed * dt)).x
      = c.x + (tgt.x - c.x) * (1 / hypot (tgt.x - c.x) (tgt.y - c.y))
        * min ((c.tickSlow dt).currentSpeed * dt) (hypot (tgt.x - c.x) (tgt.y - c.y)) := by
    show (c.tickSlow dt).x + (tgt.x - (c.tickSlow dt).x)
        * (1 / max (distTo hypot (c.tickSlow dt) tgt) EPS)
        * min ((c.tickSlow dt).currentSpeed * dt) (distTo hypot (c.tickSlow dt) tgt) = _
    rw [hd, f7, max_eq_left (le_of_lt hfar)]
  have hmy : (movedTo hypot (c.tickSlow dt) tgt ((c.tickSlow dt).currentSpeed * dt)).y
      = c.y + (tgt.y - c.y) * (1 / hypot (tgt.x - c.x) (tgt.y - c.y))
        * min ((c.tickSlow dt).currentSpeed * dt) (hypot (tgt.x - c.x) (tgt.y - c.y)) := by
    show (c.tickSlow dt).y + (tgt.y - (c.tickSlow dt).y)
        * (1 / max (distTo hypot (c.tickSlow dt) tgt) EPS)
        * min ((c.tickSlow dt).currentSpeed * dt) (distTo hypot (c.tickSlow dt) tgt) = _
    rw [hd, f8, max_eq_left (le_of_lt hfar)]
  rw [← hmx, ← hmy, ← hx, ← hy]
  unfold Creep.update
  rw [ha]
  simp only [Bool.not_true, Bool.false_eq_true, if_false]
  rw [if_neg (by rw [f4, f1]; exact not_le.2 hlt)]
  generalize moveLoop hypot ((c.tickSlow dt).points.length + 1) (c.tickSlow dt)
    ((c.tickSlow dt).currentSpeed * dt) = r at hexit ⊢
  obtain ⟨c1, e⟩ := r
  cases e with
  | returned => exact ⟨rfl, rfl⟩
  | fell =>
    simp only at hexit ⊢
    rcases hexit with h | h
    · exact absurd h (by decide)
    · rw [if_neg (not_le.2 h)]
      exact ⟨rfl, rfl⟩

theorem slideCreep_new :
    Creep.new [⟨0, 0⟩, ⟨1, 0⟩, ⟨1, 1⟩] (319995 / 320000) 1 =
      { slideCreep with x := 16, idx := 1, pathIndex := 0 } := by
  have hw : waypointsOf [⟨0, 0⟩, ⟨1, 0⟩, ⟨1, 1⟩] = [⟨16, 16⟩, ⟨48, 16⟩, ⟨48, 48⟩] := by
    rw [waypointsOf_connected _ _ (by simp [adjacent4])]
    norm_num [compressLoop, sgn, tileCentre, TILE]
  unfold Creep.new
  rw [hw]
  norm_num [slideCreep, TILE]

theorem slideCreep_reached (hypot : ℚ → ℚ → ℚ) (h0 : hypot 32 0 = 32) :
    ((Creep.new [⟨0, 0⟩, ⟨1, 0⟩, ⟨1, 1⟩] (319995 / 320000) 1).update hypot 1).1 = slideCreep := by
  rw [slideCreep_new]
  unfold Creep.update
  have h1 : ({ slideCreep with x := 16, idx := 1, pathIndex := 0 } : Creep).tickSlow 1
      = { slideCreep with x := 16, idx := 1, pathIndex := 0 } := by
    norm_num [Creep.tickSlow, slideCreep]
  rw [h1]
  norm_num [slideCreep, moveLoop, distTo, movedTo, stepLen, arrivedAt, advance,
    Creep.currentSpeed, EPS, ARRIVE_TOL, abs_le, h0, unitAxis, prevPoint, sgn]

theorem slideCreep_slides (hypot : ℚ → ℚ → ℚ) (h1 : 32 ≤ hypot (1 / 2000) 32) :
    ¬ onPolyline slideCreep.points (slideCreep.update hypot (1 / 2)).1.x
        (slideCreep.update hypot (1 / 2)).1.y := by
  have hx0 : (⟨48, 48⟩ : Pt).x - slideCreep.x = 1 / 2000 := by norm_num [slideCreep]
  have hy0 : (⟨48, 48⟩ : Pt).y - slideCreep.y = 32 := by norm_num [slideCreep]
  have hsp : (slideCreep.tickSlow (1 / 2)).currentSpeed * (1 / 2) = 319995 / 20000 := by
    norm_num [Creep.tickSlow, Creep.currentSpeed, slideCreep]
  obtain ⟨hx, hy⟩ := update_one_segment hypot slideCreep (1 / 2) ⟨48, 48⟩ rfl rfl
    (by rw [hx0, hy0]; exact lt_of_lt_of_le (by norm_num [EPS]) h1)
    (by rw [hsp]; norm_num)
    (by intro next hn; simp [slideCreep] at hn)
  rw [hx0, hy0, hsp, min_eq_left (le_trans (by norm_num) h1)] at hx hy
  have hpos : (0 : ℚ) < hypot (1 / 2000) 32 := lt_of_lt_of_le (by norm_num) h1
  have hk0 : 0 < 1 / hypot (1 / 2000) 32 * (319995 / 20000) := by positivity
  have hk1 : 1 / hypot (1 / 2000) 32 * (319995 / 20000) < 1 := by
    rw [one_div, inv_mul_lt_iff₀ hpos]
    linarith
  have hxlt : (slideCreep.update hypot (1 / 2)).1.x < 48 := by
    rw [hx]
    have : slideCreep.x = 95999 / 2000 := rfl
    rw [this, mul_assoc]
    nlinarith
  have hygt : 16 < (slideCreep.update hypot (1 / 2)).1.y := by
    rw [hy]
    have : slideCreep.y = 16 := rfl
    rw [this, mul_assoc]
    nlinarith
  rintro ⟨s, hs, hseg⟩
  have hs2 : s = (⟨16, 16⟩, ⟨48, 16⟩) ∨ s = (⟨48, 16⟩, ⟨48, 48⟩) := by
    simpa [slideCreep] using hs
  unfold onSegment at hseg
  rcases hs2 with rfl | rfl
  · rcases hseg with ⟨e, _⟩ | ⟨_, e, _⟩
    · norm_num at e
    · simp only at e
      linarith
  · rcases hseg with ⟨_, e, _⟩ | ⟨e, _⟩
    · simp only at e
      linarith
    · norm_num at e

/-! ## Bounds of the canonical grid -/

theorem sign_step_between (x b lo hi : Int) (hx : lo ≤ x ∧ x ≤ hi) (hb : lo ≤ b ∧ b ≤ hi) :
    lo ≤ x + Int.sign (b - x) ∧ x + Int.sign (b - x) ≤ hi := by
  rcases lt_trichotomy x b with h | h | h
  · rw [Int.sign_eq_one_of_pos (by omega)]; omega
  · rw [h]; simp; omega
  · rw [Int.sign_eq_neg_one_of_neg (by omega)]; omega

theorem inBox_step_c (cur b : Tile) (hc : InBox cur) (hb : InBox b) :
    InBox ⟨cur.c + Int.sign (b.c - cur.c), cur.r⟩ := by
  obtain ⟨h1, h2, h3, h4⟩ := hc
  obtain ⟨b1, b2, _, _⟩ := hb
  have := sign_step_between cur.c b.c 0 (COLS - 1) ⟨h1, h2⟩ ⟨b1, b2⟩
  exact ⟨this.1, this.2, h3, h4⟩

theorem inBox_step_r (cur b : Tile) (hc : InBox cur) (hb : InBox b) :
    InBox ⟨cur.c, cur.r + Int.sign (b.r - cur.r)⟩ := by
  obtain ⟨h1, h2, h3, h4⟩ := hc
  obtain ⟨_, _, b3, b4⟩ := hb
  have := sign_step_between cur.r b.r 1 (ROWS - 2) ⟨h3, h4⟩ ⟨b3, b4⟩
  exact ⟨h1, h2, this.1, this.2⟩

theorem allInBox_cons (t : Tile) (l : List Tile) (ht : InBox t) (hl : AllInBox l) :
    AllInBox (t :: l) := by
  intro x hx
  rcases List.mem_cons.1 hx with h | h
  · rw [h]; exact ht
  · exact hl x h

theorem allInBox_append (l1 l2 : List Tile) (h1 : AllInBox l1) (h2 : AllInBox l2) :
    AllInBox (l1 ++ l2) := by
  intro x hx
  rcases List.mem_append.1 hx with h | h
  · exact h1 x h
  · exact h2 x h

theorem allInBox_nil : AllInBox [] := by
  intro x hx; simp at hx

theorem walkTo_inBox (b : Tile) (hb : InBox b) (fuel : Nat) (cur : Tile) (hc : InBox cur) :
    AllInBox (walkTo b fuel cur) := by
  induction fuel generalizing cur with
  | zero => exact allInBox_nil
  | succ fuel ih =>
    rw [walkTo]
    split_ifs
    · exact allInBox_cons _ _ (inBox_step_c cur b hc hb) (ih _ (inBox_step_c cur b hc hb))
    · exact allInBox_cons _ _ (inBox_step_r cur b hc hb) (ih _ (inBox_step_r cur b hc hb))
    · exact allInBox_nil

theorem carveWalk_inBox (hf : Bool) (b : Tile) (hb : InBox b) (fuel : Nat) (cur : Tile)
    (hc : InBox cur) : AllInBox (carveWalk hf b fuel cur) := by
  induction fuel generalizing cur with
  | zero => exact allInBox_nil
  | succ fuel ih =>
    rw [carveWalk]
    split_ifs
    · exact allInBox_cons _ _ (inBox_step_c cur b hc hb) (ih _ (inBox_step_c cur b hc hb))
    · exact allInBox_cons _ _ (inBox_step_r cur b hc hb) (ih _ (inBox_step_r cur b hc hb))
    · exact ih cur hc
    · exact allInBox_cons _ _ (inBox_step_r cur b hc hb) (ih _ (inBox_step_r cur b hc hb))
    · exact allInBox_cons _ _ (inBox_step_c cur b hc hb) (ih _ (inBox_step_c cur b hc hb))
    · exact ih cur hc
    · exact allInBox_nil

theorem pushStart_inBox (out : List Tile) (a : Tile) (ho : AllInBox out) (ha : InBox a) :
    AllInBox (pushStart out a) := by
  unfold pushStart
  split
  · split_ifs
    · exact allInBox_cons _ _ ha ho
    · exact ho
  · exact allInBox_cons _ _ ha allInBox_nil

theorem carveSegment_inBox (out : List Tile) (a b : Tile) (g : RNG) (ho : AllInBox out)
    (ha : InBox a) (hb : InBox b) : AllInBox (carveSegment out a b g).1 := by
  unfold carveSegment
  apply allInBox_append
  · intro t ht
    exact carveWalk_inBox _ b hb _ a ha t (List.mem_reverse.1 ht)
  · exact pushStart_inBox out a ho ha

theorem pushUnique_inBox (out : List Tile) (t : Tile) (ho : AllInBox out) (ht : InBox t) :
    AllInBox (pushUnique out t) := by
  unfold pushUnique
  split
  · split_ifs
    · exact allInBox_cons _ _ ht ho
    · exact ho
  · exact allInBox_cons _ _ ht allInBox_nil

theorem foldl_pushUnique_inBox (l out : List Tile) (ho : AllInBox out) (hl : AllInBox l) :
    AllInBox (l.foldl pushUnique out) := by
  induction l generalizing out with
  | nil => exact ho
  | cons t l ih =>
    exact ih _ (pushUnique_inBox out t ho (hl t (List.mem_cons_self _ _)))
      (fun x hx => hl x (List.mem_cons_of_mem _ hx))

theorem rewalk_inBox (out : List Tile) (b : Tile) (ho : AllInBox out) (hb : InBox b) :
    AllInBox (rewalk out b) := by
  unfold rewalk
  split
  · next a rest =>
    exact foldl_pushUnique_inBox _ _ ho
      (walkTo_inBox b hb _ a (ho a (List.mem_cons_self _ _)))
  · exact ho

theorem foldl_rewalk_inBox (l out : List Tile) (ho : AllInBox out) (hl : AllInBox l) :
    AllInBox (l.foldl rewalk out) := by
  induction l generalizing out with
  | nil => exact ho
  | cons t l ih =>
    exact ih _ (rewalk_inBox out t ho (hl t (List.mem_cons_self _ _)))
      (fun x hx => hl x (List.mem_cons_of_mem _ hx))

theorem dropBacktrack_inBox (out : List Tile) (cur : Tile) (ho : AllInBox out) (hc : InBox cur) :
    AllInBox (dropBacktrack out cur) := by
  unfold dropBacktrack
  split
  · next x prev2 rest =>
    split_ifs
    · exact allInBox_cons _ _ hc (fun t ht => ho t (List.mem_cons_of_mem _ ht))
    · exact allInBox_cons _ _ hc ho
  · exact allInBox_cons _ _ hc ho

theorem foldl_dropBacktrack_inBox (l out : List Tile) (ho : AllInBox out) (hl : AllInBox l) :
    AllInBox (l.foldl dropBacktrack out) := by
  induction l generalizing out with
  | nil => exact ho
  | cons t l ih =>
    exact ih _ (dropBacktrack_inBox out t ho (hl t (List.mem_cons_self _ _)))
      (fun x hx => hl x (List.mem_cons_of_mem _ hx))

theorem sanitizePath_inBox (path : List Tile) (h : AllInBox path) :
    AllInBox (sanitizePath path) := by
  unfold sanitizePath
  cases path with
  | nil => exact allInBox_nil
  | cons p0 rest =>
    simp only
    intro t ht
    rw [List.mem_reverse] at ht
    refine foldl_dropBacktrack_inBox _ _ allInBox_nil ?_ t ht
    intro x hx
    rw [List.mem_reverse] at hx
    exact foldl_rewalk_inBox rest _
      (pushUnique_inBox [] p0 allInBox_nil (h p0 (List.mem_cons_self _ _)))
      (fun y hy => h y (List.mem_cons_of_mem _ hy)) x hx

theorem clampi_le_hi (v lo hi : Int) (h : lo ≤ v) : clampi v lo hi ≤ hi ∧ clampi v lo hi ≤ v := by
  unfold clampi
  split_ifs <;> omega

theorem clampi_bounds (v lo hi : Int) (h : lo ≤ hi) : lo ≤ clampi v lo hi ∧ clampi v lo hi ≤ hi := by
  unfold clampi
  split_ifs <;> omega

theorem signOr1_cases (d : Int) : signOr1 d = 1 ∨ signOr1 d = -1 := by
  unfold signOr1
  rcases lt_trichotomy d 0 with h | h | h
  · rw [Int.sign_eq_neg_one_of_neg h]; right; simp
  · rw [h]; left; simp
  · rw [Int.sign_eq_one_of_pos h]; left; simp

theorem arena_col (jc dc w : Int) (hj : 0 ≤ jc ∧ jc ≤ COLS - 1) (hw2 : ¬ w < 2)
    (hw : w ≤ (if signOr1 dc > 0 then COLS - 2 - jc else jc - 1)) :
    0 ≤ jc + signOr1 dc * w ∧ jc + signOr1 dc * w ≤ COLS - 1 := by
  simp only [COLS] at *
  rcases signOr1_cases dc with h | h <;> rw [h] at hw ⊢ <;> simp at hw <;> omega

theorem arena_row (jr h : Int) (dirY : Int) (hd : dirY = 1 ∨ dirY = -1)
    (hj : 1 ≤ jr ∧ jr ≤ ROWS - 2) (hh2 : ¬ h < 2)
    (hh : h ≤ (if dirY > 0 then ROWS - 2 - jr else jr - 1)) :
    1 ≤ jr + dirY * h ∧ jr + dirY * h ≤ ROWS - 2 := by
  simp only [ROWS] at *
  rcases hd with h1 | h1 <;> rw [h1] at hh ⊢ <;> simp at hh <;> omega

theorem arena_chain (out : List Tile) (a j A B C b : Tile) (g0 g1 g2 g3 g4 : RNG)
    (ho : AllInBox out) (ha : InBox a) (hj : InBox j) (hA : InBox A) (hB : InBox B)
    (hC : InBox C) (hb : InBox b) :
    AllInBox (carveSegment (carveSegment (carveSegment (carveSegment
      (carveSegment out a j g0).1 j A g1).1 A B g2).1 B C g3).1 C b g4).1 :=
  carveSegment_inBox _ _ _ _ (carveSegment_inBox _ _ _ _ (carveSegment_inBox _ _ _ _
    (carveSegment_inBox _ _ _ _ (carveSegment_inBox _ _ _ _ ho ha hj) hj hA) hA hB) hB hC) hC hb

theorem clampi_arena (k lo hi n : Int) (g : RNG) (hk : lo ≤ k) :
    clampi (k + (g.int1 n).1) lo hi = min (k + (g.int1 n).1) hi := by
  have := int1_nonneg g n
  unfold clampi
  split_ifs <;> omega

theorem clampi_5 (hi n : Int) (g : RNG) :
    clampi (5 + (g.int1 n).1) 3 hi = min (5 + (g.int1 n).1) hi :=
  clampi_arena 5 3 hi n g (by decide)

theorem clampi_3 (hi n : Int) (g : RNG) :
    clampi (3 + (g.int1 n).1) 2 hi = min (3 + (g.int1 n).1) hi :=
  clampi_arena 3 2 hi n g (by decide)

theorem arena_j_inBox (a b : Tile) (hf : Bool) (ha : InBox a) (hb : InBox b) :
    InBox ⟨a.c + (if hf = true then Int.sign (b.c - a.c) else 0),
      a.r + (if hf = true then 0 else Int.sign (b.r - a.r))⟩ := by
  cases hf with
  | true =>
    have := inBox_step_c a b ha hb
    simpa using this
  | false =>
    have := inBox_step_r a b ha hb
    simpa using this

theorem arena_corners_inBox (j : Tile) (dc w h dirY : Int) (hj : InBox j)
    (hd : dirY = 1 ∨ dirY = -1) (hw2 : ¬ w < 2) (hh2 : ¬ h < 2)
    (hw : w ≤ (if signOr1 dc > 0 then COLS - 2 - j.c else j.c - 1))
    (hh : h ≤ (if dirY > 0 then ROWS - 2 - j.r else j.r - 1)) :
    InBox ⟨j.c, j.r + dirY * h⟩ ∧ InBox ⟨j.c + signOr1 dc * w, j.r + dirY * h⟩ ∧
      InBox ⟨j.c + signOr1 dc * w, j.r⟩ := by
  obtain ⟨j1, j2, j3, j4⟩ := hj
  have hc := arena_col j.c dc w ⟨j1, j2⟩ hw2 hw
  have hr := arena_row j.r h dirY hd ⟨j3, j4⟩ hh2 hh
  exact ⟨⟨j1, j2, hr.1, hr.2⟩, ⟨hc.1, hc.2, hr.1, hr.2⟩, ⟨hc.1, hc.2, j3, j4⟩⟩

theorem arena_inBox (out : List Tile) (a b : Tile) (g : RNG) (ho : AllInBox out)
    (ha : InBox a) (hb : InBox b) : AllInBox (carveSegmentWithOptionalArena out a b g).1 := by
  unfold carveSegmentWithOptionalArena
  lift_lets
  extract_lets len want dc dr horizFavored j s0 dirX upSpace downSpace dirY
  intro maxForward maxVert dw w dh h A B C s1 s2 s3 dw1 w1 dh1 h1 A1 B1 C1 t1 t2 t3
  have hj : InBox j := arena_j_inBox a b horizFavored ha hb
  have hd : dirY = 1 ∨ dirY = -1 := by
    show (if downSpace ≥ upSpace then (1 : Int) else -1) = 1 ∨
      (if downSpace ≥ upSpace then (1 : Int) else -1) = -1
    split_ifs
    · left; rfl
    · right; rfl
  have hs0 : AllInBox s0.1 := carveSegment_inBox out a j want.2 ho ha hj
  by_cases c1 : (!want.1) = true
  · rw [if_pos c1]
    exact carveSegment_inBox _ _ _ _ ho ha hb
  · rw [if_neg c1]
    by_cases c2 : horizFavored = true
    · rw [if_pos c2]
      by_cases c3 : w < 2 ∨ h < 2
      · rw [if_pos c3]
        exact carveSegment_inBox _ _ _ _ hs0 hj hb
      · rw [if_neg c3]
        have hw : w ≤ maxForward := (clampi_le_hi _ 3 maxForward (by
          have := int1_nonneg s0.2 6
          show (3 : Int) ≤ 5 + (s0.2.int1 6).1
          omega)).1
        have hh : h ≤ maxVert := (clampi_le_hi _ 2 maxVert (by
          have := int1_nonneg dw.2 4
          show (2 : Int) ≤ 3 + (dw.2.int1 4).1
          omega)).1
        obtain ⟨hA, hB, hC⟩ := arena_corners_inBox j dc w h dirY hj hd
          (fun x => c3 (Or.inl x)) (fun x => c3 (Or.inr x)) hw hh
        exact carveSegment_inBox _ _ _ _ (carveSegment_inBox _ _ _ _
          (carveSegment_inBox _ _ _ _ (carveSegment_inBox _ _ _ _ hs0 hj hA) hA hB) hB hC) hC hb
    · rw [if_neg c2]
      by_cases c3 : w1 < 2 ∨ h1 < 2
      · rw [if_pos c3]
        exact carveSegment_inBox _ _ _ _ hs0 hj hb
      · rw [if_neg c3]
        have hw : w1 ≤ maxForward := (clampi_le_hi _ 2 maxForward (by
          have := int1_nonneg s0.2 4
          show (2 : Int) ≤ 3 + (s0.2.int1 4).1
          omega)).1
        have hh : h1 ≤ maxVert := (clampi_le_hi _ 3 maxVert (by
          have := int1_nonneg dw1.2 6
          show (3 : Int) ≤ 5 + (dw1.2.int1 6).1
          omega)).1
        obtain ⟨hA, hB, hC⟩ := arena_corners_inBox j dc w1 h1 dirY hj hd
          (fun x => c3 (Or.inl x)) (fun x => c3 (Or.inr x)) hw hh
        exact carveSegment_inBox _ _ _ _ (carveSegment_inBox _ _ _ _
          (carveSegment_inBox _ _ _ _ (carveSegment_inBox _ _ _ _ hs0 hj hC) hC hB) hB hA) hA hb

theorem carveAll_inBox (nodes out : List Tile) (g : RNG) (hn : AllInBox nodes)
    (ho : AllInBox out) : AllInBox (carveAll nodes out g).1 := by
  induction nodes generalizing out g with
  | nil =>
    rw [carveAll]
    · exact ho
    · intro _ _ _ h; cases h
  | cons a rest ih =>
    cases rest with
    | nil =>
      rw [carveAll]
      · exact ho
      · intro _ _ _ h; cases h
    | cons b rest =>
      rw [carveAll]
      exact ih _ _ (fun t ht => hn t (List.mem_cons_of_mem _ ht))
        (arena_inBox out a b g ho (hn a (List.mem_cons_self _ _))
          (hn b (List.mem_cons_of_mem _ (List.mem_cons_self _ _))))

theorem columnsLoop_bounds (fuel : Nat) (c : Int) (g : RNG) (hc : 0 ≤ c) :
    ∀ wc ∈ (columnsLoop fuel c g).1, 0 ≤ wc ∧ wc < COLS - 4 := by
  induction fuel generalizing c g with
  | zero => intro wc hwc; simp [columnsLoop] at hwc
  | succ fuel ih =>
    rw [columnsLoop]
    split_ifs with h
    · intro wc hwc
      rcases List.mem_cons.1 hwc with e | e
      · rw [e]; exact ⟨hc, h⟩
      · exact ih _ _ (by have := int1_nonneg g 7; omega) wc e
    · intro wc hwc; simp at hwc

theorem waypointsLoop_inBox (cols : List Int) (lastRow : Int) (g : RNG)
    (hc : ∀ wc ∈ cols, 0 ≤ wc ∧ wc ≤ COLS - 1) : AllInBox (waypointsLoop cols lastRow g).1 := by
  induction cols generalizing lastRow g with
  | nil => rw [waypointsLoop]; exact allInBox_nil
  | cons wc rest ih =>
    rw [waypointsLoop]
    simp only
    apply allInBox_cons
    · have hb := clampi_bounds
        (lastRow + (if (g.chance 1 2).1 = true then 1 else -1)
          * (3 + ((g.chance 1 2).2.int1 (max 2 (ROWS / 4))).1)) 1 (ROWS - 2) (by decide)
      have hw := hc wc (List.mem_cons_self _ _)
      exact ⟨hw.1, hw.2, hb.1, hb.2⟩
    · exact ih _ _ (fun x hx => hc x (List.mem_cons_of_mem _ hx))

theorem sampleIndex_lt (len maxLen i : Nat) (hm : 2 ≤ maxLen) (hl : 1 ≤ len)
    (hi : i ≤ maxLen - 2) : sampleIndex len maxLen i < len := by
  unfold sampleIndex
  rw [Nat.div_lt_iff_lt_mul (by omega)]
  obtain ⟨m, rfl⟩ : ∃ m, maxLen = m + 2 := ⟨maxLen - 2, by omega⟩
  obtain ⟨l, rfl⟩ : ∃ l, len = l + 1 := ⟨len - 1, by omega⟩
  simp only [Nat.add_sub_cancel] at hi ⊢
  have h1 : i * l ≤ m * l := Nat.mul_le_mul_right l hi
  have e1 : m + 2 - 1 = m + 1 := by omega
  rw [e1]
  nlinarith

theorem keepTiles_inBox (path : List Tile) (maxLen : Nat) (h : AllInBox path) (hm : 2 ≤ maxLen)
    (hl : 1 ≤ path.length) : AllInBox (keepTiles path maxLen) := by
  unfold keepTiles
  intro t ht
  simp only [List.mem_append, List.mem_map, List.mem_range, Option.mem_toList,
    Option.mem_def] at ht
  rcases ht with (ht | ⟨k, hk, rfl⟩) | ht
  · exact h t (List.mem_of_mem_head? ht)
  · have hlt := sampleIndex_lt path.length maxLen (k + 1) hm hl (by omega)
    rw [List.getD_eq_getElem _ _ hlt]
    exact h _ (List.getElem_mem _)
  · exact h t (List.mem_of_getLast?_eq_some ht)

theorem limitPathLength_inBox (path : List Tile) (maxLen : Nat) (h : AllInBox path) :
    AllInBox (limitPathLength path maxLen) := by
  unfold limitPathLength
  split_ifs with h1 h2 h3
  · exact h
  · exact sanitizePath_inBox _ (fun t ht => h t (List.mem_of_mem_head? (by simpa using ht)))
  · exact sanitizePath_inBox _
      (fun t ht => h t (List.mem_of_getLast?_eq_some (by simpa using ht)))
  · exact sanitizePath_inBox _ (keepTiles_inBox path maxLen h (by omega) (by omega))

theorem canonRoute_path_form (g : RNG) :
    ∃ (r1 r2 c0 : Int) (g1 g2 g3 : RNG), 0 ≤ c0 ∧
      (canonRoute g).path = sanitizePath (carveAll
        ([⟨0, clampi r1 1 (ROWS - 2)⟩]
          ++ (waypointsLoop (columnsLoop COLS.toNat c0 g1).1 (clampi r1 1 (ROWS - 2)) g2).1
          ++ [⟨COLS - 1, clampi r2 1 (ROWS - 2)⟩]) [] g3).1.reverse :=
  ⟨_, _, _, _, _, _, Int.add_nonneg (by decide) (int1_nonneg _ 3), rfl⟩

theorem canonRoute_inBox (g : RNG) :
    AllInBox (canonRoute g).path ∧ InBox (canonRoute g).spawn ∧ InBox (canonRoute g).base := by
  have hrow : ∀ v : Int, InBox ⟨0, clampi v 1 (ROWS - 2)⟩ ∧
      InBox ⟨COLS - 1, clampi v 1 (ROWS - 2)⟩ := by
    intro v
    have hb := clampi_bounds v 1 (ROWS - 2) (by decide)
    exact ⟨⟨by show (0 : Int) ≤ 0; decide, by show (0 : Int) ≤ COLS - 1; decide, hb.1, hb.2⟩,
      ⟨by show (0 : Int) ≤ COLS - 1; decide, by show COLS - 1 ≤ COLS - 1; decide, hb.1, hb.2⟩⟩
  refine ⟨?_, ?_, ?_⟩
  · obtain ⟨r1, r2, c0, g1, g2, g3, hc0, hp⟩ := canonRoute_path_form g
    rw [hp]
    apply sanitizePath_inBox
    intro t ht
    rw [List.mem_reverse] at ht
    refine carveAll_inBox _ _ _ ?_ allInBox_nil t ht
    apply allInBox_append
    · apply allInBox_append
      · exact allInBox_cons _ _ (hrow _).1 allInBox_nil
      · apply waypointsLoop_inBox
        intro wc hwc
        have := columnsLoop_bounds COLS.toNat c0 g1 hc0 wc hwc
        simp only [COLS] at this ⊢
        omega
    · exact allInBox_cons _ _ (hrow _).2 allInBox_nil
  · rw [(canonRoute_rows g).1]
    exact (hrow _).1
  · rw [(canonRoute_rows g).2]
    exact (hrow _).2

theorem bfs_under_mask (path : List Tile) (merge start : Tile) (hm : merge ∈ path)
    (hne : start ≠ merge) :
    bfsManhattanAvoiding start merge (buildBufferMaskFromPath path merge) = none := by
  cases hb : bfsManhattanAvoiding start merge (buildBufferMaskFromPath path merge) with
  | none => rfl
  | some f =>
    exfalso
    obtain ⟨x, h1, h2, h3⟩ := bfs_last_step start merge _ f hb hne
    obtain ⟨h4, h5⟩ := allowedTile_unblocked merge _ x h2 h3
    exact h5 (mask_blocks_neighbours path merge merge x hm h1 h4 h3)

theorem simpleSegment_inBox (a b : Tile) (ha : InBox a) (hb : InBox b) :
    AllInBox (simpleSegment a b) :=
  allInBox_cons _ _ ha (walkTo_inBox b hb _ a ha)

theorem feederPath_inBox (path : List Tile) (merge s : Tile) (hm : merge ∈ path)
    (hp : AllInBox path) (hs : InBox s) :
    AllInBox (feederPath s merge (buildBufferMaskFromPath path merge)) := by
  have hseg := simpleSegment_inBox s merge hs (hp merge hm)
  unfold feederPath
  by_cases hne : s = merge
  · cases hb : bfsManhattanAvoiding s merge (buildBufferMaskFromPath path merge) with
    | none => exact hseg
    | some f =>
      simp only
      split_ifs
      · obtain ⟨⟨hh, _⟩, rest, e1, e2⟩ := bfs_sound s merge _ f hb
        cases rest with
        | nil =>
          rw [e1]
          exact allInBox_cons _ _ (hp merge hm) allInBox_nil
        | cons x rest =>
          exfalso
          rw [e1] at hh
          simp only [List.cons_append, List.head?_cons, Option.some.injEq] at hh
          exact (e2 x (List.mem_cons_self _ _)).2 (hh.trans hne)
      · exact hseg
  · rw [bfs_under_mask path merge s hm hne]
    exact hseg

theorem dedupRow_bounds (usedRows : List Int) (tries : Nat) (jr : Int) (g : RNG)
    (h : 1 ≤ jr ∧ jr ≤ ROWS - 2) :
    1 ≤ (dedupRow usedRows tries jr g).1 ∧ (dedupRow usedRows tries jr g).1 ≤ ROWS - 2 := by
  induction tries generalizing jr g with
  | zero => exact h
  | succ tries ih =>
    rw [dedupRow]
    by_cases hc : usedRows.contains jr = true
    · rw [if_pos hc]
      exact ih _ _ (clampi_bounds _ 1 (ROWS - 2) (by decide))
    · rw [if_neg hc]
      exact h

theorem extraSpawn_inBox (path : List Tile) (merge : Tile) (hm : merge ∈ path)
    (hp : AllInBox path) (st : SplitState) (h : SplitInBox st) :
    SplitInBox (extraSpawn merge (buildBufferMaskFromPath path merge) st) := by
  have hs : InBox ⟨0, (dedupRow st.usedRows 8
      (clampi (merge.r + (if (st.rng.chance 1 2).1 = true then 1 else -1)
        * (2 + ((st.rng.chance 1 2).2.int1 3).1)) 1 (ROWS - 2))
      ((st.rng.chance 1 2).2.int1 3).2).1⟩ := by
    have hb := dedupRow_bounds st.usedRows 8 _ ((st.rng.chance 1 2).2.int1 3).2
      (clampi_bounds (merge.r + (if (st.rng.chance 1 2).1 = true then 1 else -1)
        * (2 + ((st.rng.chance 1 2).2.int1 3).1)) 1 (ROWS - 2) (by decide))
    exact ⟨by show (0 : Int) ≤ 0; decide, by show (0 : Int) ≤ COLS - 1; decide, hb.1, hb.2⟩
  unfold extraSpawn
  simp only
  refine ⟨allInBox_append _ _ h.1 (allInBox_cons _ _ hs allInBox_nil), ?_⟩
  intro p hpm
  rcases List.mem_append.1 hpm with e | e
  · exact h.2 p e
  · rw [List.mem_singleton.1 e]
    exact feederPath_inBox path merge _ hm hp hs

theorem iterate_extraSpawn_inBox (path : List Tile) (merge : Tile) (hm : merge ∈ path)
    (hp : AllInBox path) (n : Nat) (st : SplitState) (h : SplitInBox st) :
    SplitInBox (Nat.iterate (extraSpawn merge (buildBufferMaskFromPath path merge)) n st) := by
  induction n generalizing st with
  | zero => exact h
  | succ n ih =>
    rw [Function.iterate_succ_apply]
    exact ih _ (extraSpawn_inBox path merge hm hp st h)

theorem buildSplit_inBox (cells : List Nat) (path : List Tile) (g : RNG) (hp : AllInBox path) :
    SplitInBox (buildSplitEntrancesBuffered cells path g) := by
  have hprim : InBox ⟨0, (path.head?.map Tile.r).getD 1⟩ := by
    cases path with
    | nil => exact ⟨by decide, by decide, by decide, by decide⟩
    | cons p rest =>
      have := hp p (List.mem_cons_self _ _)
      exact ⟨by show (0 : Int) ≤ 0; decide, by show (0 : Int) ≤ COLS - 1; decide,
        this.2.2.1, this.2.2.2⟩
  have h0 : ∀ r : RNG, SplitInBox
      { spawns := [⟨0, (path.head?.map Tile.r).getD 1⟩]
        prefixes := [[]]
        cells := cells
        usedRows := [(path.head?.map Tile.r).getD 1]
        rng := r } := by
    intro r
    refine ⟨allInBox_cons _ _ hprim allInBox_nil, ?_⟩
    intro p hpm
    rw [List.mem_singleton.1 hpm]
    exact allInBox_nil
  unfold buildSplitEntrancesBuffered
  simp only
  split_ifs with h1 h2
  · exact h0 _
  · exact h0 _
  · refine iterate_extraSpawn_inBox path _ ?_ hp _ _ (h0 _)
    have hlen : (8 : Int) ≤ (path.length : Int) := by omega
    have hb := clampi_bounds
      (3 + ((drawExtra g).2.int1 (max 1 (min 14 ((path.length : Int) - 4) - 3))).1) 2
      ((path.length : Int) - 3) (by omega)
    have hlt : (clampi
      (3 + ((drawExtra g).2.int1 (max 1 (min 14 ((path.length : Int) - 4) - 3))).1) 2
      ((path.length : Int) - 3)).toNat < path.length := by omega
    rw [List.getD_eq_getElem _ _ hlt]
    exact List.getElem_mem _

theorem canonInBox_of_split (sp : SplitState) (cells : List Nat) (path : List Tile) (base : Tile)
    (n : Nat) (hp : AllInBox path) (hb : InBox base) (hs : SplitInBox sp)
    (hshape : SplitShape sp n) :
    CanonInBox
      { cells := cells, path := path, spawn := sp.spawns.headD ⟨0, 0⟩, base := base,
        spawns := sp.spawns, spawnPrefixes := sp.prefixes } := by
  refine ⟨hp, hs.1, hs.2, ?_, hb⟩
  show InBox (sp.spawns.headD ⟨0, 0⟩)
  have hl := hshape.spawns_len
  cases hsp : sp.spawns with
  | nil => rw [hsp] at hl; simp at hl
  | cons s rest =>
    exact hs.1 s (by rw [hsp]; exact List.mem_cons_self _ _)

theorem generateCanonicalLR_inBox (g : RNG) : CanonInBox (generateCanonicalLR g).1 := by
  obtain ⟨hp, _, hb⟩ := canonRoute_inBox g
  obtain ⟨n, _, hshape⟩ := buildSplit_shape (canonCells (canonRoute g)) (canonRoute g).path
    (canonRoute g).rng
  rw [generateCanonicalLR_fst]
  exact canonInBox_of_split
    (buildSplitEntrancesBuffered (canonCells (canonRoute g)) (canonRoute g).path (canonRoute g).rng)
    _ _ _ n hp hb
    (buildSplit_inBox (canonCells (canonRoute g)) (canonRoute g).path (canonRoute g).rng hp)
    hshape

theorem trimCanon_inBox (canon : Grid) (h : CanonInBox canon) : CanonInBox (trimCanon canon) := by
  obtain ⟨h1, h2, h3, h4, h5⟩ := h
  unfold trimCanon
  split_ifs
  · exact ⟨limitPathLength_inBox _ _ h1, h2, h3, h4, h5⟩
  · exact ⟨h1, h2, h3, h4, h5⟩

theorem inBounds_of_inBox (t : Tile) (h : InBox t) : Grid.inBounds t.c t.r = true := by
  obtain ⟨h1, h2, h3, h4⟩ := h
  unfold Grid.inBounds
  simp only [COLS, ROWS] at *
  simp only [Bool.and_eq_true, decide_eq_true_eq]
  omega
/-! ### Rounding of the generator state, and the steps of `shuffle` -/

theorem roundNat53_ge (n : Nat) : n - n / 2 ^ 53 ≤ roundNat53 n := by
  unfold roundNat53
  simp only
  generalize he : halvings 1024 n = e
  have hdm := Nat.div_add_mod n (2 ^ e)
  rcases Nat.eq_zero_or_pos e with h0 | hpos
  · subst h0
    simp [Nat.mod_one]
  · have h52 : 2 ^ (e + 52) ≤ n := by
      rcases halvings_le 1024 n with h | h
      · omega
      · rwa [he] at h
    have hhalf : 2 ^ (e - 1) ≤ n / 2 ^ 53 := by
      rw [Nat.le_div_iff_mul_le (by positivity)]
      calc 2 ^ (e - 1) * 2 ^ 53 = 2 ^ (e + 52) := by
            rw [← pow_add]
            congr 1
            omega
        _ ≤ n := h52
    have hmul : n / 2 ^ e * 2 ^ e = 2 ^ e * (n / 2 ^ e) := Nat.mul_comm _ _
    have hup : (n / 2 ^ e + 1) * 2 ^ e = 2 ^ e * (n / 2 ^ e) + 2 ^ e := by ring
    split_ifs with h1 h2 h3
    · omega
    · omega
    · omega
    · omega

theorem mulberry32_state_eq (g : RNG) :
    g.mulberry32.2.state =
      if g.state < 2 ^ 53 - 0x6D2B79F5 then g.state + 0x6D2B79F5
      else roundNat53 (g.state + 0x6D2B79F5) := rfl

theorem mulberry32_state_ge (g : RNG) :
    g.state + 0x6D2B79F5 - (g.state + 0x6D2B79F5) / 2 ^ 53 ≤ g.mulberry32.2.state := by
  rw [mulberry32_state_eq]
  split_ifs with h
  · omega
  · exact roundNat53_ge _

theorem after_add (g : RNG) (a b : Nat) : g.after (a + b) = (g.after a).after b := by
  induction a generalizing g with
  | zero => simp [RNG.after]
  | succ a ih =>
    rw [show a + 1 + b = (a + b) + 1 by omega, RNG.after, RNG.after, ih]

theorem after_three_ge (g : RNG) : 2 ^ 32 ≤ (g.after 3).state := by
  have h1 := mulberry32_state_ge g
  have h2 := mulberry32_state_ge g.mulberry32.2
  have h3 := mulberry32_state_ge g.mulberry32.2.mulberry32.2
  show 2 ^ 32 ≤ g.mulberry32.2.mulberry32.2.mulberry32.2.state
  omega

theorem seed_state : (RNG.ofSeed "seed").state = 131604589 := by decide!

theorem seed_after_58 :
    ((RNG.ofSeed "seed").after 4917758).state = 9007197561011843 := by
  rw [after_state _ _ (by rw [seed_state]; norm_num), seed_state]

theorem seed_after_59 :
    (RNG.ofSeed "seed").after 4917759 = ⟨9007199392577656⟩ := by
  have h : ((RNG.ofSeed "seed").after 4917759).state = 9007199392577656 := by
    rw [show 4917759 = 4917758 + 1 by norm_num, after_add]
    show ((RNG.ofSeed "seed").after 4917758).mulberry32.2.state = _
    rw [mulberry32_state_eq, seed_after_58]
    decide!
  cases hg : (RNG.ofSeed "seed").after 4917759 with
  | mk s =>
    rw [hg] at h
    exact congrArg RNG.mk h

theorem seed_after_60 :
    ((RNG.ofSeed "seed").after 4917760).state = 9007201224143468 := by
  rw [show 4917760 = 4917759 + 1 by norm_num, after_add, seed_after_59]
  decide!

theorem shuffleFrom_foldl {α : Type} (k : Nat) (arr : List α) (g : RNG) :
    shuffleFrom k arr g =
      (List.range' 1 k).reverse.foldl (fun s i => shuffleStep s.1 i s.2) (arr, g) := by
  induction k generalizing arr g with
  | zero => rfl
  | succ k ih =>
    rw [shuffleFrom, ih, List.range'_1_concat, List.reverse_append]
    simp only [List.reverse_cons, List.reverse_nil, List.nil_append, List.singleton_append,
      List.foldl_cons]
    rw [Nat.add_comm 1 k]

theorem shuffleStep_swaps {α : Type} (a : List α) (g : RNG) (i j : Nat)
    (hj : j = ((g.int1 ((i : Int) + 1)).1).toNat) (hi : i < a.length) (hji : j ≤ i) :
    (shuffleStep a i g).1[i]? = a[j]? ∧ (shuffleStep a i g).1[j]? = a[i]? ∧
      ∀ k, k ≠ i → k ≠ j → (shuffleStep a i g).1[k]? = a[k]? := by
  have hjl : j < a.length := lt_of_le_of_lt hji hi
  unfold shuffleStep
  simp only
  rw [← hj, List.getElem?_eq_getElem hi, List.getElem?_eq_getElem hjl]
  simp only
  refine ⟨?_, ?_, ?_⟩
  · by_cases h : j = i
    · subst h
      simp [List.getElem?_set, hi]
    · simp [List.getElem?_set, h, hi, hjl]
  · simp [List.getElem?_set, hi, hjl]
  · intro k hk1 hk2
    simp [List.getElem?_set, Ne.symm hk1, Ne.symm hk2]

/-! ### Wave starts and updates -/

theorem update_fields (ws : WaveSystem) (dt : ℚ) :
    (ws.update dt).1.waveNumber = ws.waveNumber ∧ (ws.update dt).1.waveIndex = ws.waveIndex ∧
      (ws.update dt).1.hpScale = ws.hpScale ∧ (ws.update dt).1.spdScale = ws.spdScale ∧
      (ws.update dt).1.multiSpawnActivationWave = ws.multiSpawnActivationWave ∧
      (ws.update dt).1.spawnPoints = ws.spawnPoints ∧ (ws.update dt).1.waves = ws.waves := by
  unfold WaveSystem.update
  split_ifs <;> exact ⟨rfl, rfl, rfl, rfl, rfl, rfl, rfl⟩

theorem drain_subset (ws : WaveSystem) (clock : ℚ) (q : List SpawnJob) :
    ∀ j ∈ (ws.drain clock q).1, j ∈ q := by
  induction q with
  | nil => intro j hj; simp [WaveSystem.drain] at hj
  | cons job rest ih =>
    intro j hj
    rw [WaveSystem.drain] at hj
    split_ifs at hj with h
    · exact List.mem_cons_of_mem _ (ih j hj)
    · exact hj

theorem update_queue_subset (ws : WaveSystem) (dt : ℚ) :
    ∀ j ∈ (ws.update dt).1.queue, j ∈ ws.queue := by
  intro j hj
  unfold WaveSystem.update at hj
  by_cases h : (!ws.active) = true
  · rw [if_pos h] at hj
    exact hj
  · rw [if_neg h] at hj
    exact drain_subset ws _ _ j hj

theorem update_count (ws : WaveSystem) (dt : ℚ) :
    (ws.update dt).1.getActiveSpawnsCount = ws.getActiveSpawnsCount := by
  obtain ⟨h1, -, -, -, h5, h6, -⟩ := update_fields ws dt
  unfold WaveSystem.getActiveSpawnsCount
  rw [h1, h5, h6]

theorem updates_count_queue (dts : List ℚ) (ws : WaveSystem) :
    (ws.updates dts).getActiveSpawnsCount = ws.getActiveSpawnsCount ∧
      ∀ j ∈ (ws.updates dts).queue, j ∈ ws.queue := by
  induction dts generalizing ws with
  | nil => exact ⟨rfl, fun j hj => hj⟩
  | cons dt rest ih =>
    obtain ⟨h1, h2⟩ := ih (ws.update dt).1
    refine ⟨?_, ?_⟩
    · show ((ws.update dt).1.updates rest).getActiveSpawnsCount = _
      rw [h1, update_count]
    · intro j hj
      exact update_queue_subset ws dt j (h2 j hj)

theorem drain_all (ws : WaveSystem) (clock : ℚ) (q : List SpawnJob)
    (h : ∀ j ∈ q, j.fireAt ≤ clock) : (ws.drain clock q).1 = [] := by
  induction q with
  | nil => rfl
  | cons job rest ih =>
    rw [WaveSystem.drain, if_pos (h job (List.mem_cons_self _ _))]
    exact ih (fun j hj => h j (List.mem_cons_of_mem _ hj))

theorem entryJobs_length (e : WaveEntry) (a : Int) (n i : Nat) (t : ℚ) (g : RNG) :
    (entryJobs e a n i t g).1.length = n := by
  induction n generalizing i t g with
  | zero => rfl
  | succ n ih =>
    rw [entryJobs]
    simp [ih]

/-- A second start after the queue has run empty: it succeeds, the wave
number is the old wave index plus three, and both scales have been multiplied
twice. -/
theorem second_start (ws : WaveSystem) (dt : ℚ) (hidx : -1 ≤ ws.waveIndex)
    (h : ws.startNextWave.2 = true)
    (hfire : ∀ j ∈ ws.startNextWave.1.queue, j.fireAt ≤ dt)
    (hmore : ws.waveIndex + 2 < (ws.waves.length : Int)) :
    (ws.startNextWave.1.update dt).1.startNextWave.2 = true ∧
      (ws.startNextWave.1.update dt).1.startNextWave.1.waveNumber = ws.waveIndex + 3 ∧
      (ws.startNextWave.1.update dt).1.startNextWave.1.hpScale
        = ws.hpScale * (115 / 100) * (115 / 100) ∧
      (ws.startNextWave.1.update dt).1.startNextWave.1.spdScale
        = ws.spdScale * (103 / 100) * (103 / 100) := by
  obtain ⟨d, hd, heq⟩ := startNextWave_true ws h
  have hact : ws.startNextWave.1.active = true := (startNextWave_sorted_active ws h).2
  have htim : ws.startNextWave.1.spawnTimer = 0 := by rw [heq]
  have hwi : ws.startNextWave.1.waveIndex = ws.waveIndex + 1 := by rw [heq]
  have hwv : ws.startNextWave.1.waves = ws.waves := by rw [heq]
  have hhp : ws.startNextWave.1.hpScale = ws.hpScale * (115 / 100) := by rw [heq]
  have hsp : ws.startNextWave.1.spdScale = ws.spdScale * (103 / 100) := by rw [heq]
  obtain ⟨-, u2, u3, u4, -, -, u7⟩ := update_fields ws.startNextWave.1 dt
  have hua : (ws.startNextWave.1.update dt).1.active = false := by
    unfold WaveSystem.update
    rw [hact]
    simp only [Bool.not_true, Bool.false_eq_true, if_false]
    rw [drain_all _ _ _ (by intro j hj; rw [htim]; simpa using hfire j hj)]
    rfl
  have h2 : (ws.startNextWave.1.update dt).1.startNextWave.2 = true := by
    rw [startNextWave_true_iff _ (by rw [u2, hwi]; omega)]
    exact ⟨hua, by rw [u2, u7, hwi, hwv]; omega⟩
  refine ⟨h2, ?_⟩
  obtain ⟨d2, -, heq2⟩ := startNextWave_true _ h2
  rw [heq2]
  refine ⟨?_, ?_, ?_⟩
  · show (ws.startNextWave.1.update dt).1.waveIndex + 1 + 1 = _
    rw [u2, hwi]
    omega
  · show (ws.startNextWave.1.update dt).1.hpScale * (115 / 100) = _
    rw [u3, hhp]
  · show (ws.startNextWave.1.update dt).1.spdScale * (103 / 100) = _
    rw [u4, hsp]

theorem sampleWaves_fireAt : ∀ j ∈ sampleWaves.startNextWave.1.queue, j.fireAt ≤ 100 := by
  obtain ⟨d, hd, heq⟩ := startNextWave_true sampleWaves sampleWaves_start
  have hd' : d = ⟨"Scouts", [⟨"basic", 10, 6 / 10⟩]⟩ := by
    have : sampleWaves.waves[((-1 : Int) + 1).toNat]? = some d := hd
    simpa [sampleWaves, WaveSystem.queueDefaultSet, WaveSystem.new, defaultWaves] using this.symm
  intro j hj
  rw [heq] at hj
  have hj1 : j ∈ (waveJobs
      ({ sampleWaves with waveNumber := sampleWaves.waveIndex + 1 + 1 }).getActiveSpawnsCount
      d.entries sampleWaves.rng).1 := (sortJobs_perm _).mem_iff.1 hj
  rw [hd'] at hj1
  simp only [waveJobs, List.append_nil] at hj1
  obtain ⟨k, hk⟩ := List.mem_iff_getElem?.1 hj1
  have hlt : k < 10 := by
    have := (List.getElem?_eq_some_iff.1 hk).1
    rwa [entryJobs_length] at this
  have hf := entryJobs_fireAt ⟨"basic", 10, 6 / 10⟩ (by norm_num) _ 10 0 0 (le_refl _) _ k j hk
  have h2 := (abs_le.1 hf.2).2
  have hk' : (k : ℚ) ≤ 9 := by exact_mod_cast Nat.le_of_lt_succ hlt
  simp only at h2
  linarith

theorem twoWavesStarted_waveNumber : twoWavesStarted.waveNumber = 2 :=
  (second_start sampleWaves 100 (by show (-1 : Int) ≤ -1; decide) sampleWaves_start
    sampleWaves_fireAt
    (by show (-1 : Int) + 2 < (([] ++ defaultWaves : List WaveDef).length : Int); decide)).2.1

theorem twoWavesStarted_reachable : WaveSystem.Reachable twoWavesStarted :=
  WaveSystem.Reachable.startNextWave _ (WaveSystem.Reachable.update _ 100
    (WaveSystem.Reachable.startNextWave _
      (WaveSystem.Reachable.queueDefaultSet _ (WaveSystem.Reachable.new Grid.new ⟨0⟩))))

theorem entryJobs_second (e : WaveEntry) (a : Int) (n i : Nat) (t : ℚ) (g : RNG) :
    ∃ j ∈ (entryJobs e a (n + 2) i t g).1, j.spawnIndex = pickSpawnIndex (i + 1) a := by
  rw [entryJobs, entryJobs]
  exact ⟨_, List.mem_cons_of_mem _ (List.mem_cons_self _ _), rfl⟩

theorem multiSpawnWaves_start : multiSpawnWaves.startNextWave.2 = true := by
  rw [startNextWave_true_iff multiSpawnWaves (by show (-1 : Int) ≤ -1; decide)]
  exact ⟨rfl, by show (-1 : Int) + 1 < (([] ++ defaultWaves : List WaveDef).length : Int); decide⟩

theorem count_of_fields (a b : WaveSystem) (h1 : a.waveNumber = b.waveNumber)
    (h2 : a.multiSpawnActivationWave = b.multiSpawnActivationWave)
    (h3 : a.spawnPoints = b.spawnPoints) : a.getActiveSpawnsCount = b.getActiveSpawnsCount := by
  unfold WaveSystem.getActiveSpawnsCount
  rw [h1, h2, h3]

theorem multiSpawnWaves_count : multiSpawnWaves.startNextWave.1.getActiveSpawnsCount = 3 := by
  obtain ⟨d, -, heq⟩ := startNextWave_true multiSpawnWaves multiSpawnWaves_start
  rw [count_of_fields _ { multiSpawnWaves with waveNumber := 1 } (by rw [heq]; rfl)
    (by rw [heq]) (by rw [heq])]
  decide

theorem multiSpawnWaves_count_after_setter :
    (multiSpawnWaves.startNextWave.1.setMultiSpawnActivationWave 5).getActiveSpawnsCount = 1 := by
  obtain ⟨d, -, heq⟩ := startNextWave_true multiSpawnWaves multiSpawnWaves_start
  rw [count_of_fields _ { multiSpawnWaves with waveNumber := 1, multiSpawnActivationWave := 5 }
    (by rw [heq]; rfl) (by rw [heq]; rfl) (by rw [heq]; rfl)]
  decide

theorem multiSpawnWaves_job :
    ∃ j ∈ multiSpawnWaves.startNextWave.1.queue, j.spawnIndex = 1 := by
  obtain ⟨d, hd, heq⟩ := startNextWave_true multiSpawnWaves multiSpawnWaves_start
  have hd' : d = ⟨"Scouts", [⟨"basic", 10, 6 / 10⟩]⟩ := by
    have : multiSpawnWaves.waves[((-1 : Int) + 1).toNat]? = some d := hd
    simpa [multiSpawnWaves, WaveSystem.queueDefaultSet, WaveSystem.new, defaultWaves,
      WaveSystem.setMultiSpawnActivationWave, WaveSystem.addSpawnPoint] using this.symm
  have hc : ({ multiSpawnWaves with
      waveNumber := multiSpawnWaves.waveIndex + 1 + 1 }).getActiveSpawnsCount = 3 := by decide
  obtain ⟨j, hj, hjs⟩ := entryJobs_second ⟨"basic", 10, 6 / 10⟩ 3 8 0 0 multiSpawnWaves.rng
  refine ⟨j, ?_, by rw [hjs]; decide⟩
  rw [heq]
  apply (sortJobs_perm _).mem_iff.2
  rw [hd', hc]
  simp only [waveJobs, List.append_nil]
  exact hj

/-! ### The movement loop in binary64 -/

theorem tickSlowR_fields (rd : ℚ → ℚ) (c : Creep) (dt : ℚ) :
    (c.tickSlowR rd dt).points = c.points ∧ (c.tickSlowR rd dt).alive = c.alive ∧
      (c.tickSlowR rd dt).idx = c.idx ∧ (c.tickSlowR rd dt).pathIndex = c.pathIndex ∧
      (c.tickSlowR rd dt).x = c.x ∧ (c.tickSlowR rd dt).y = c.y := by
  unfold Creep.tickSlowR
  split_ifs <;> exact ⟨rfl, rfl, rfl, rfl, rfl, rfl⟩

theorem moveLoopR_corner (rd : ℚ → ℚ) (hypot : ℚ → ℚ → ℚ) (fuel : Nat) (c : Creep)
    (remaining : ℚ) (tgt next : Pt) (htgt : c.points[c.idx]? = some tgt)
    (hnext : c.points[c.idx + 1]? = some next)
    (hcorner : unitAxis (prevPoint c tgt) tgt ≠ unitAxis tgt next)
    (hfar : rd EPS < distToR rd hypot c tgt) (hrem : 0 < remaining)
    (harr : arrivedAtR rd (movedToR rd hypot c tgt remaining) tgt) :
    moveLoopR rd hypot (fuel + 1) c remaining =
      (advance (movedToR rd hypot c tgt remaining), LoopExit.fell) := by
  have hlt : c.idx < c.points.length := (List.getElem?_eq_some_iff.1 htgt).1
  rw [moveLoopR, if_pos ⟨hrem, hlt⟩, htgt]
  simp only
  rw [if_neg (not_le.2 hfar), if_pos harr, hnext]
  simp only
  rw [if_pos hcorner]

theorem moveLoopR_miss (rd : ℚ → ℚ) (hypot : ℚ → ℚ → ℚ) (fuel : Nat) (c : Creep)
    (remaining : ℚ) (tgt : Pt) (htgt : c.points[c.idx]? = some tgt)
    (hfar : rd EPS < distToR rd hypot c tgt) (hrem : 0 < remaining)
    (harr : ¬ arrivedAtR rd (movedToR rd hypot c tgt remaining) tgt) :
    moveLoopR rd hypot (fuel + 1) c remaining =
      (movedToR rd hypot c tgt remaining, LoopExit.fell) := by
  have hlt : c.idx < c.points.length := (List.getElem?_eq_some_iff.1 htgt).1
  rw [moveLoopR, if_pos ⟨hrem, hlt⟩, htgt]
  simp only
  rw [if_neg (not_le.2 hfar), if_neg harr]

theorem movedToR_exact (rd : ℚ → ℚ) (hrd : ∀ q, rd q = q) (hypot : ℚ → ℚ → ℚ) (c : Creep)
    (tgt : Pt) (remaining : ℚ) (hfar : rd EPS < distToR rd hypot c tgt)
    (hbudget : distToR rd hypot c tgt ≤ remaining) :
    (movedToR rd hypot c tgt remaining).x = tgt.x ∧
      (movedToR rd hypot c tgt remaining).y = tgt.y := by
  have hid : rd = id := funext hrd
  subst hid
  exact movedTo_exact hypot c tgt remaining hfar hbudget

theorem movedToR_id (hypot : ℚ → ℚ → ℚ) (c : Creep) (tgt : Pt) (r : ℚ) :
    movedToR id hypot c tgt r = movedTo hypot c tgt r := rfl

theorem moveLoopR_id (hypot : ℚ → ℚ → ℚ) (fuel : Nat) (c : Creep) (r : ℚ) :
    moveLoopR id hypot fuel c r = moveLoop hypot fuel c r := by
  induction fuel generalizing c r with
  | zero => rfl
  | succ n ih =>
    rw [moveLoopR, moveLoop]
    simp only [ih]
    rfl

/-- With the identity for the rounding, the binary64 definitions are the exact ones. -/
theorem updateR_id (hypot : ℚ → ℚ → ℚ) (c : Creep) (dt : ℚ) :
    c.updateR id hypot dt = c.update hypot dt := by
  unfold Creep.updateR Creep.update
  rw [moveLoopR_id]
  rfl

/-! ### The terminal signal of a creep -/

/-- For a living creep, `update` returns `'reached'` exactly when the creep has
then arrived (`idx` is past the last waypoint); if it had not arrived before,
its position is then within the arrival tolerance 0.001 of the final waypoint
in each coordinate; and once it has arrived every later `update` returns
`'reached'` again and does not move it. -/
theorem update_reached_terminal (hypot : ℚ → ℚ → ℚ) (c : Creep) (dt : ℚ)
    (halive : c.alive = true) :
    ((c.update hypot dt).2 = true ↔
        (c.update hypot dt).1.points.length ≤ (c.update hypot dt).1.idx) ∧
      (c.idx < c.points.length → (c.update hypot dt).2 = true → nearLast (c.update hypot dt).1) ∧
      (c.points.length ≤ c.idx →
        (c.update hypot dt).2 = true ∧ (c.update hypot dt).1.x = c.x ∧
          (c.update hypot dt).1.y = c.y ∧ (c.update hypot dt).1.idx = c.idx ∧
          (c.update hypot dt).1.alive = true) := by
  obtain ⟨hp, ha, -, hi, -, -, hx, hy, -⟩ := tickSlow_fields c dt
  unfold Creep.update
  rw [halive]
  simp only [Bool.not_true, Bool.false_eq_true, if_false]
  by_cases h1 : (c.tickSlow dt).idx ≥ (c.tickSlow dt).points.length
  · rw [if_pos h1]
    refine ⟨⟨fun _ => h1, fun _ => rfl⟩, ?_, ?_⟩
    · intro h2; rw [hp, hi] at h1; omega
    · intro _; exact ⟨rfl, hx, hy, hi, ha.trans halive⟩
  · rw [if_neg h1]
    have hk := moveLoop_keeps hypot ((c.tickSlow dt).points.length + 1) (c.tickSlow dt)
      ((c.tickSlow dt).currentSpeed * dt)
    have hr := moveLoop_returned hypot ((c.tickSlow dt).points.length + 1) (c.tickSlow dt)
      ((c.tickSlow dt).currentSpeed * dt)
    generalize moveLoop hypot ((c.tickSlow dt).points.length + 1) (c.tickSlow dt)
      ((c.tickSlow dt).currentSpeed * dt) = r at hk hr
    obtain ⟨c1, e⟩ := r
    have hc : ¬ (c.points.length ≤ c.idx) := by rw [hp, hi] at h1; omega
    cases e with
    | returned =>
      obtain ⟨h3, h4⟩ := hr rfl
      exact ⟨⟨fun _ => le_of_eq h3.symm, fun _ => rfl⟩, fun _ _ => h4, fun h => absurd h hc⟩
    | fell =>
      simp only
      by_cases h2 : c1.idx ≥ c1.points.length
      · rw [if_pos h2]
        refine ⟨⟨fun _ => h2, fun _ => rfl⟩, ?_, fun h => absurd h hc⟩
        intro h5 _
        have hne : c1.points ≠ [] := by
          have : c1.points = c.points := hk.points.trans hp
          rw [this]; intro h6; rw [h6] at h5; simp at h5
        obtain ⟨last, hl⟩ : ∃ last, c1.points.getLast? = some last :=
          ⟨c1.points.getLast hne, List.getLast?_eq_getLast _ hne⟩
        refine ⟨last, hl, ?_, ?_⟩
        · show |(c1.points.getLast?.getD ⟨c1.x, c1.y⟩).x - last.x| ≤ ARRIVE_TOL
          rw [hl]; norm_num [ARRIVE_TOL]
        · show |(c1.points.getLast?.getD ⟨c1.x, c1.y⟩).y - last.y| ≤ ARRIVE_TOL
          rw [hl]; norm_num [ARRIVE_TOL]
      · rw [if_neg h2]
        refine ⟨⟨fun h => by simp at h, fun h => absurd h h2⟩, fun _ h => by simp at h,
          fun h => absurd h hc⟩
/-! ## Claims -/

/-- C1 (evaluation at the failing seed "s0"): the generated path holds the tile
(3, 20) at the consecutive positions 15 and 16, so two consecutive tiles are
not 4-adjacent. -/
theorem C1_s0_path_repeats_tile : ¬ PathConnected (generateGrid "s0").path := by
  intro h
  have h1 : adjacent4 ⟨3, 20⟩ ⟨3, 20⟩ := h 15 ⟨3, 20⟩ ⟨3, 20⟩ (by decide!) (by decide!)
  revert h1
  decide

/-- C2 (evaluation at the failing seed "test-1"): the generated path has 163
tiles, more than `PATH_MAX_TILES = 120`. -/
theorem C2_test1_path_too_long :
    (generateGrid "test-1").path.length = 163 ∧ PATH_MAX_TILES = 120 := by
  constructor
  · decide!
  · decide

/-- C3 (evaluation at the failing seed "s18"): the feeder of the second spawn
starts at (0, 16), whose 4-neighbour (0, 15) lies on the main path and is not
the merge tile (3, 20); the buffer invariant fails. -/
theorem C3_s18_feeder_touches_path :
    ¬ ∀ pre ∈ (generateGrid "s18").spawnPrefixes, KeepsBuffer (generateGrid "s18").path pre := by
  intro h
  have h1 := h [⟨0, 16⟩, ⟨1, 16⟩, ⟨2, 16⟩, ⟨3, 16⟩, ⟨3, 17⟩, ⟨3, 18⟩, ⟨3, 19⟩, ⟨3, 20⟩]
    (by decide!) ⟨0, 16⟩ (by decide) ⟨0, 15⟩ (by decide!) (by decide)
  revert h1
  decide

/-- C4 (evaluation at the failing seed "map-226"): the feeder of the second
spawn is (0,52), (0,51), (0,50), and its last tile (0, 50), the merge tile of
the untrimmed path, is not a tile of the trimmed path of the returned grid. -/
theorem C4_map226_merge_tile_lost : ¬ FeedersAttached (generateGrid "map-226") := by
  intro h
  obtain ⟨-, l, hl, hlast⟩ := h 1 [⟨0, 52⟩, ⟨0, 51⟩, ⟨0, 50⟩] (by decide!) (by decide)
  have hl2 : l = ⟨0, 50⟩ := by
    have h2 : ([⟨0, 52⟩, ⟨0, 51⟩, ⟨0, 50⟩] : List Tile).getLast? = some ⟨0, 50⟩ := by decide
    rw [h2] at hlast
    exact (Option.some.inj hlast).symm
  subst hl2
  revert hl
  decide!

/-- C5 (evaluation at the failing seed "s2", orientation 1): the last path tile
is (74, 79), outside the 80 x 60 cell array, so it is not walkable. -/
theorem C5_s2_path_tile_not_walkable : ¬ AllWalkable (generateGrid "s2") := by
  intro h
  have h1 := h.1 ⟨74, 79⟩ (by decide!)
  revert h1
  decide!

/-- C7 (evaluation at the failing input): the in-bounds tile (70, 0) rotated by
orientation 1 is (79, 70), whose row 70 is not below `ROWS = 60`. -/
theorem C7_rotateCR_leaves_bounds :
    Grid.inBounds 70 0 = true ∧ rotateCR 70 0 1 = ⟨79, 70⟩ ∧ Grid.inBounds 79 70 = false := by
  decide

/-- C8: rotating by orientation 0 is the identity on every tile, and rotating
by orientation 1 (90 degrees) four times in succession returns every tile to
its original coordinate. -/
theorem C8_rotation_round_trip (c r : Int) :
    rotateCR c r 0 = ⟨c, r⟩ ∧
      (let t1 := rotateCR c r 1
       let t2 := rotateCR t1.c t1.r 1
       let t3 := rotateCR t2.c t2.r 1
       rotateCR t3.c t3.r 1 = ⟨c, r⟩) := by
  simp [rotateCR, COLS]

/-- C6 (evaluation at the failing seed "seed", orientation 3): the base tile of
the returned grid is (27, -20), outside the cell array, and a write at that
coordinate leaves every cell array unchanged, so no cell is stamped `BASE`. -/
theorem C6_seed_base_stamp_dropped :
    (generateGrid "seed").base = ⟨27, -20⟩ ∧ Grid.inBounds 27 (-20) = false ∧
      ∀ (cells : List Nat) (v : Nat), cellsSet cells 27 (-20) v = cells := by
  refine ⟨by decide!, by decide, ?_⟩
  intro cells v
  have h : ¬ (0 ≤ Grid.idx 27 (-20)) := by decide
  simp [cellsSet, h]

/-- C9: for every seed the returned grid has as many prefixes as spawns,
between 1 and 3 spawns, `spawns[0]` equal to the `spawn` field, and an empty
first prefix. -/
theorem C9_spawn_lists_aligned (seed : String) :
    (generateGrid seed).spawnPrefixes.length = (generateGrid seed).spawns.length ∧
      1 ≤ (generateGrid seed).spawns.length ∧ (generateGrid seed).spawns.length ≤ 3 ∧
      (generateGrid seed).spawns[0]? = some (generateGrid seed).spawn ∧
      (generateGrid seed).spawnPrefixes[0]? = some [] := by
  obtain ⟨n, hn, h1, h2, h3, h4⟩ := generateGridFrom_aligned (RNG.ofSeed seed)
  unfold generateGrid
  generalize generateGridFrom (RNG.ofSeed seed) = gr at h1 h2 h3 h4 ⊢
  rw [← List.head?_eq_getElem?, ← List.head?_eq_getElem?, h1, h2]
  exact ⟨rfl, by omega, by omega, h4, h3⟩

/-- C10 (counterexample): over the `2^64` equally likely pairs of draws, the
count of pairs giving 0 extra spawns is not one half, so the split is not
50% / 25% / 25%. -/
theorem C10_not_half_quarter_quarter :
    ¬ ((extraEvent 0).card * 2 = 2 ^ 64 ∧ (extraEvent 1).card * 4 = 2 ^ 64 ∧
        (extraEvent 2).card * 4 = 2 ^ 64) := by
  rw [extraEvent_card.1]
  norm_num

/-- C10 (amended): the number of extra spawns drawn by
`buildSplitEntrancesBuffered` is the function `extraOfDraws` of its first two
draws, and over the `2^64` equally likely pairs of draws it is 0 for 3/8 of
them, 1 for 3/8 and 2 for 1/4. -/
theorem C10_extra_spawn_distribution :
    (∀ g : RNG, (drawExtra g).1 = extraOfDraws g.mulberry32.1 g.mulberry32.2.mulberry32.1) ∧
      (extraEvent 0).card * 8 = 3 * 2 ^ 64 ∧ (extraEvent 1).card * 8 = 3 * 2 ^ 64 ∧
      (extraEvent 2).card * 4 = 2 ^ 64 := by
  refine ⟨drawExtra_eq_extraOfDraws, ?_, ?_, ?_⟩
  · rw [extraEvent_card.1]; norm_num
  · rw [extraEvent_card.2.1]; norm_num
  · rw [extraEvent_card.2.2]; norm_num

/-- C27, counterexample: with the generator of the seed "seed", whose first
draw is at least 1/2, `int(2^53 + 2, 2^53 + 4)` returns `2^53 + 4`, its
`maxExclusive`: the sum `min + 1 = 2^53 + 3` is not a double and is rounded to
the even neighbour. -/
theorem C27_int_returns_maxExclusive :
    ((2 : Int) ^ 53 + 2 < 2 ^ 53 + 4) ∧
      ((RNG.ofSeed "seed").int (2 ^ 53 + 2) (2 ^ 53 + 4)).1 = 2 ^ 53 + 4 := by
  decide!

/-- C27, amended: for safe integers `-2^53 <= min`, `maxExclusive <= 2^53`
with a span `maxExclusive - min` of at most `2^53`, `int(min, maxExclusive)`
returns an integer in `[min, maxExclusive)` when `maxExclusive > min` and
returns `min` otherwise (for all integers), and the one-argument form `int(n)`
is `int(0, n)`. -/
theorem C27_int_range (g : RNG) (lo hi : Int) (hlo : -(2 ^ 53) ≤ lo) (hhi : hi ≤ 2 ^ 53)
    (hspan : hi - lo ≤ 2 ^ 53) :
    (lo < hi → lo ≤ (g.int lo hi).1 ∧ (g.int lo hi).1 < hi) ∧
      (hi ≤ lo → (g.int lo hi).1 = lo) ∧ g.int1 hi = g.int 0 hi := by
  refine ⟨fun h => int_bounds g lo hi h hlo hhi hspan, ?_, rfl⟩
  intro h
  unfold RNG.int
  rw [if_pos h]

/-- Witness for C27 at the generator of the seed "x" and the range [3, 7). -/
theorem C27_int_range_witness :
    3 ≤ ((RNG.ofSeed "x").int 3 7).1 ∧ ((RNG.ofSeed "x").int 3 7).1 < 7 :=
  (C27_int_range (RNG.ofSeed "x") 3 7 (by decide) (by decide) (by decide)).1 (by decide)

/-- C29 (evaluation at the failing input): `sanitizePath` turns the
back-and-forth A, B, A = (0,0), (1,0), (0,0) into (0,0), (0,0), two equal
consecutive tiles, which are not 4-adjacent. -/
theorem C29_sanitizePath_duplicates_tile :
    sanitizePath [⟨0, 0⟩, ⟨1, 0⟩, ⟨0, 0⟩] = [⟨0, 0⟩, ⟨0, 0⟩] ∧
      ¬ PathConnected (sanitizePath [⟨0, 0⟩, ⟨1, 0⟩, ⟨0, 0⟩]) := by
  have h : sanitizePath [⟨0, 0⟩, ⟨1, 0⟩, ⟨0, 0⟩] = [⟨0, 0⟩, ⟨0, 0⟩] := by decide
  refine ⟨h, ?_⟩
  rw [h]
  intro hc
  have h1 : adjacent4 ⟨0, 0⟩ ⟨0, 0⟩ := hc 0 ⟨0, 0⟩ ⟨0, 0⟩ (by decide) (by decide)
  revert h1
  decide

/-- C30 (evaluation at the failing input): for the straight path (0,0) ... (4,0)
of 5 tiles and `maxLen = 3`, `limitPathLength` keeps the tiles 0, 2, 4 and the
re-sanitize walks the gaps again, returning all 5 tiles. -/
theorem C30_limitPathLength_exceeds_maxLen :
    limitPathLength [⟨0, 0⟩, ⟨1, 0⟩, ⟨2, 0⟩, ⟨3, 0⟩, ⟨4, 0⟩] 3
      = [⟨0, 0⟩, ⟨1, 0⟩, ⟨2, 0⟩, ⟨3, 0⟩, ⟨4, 0⟩] := by
  decide

/-- C28: for an array of fewer than `2^32` elements (every JavaScript array),
`shuffle` returns a permutation of it (same length, same elements with
multiplicity); it is the loop that runs the step for `i = length - 1` down to
`i = 1`, in this order; and the step for `i` draws `j = int(i + 1)`, which lies
in `[0, i]`, and swaps the positions `i` and `j`, leaving every other position
as it was. -/
theorem C28_shuffle_fisher_yates {α : Type} (g : RNG) (arr : List α)
    (hlen : arr.length < 2 ^ 32) :
    (g.shuffle arr).1.Perm arr ∧ (g.shuffle arr).1.length = arr.length ∧
      g.shuffle arr = (List.range' 1 (arr.length - 1)).reverse.foldl
        (fun s i => shuffleStep s.1 i s.2) (arr, g) ∧
      ∀ (a : List α) (g' : RNG) (i : Nat), a.length = arr.length → i < a.length →
        0 ≤ (g'.int1 ((i : Int) + 1)).1 ∧ (g'.int1 ((i : Int) + 1)).1 ≤ i ∧
          (shuffleStep a i g').2 = (g'.int1 ((i : Int) + 1)).2 ∧
          (shuffleStep a i g').1[i]? = a[((g'.int1 ((i : Int) + 1)).1).toNat]? ∧
          (shuffleStep a i g').1[((g'.int1 ((i : Int) + 1)).1).toNat]? = a[i]? ∧
          ∀ k, k ≠ i → k ≠ ((g'.int1 ((i : Int) + 1)).1).toNat →
            (shuffleStep a i g').1[k]? = a[k]? := by
  refine ⟨shuffleFrom_perm _ arr g, (shuffleFrom_perm _ arr g).length_eq,
    shuffleFrom_foldl _ arr g, ?_⟩
  intro a g' i hal hi
  have hb := int_bounds g' 0 ((i : Int) + 1) (by omega) (by norm_num) (by omega) (by omega)
  have hb' : 0 ≤ (g'.int1 ((i : Int) + 1)).1 ∧ (g'.int1 ((i : Int) + 1)).1 ≤ i := by
    unfold RNG.int1
    omega
  obtain ⟨h1, h2, h3⟩ := shuffleStep_swaps a g' i _ rfl hi (by omega)
  exact ⟨hb'.1, hb'.2, rfl, h1, h2, h3⟩

/-- Witness for C28: with the generator of the seed "x", `shuffle` turns
10, 20, 30 into 10, 30, 20 (the step for `i = 2` draws `j = 1` and swaps, the
step for `i = 1` draws `j = 1`). -/
theorem C28_shuffle_fisher_yates_witness :
    ((RNG.ofSeed "x").shuffle [10, 20, 30]).1 = [10, 30, 20] ∧
      ((RNG.ofSeed "x").shuffle [10, 20, 30]).1.Perm [10, 20, 30] ∧
      (RNG.ofSeed "x").shuffle [10, 20, 30] =
        (shuffleStep (shuffleStep [10, 20, 30] 2 (RNG.ofSeed "x")).1 1
          (shuffleStep [10, 20, 30] 2 (RNG.ofSeed "x")).2) :=
  let h := C28_shuffle_fisher_yates (RNG.ofSeed "x") [10, 20, 30] (by decide)
  ⟨by decide!, h.1, h.2.2.1⟩

/-- C13, counterexample: in binary64 the creep `new Creep([(1,0),(0,0),(0,1)], 2.2)`
stands at x = 43.306666666666665 after `update(1/15)`; its next waypoint (16, 16)
is a corner, and the budget of `update(0.4)` is at least the distance to it.
After `update(0.4)` the creep has arrived (`idx = 2`) and pauses, but at
x = 16 + 2^-48 = 16.000000000000004, not at x = 16. -/
theorem C13_corner_pause_off_waypoint :
    cornerRun.alive = true ∧ cornerRun.points[cornerRun.idx]? = some ⟨16, 16⟩ ∧
      cornerRun.points[cornerRun.idx + 1]? = some ⟨16, 48⟩ ∧
      unitAxis (prevPoint cornerRun ⟨16, 16⟩) ⟨16, 16⟩ ≠ unitAxis ⟨16, 16⟩ ⟨16, 48⟩ ∧
      distToR round64 (fun dx dy => |dx| + |dy|) cornerRun ⟨16, 16⟩ ≤
        round64 ((cornerRun.tickSlowR round64 (round64 (4 / 10))).currentSpeedR round64
          * round64 (4 / 10)) ∧
      (cornerRun.updateR round64 (fun dx dy => |dx| + |dy|) (round64 (4 / 10))).1.idx = 2 ∧
      (cornerRun.updateR round64 (fun dx dy => |dx| + |dy|) (round64 (4 / 10))).1.x
        = 16 + 1 / 2 ^ 48 ∧
      (cornerRun.updateR round64 (fun dx dy => |dx| + |dy|) (round64 (4 / 10))).1.x ≠ 16 := by
  decide!

/-- C13, amended: for every rounding `rd` of the arithmetic (the identity, or
`round64`), take a living creep whose next waypoint `tgt` is a corner farther
than `EPS` away and whose budget of this tick is positive and at least the
distance to it. `update(dt)` moves the creep by one step, of the whole
distance, towards `tgt` and by nothing else: the rest of the budget is dropped
and `update` does not return `'reached'`. If the step ends within the arrival
tolerance 0.001 of `tgt` in each coordinate, the next waypoint is now the
following one; if not, it is still `tgt`. The creep is not moved onto `tgt`;
in exact arithmetic the step ends on `tgt`. -/
theorem C13_corner_pause (rd : ℚ → ℚ) (hypot : ℚ → ℚ → ℚ) (c : Creep) (dt : ℚ) (tgt next : Pt)
    (halive : c.alive = true) (htgt : c.points[c.idx]? = some tgt)
    (hnext : c.points[c.idx + 1]? = some next)
    (hcorner : unitAxis (prevPoint c tgt) tgt ≠ unitAxis tgt next)
    (hfar : rd EPS < distToR rd hypot (c.tickSlowR rd dt) tgt)
    (hbudget : distToR rd hypot (c.tickSlowR rd dt) tgt
      ≤ rd ((c.tickSlowR rd dt).currentSpeedR rd * dt))
    (hpos : 0 < rd ((c.tickSlowR rd dt).currentSpeedR rd * dt)) :
    (c.updateR rd hypot dt).2 = false ∧
      stepLenR rd hypot (c.tickSlowR rd dt) tgt (rd ((c.tickSlowR rd dt).currentSpeedR rd * dt))
        = distToR rd hypot (c.tickSlowR rd dt) tgt ∧
      (c.updateR rd hypot dt).1.x = (movedToR rd hypot (c.tickSlowR rd dt) tgt
        (rd ((c.tickSlowR rd dt).currentSpeedR rd * dt))).x ∧
      (c.updateR rd hypot dt).1.y = (movedToR rd hypot (c.tickSlowR rd dt) tgt
        (rd ((c.tickSlowR rd dt).currentSpeedR rd * dt))).y ∧
      (arrivedAtR rd (movedToR rd hypot (c.tickSlowR rd dt) tgt
          (rd ((c.tickSlowR rd dt).currentSpeedR rd * dt))) tgt →
        arrivedAtR rd (c.updateR rd hypot dt).1 tgt ∧
          (c.updateR rd hypot dt).1.idx = c.idx + 1 ∧
          (c.updateR rd hypot dt).1.pathIndex = c.idx + 1 ∧
          (c.updateR rd hypot dt).1.points[(c.updateR rd hypot dt).1.idx]? = some next) ∧
      (¬ arrivedAtR rd (movedToR rd hypot (c.tickSlowR rd dt) tgt
          (rd ((c.tickSlowR rd dt).currentSpeedR rd * dt))) tgt →
        (c.updateR rd hypot dt).1.idx = c.idx ∧
          (c.updateR rd hypot dt).1.points[(c.updateR rd hypot dt).1.idx]? = some tgt) ∧
      ((∀ q, rd q = q) →
        (c.updateR rd hypot dt).1.x = tgt.x ∧ (c.updateR rd hypot dt).1.y = tgt.y ∧
          (c.updateR rd hypot dt).1.idx = c.idx + 1) := by
  obtain ⟨hp, -, hi, -, hx, hy⟩ := tickSlowR_fields rd c dt
  have hlt : c.idx + 1 < c.points.length := (List.getElem?_eq_some_iff.1 hnext).1
  have htgt' : (c.tickSlowR rd dt).points[(c.tickSlowR rd dt).idx]? = some tgt := by
    rw [hp, hi]; exact htgt
  have hnext' : (c.tickSlowR rd dt).points[(c.tickSlowR rd dt).idx + 1]? = some next := by
    rw [hp, hi]; exact hnext
  have hcorner' : unitAxis (prevPoint (c.tickSlowR rd dt) tgt) tgt ≠ unitAxis tgt next := by
    unfold prevPoint at hcorner ⊢
    rw [hp, hi]; exact hcorner
  have hidx : ¬ ((c.tickSlowR rd dt).idx ≥ (c.tickSlowR rd dt).points.length) := by
    rw [hp, hi]; omega
  have hhit : arrivedAtR rd (movedToR rd hypot (c.tickSlowR rd dt) tgt
      (rd ((c.tickSlowR rd dt).currentSpeedR rd * dt))) tgt →
      c.updateR rd hypot dt =
        (advance (movedToR rd hypot (c.tickSlowR rd dt) tgt
          (rd ((c.tickSlowR rd dt).currentSpeedR rd * dt))), false) := by
    intro harr
    have hloop := moveLoopR_corner rd hypot (c.tickSlowR rd dt).points.length
      (c.tickSlowR rd dt) _ tgt next htgt' hnext' hcorner' hfar hpos harr
    unfold Creep.updateR
    rw [halive]
    simp only [Bool.not_true, Bool.false_eq_true, if_false]
    rw [if_neg hidx, hloop]
    simp only
    rw [if_neg]
    show ¬ ((c.tickSlowR rd dt).idx + 1 ≥ (c.tickSlowR rd dt).points.length)
    rw [hp, hi]; omega
  have hmiss : ¬ arrivedAtR rd (movedToR rd hypot (c.tickSlowR rd dt) tgt
      (rd ((c.tickSlowR rd dt).currentSpeedR rd * dt))) tgt →
      c.updateR rd hypot dt =
        (movedToR rd hypot (c.tickSlowR rd dt) tgt
          (rd ((c.tickSlowR rd dt).currentSpeedR rd * dt)), false) := by
    intro harr
    have hloop := moveLoopR_miss rd hypot (c.tickSlowR rd dt).points.length
      (c.tickSlowR rd dt) _ tgt htgt' hfar hpos harr
    unfold Creep.updateR
    rw [halive]
    simp only [Bool.not_true, Bool.false_eq_true, if_false]
    rw [if_neg hidx, hloop]
    simp only
    rw [if_neg]
    show ¬ ((c.tickSlowR rd dt).idx ≥ (c.tickSlowR rd dt).points.length)
    exact hidx
  have hexact : (∀ q, rd q = q) → arrivedAtR rd (movedToR rd hypot (c.tickSlowR rd dt) tgt
      (rd ((c.tickSlowR rd dt).currentSpeedR rd * dt))) tgt := by
    intro hrd
    obtain ⟨e1, e2⟩ := movedToR_exact rd hrd hypot (c.tickSlowR rd dt) tgt _ hfar hbudget
    unfold arrivedAtR
    rw [e1, e2, hrd, hrd, hrd]
    norm_num [ARRIVE_TOL]
  refine ⟨?_, min_eq_right hbudget, ?_, ?_, ?_, ?_, ?_⟩
  · by_cases harr : arrivedAtR rd (movedToR rd hypot (c.tickSlowR rd dt) tgt
        (rd ((c.tickSlowR rd dt).currentSpeedR rd * dt))) tgt
    · rw [hhit harr]
    · rw [hmiss harr]
  · by_cases harr : arrivedAtR rd (movedToR rd hypot (c.tickSlowR rd dt) tgt
        (rd ((c.tickSlowR rd dt).currentSpeedR rd * dt))) tgt
    · rw [hhit harr]; rfl
    · rw [hmiss harr]
  · by_cases harr : arrivedAtR rd (movedToR rd hypot (c.tickSlowR rd dt) tgt
        (rd ((c.tickSlowR rd dt).currentSpeedR rd * dt))) tgt
    · rw [hhit harr]; rfl
    · rw [hmiss harr]
  · intro harr
    rw [hhit harr]
    refine ⟨harr, ?_, ?_, ?_⟩
    · show (c.tickSlowR rd dt).idx + 1 = c.idx + 1
      rw [hi]
    · show (c.tickSlowR rd dt).idx + 1 = c.idx + 1
      rw [hi]
    · show (c.tickSlowR rd dt).points[(c.tickSlowR rd dt).idx + 1]? = some next
      exact hnext'
  · intro harr
    rw [hmiss harr]
    refine ⟨?_, ?_⟩
    · show (c.tickSlowR rd dt).idx = c.idx
      rw [hi]
    · show (c.tickSlowR rd dt).points[(c.tickSlowR rd dt).idx]? = some tgt
      exact htgt'
  · intro hrd
    rw [hhit (hexact hrd)]
    obtain ⟨e1, e2⟩ := movedToR_exact rd hrd hypot (c.tickSlowR rd dt) tgt _ hfar hbudget
    refine ⟨e1, e2, ?_⟩
    show (c.tickSlowR rd dt).idx + 1 = c.idx + 1
    rw [hi]

/-- Witness for C13: the binary64 creep of the counterexample, updated with
`dt = 0.4`, makes its one step to x = 16 + 2^-48, within the tolerance of the
corner (16, 16), and its next waypoint is then (16, 48). -/
theorem C13_corner_pause_witness :
    (cornerRun.updateR round64 (fun dx dy => |dx| + |dy|) (round64 (4 / 10))).2 = false ∧
      arrivedAtR round64
        (cornerRun.updateR round64 (fun dx dy => |dx| + |dy|) (round64 (4 / 10))).1 ⟨16, 16⟩ ∧
      (cornerRun.updateR round64 (fun dx dy => |dx| + |dy|) (round64 (4 / 10))).1.idx
        = cornerRun.idx + 1 :=
  let h := C13_corner_pause round64 (fun dx dy => |dx| + |dy|) cornerRun (round64 (4 / 10))
    ⟨16, 16⟩ ⟨16, 48⟩ (by decide!) (by decide!) (by decide!) (by decide!) (by decide!)
    (by decide!) (by decide!)
  ⟨h.1, (h.2.2.2.2.1 (by decide!)).1, (h.2.2.2.2.1 (by decide!)).2.1⟩

/-- C14 (counterexample): on a fresh creep `applySlow(0.3, -1)` stores the
slot (0.3, 0), not (0.3, -1): the duration is clamped to be non-negative. -/
theorem C14_negative_duration_is_clamped :
    ¬ SlotStoresDuration (Creep.new [] 1 1) (3 / 10) (-1) := by
  norm_num [SlotStoresDuration, slowSlot, Creep.applySlow, Creep.new]

/-- C14 (amended): with `p = clamp(pct, 0, 0.95)` and `d = max(0, duration)`,
`applySlow(pct, duration)` makes the slot `(p, d)` if `p > pct0` or (`p = pct0`
and `d > time0`) and leaves it unchanged otherwise; so slow(0.3, 1) then
slow(0.2, 5) keeps (0.3, 1), slow(0.3, 1) then slow(0.3, 5) gives (0.3, 5), and
a stored pct in [0, 0.95] stays in [0, 0.95]. -/
theorem C14_applySlow_slot (c : Creep) (pct duration : ℚ) :
    slowSlot (c.applySlow pct duration) =
        (if max 0 (min (19 / 20) pct) > c.slowPct ∨
            (max 0 (min (19 / 20) pct) = c.slowPct ∧ max 0 duration > c.slowTime) then
          (max 0 (min (19 / 20) pct), max 0 duration)
        else slowSlot c) ∧
      slowSlot (((Creep.new [] 1 1).applySlow (3 / 10) 1).applySlow (2 / 10) 5) = (3 / 10, 1) ∧
      slowSlot (((Creep.new [] 1 1).applySlow (3 / 10) 1).applySlow (3 / 10) 5) = (3 / 10, 5) ∧
      ((0 ≤ c.slowPct ∧ c.slowPct ≤ 19 / 20) →
        0 ≤ (c.applySlow pct duration).slowPct ∧ (c.applySlow pct duration).slowPct ≤ 19 / 20) := by
  refine ⟨?_, ?_, ?_, ?_⟩
  · unfold Creep.applySlow slowSlot
    split_ifs <;> rfl
  · norm_num [slowSlot, Creep.applySlow, Creep.new]
  · norm_num [slowSlot, Creep.applySlow, Creep.new]
  · intro h
    unfold Creep.applySlow
    split_ifs
    · exact ⟨le_max_left _ _, max_le (by norm_num) (min_le_left _ _)⟩
    · exact h

/-- C15: for every creep state reachable through the constructor, `applySlow`,
`takeDamage` and `update`, `currentSpeed()` is
`baseSpeed * max(0.05, 1 - slow.pct)`, at least 5% of `baseSpeed` and at most
`baseSpeed`. -/
theorem C15_currentSpeed_bounds (hypot : ℚ → ℚ → ℚ) (c : Creep)
    (h : Creep.Reachable hypot c) :
    c.currentSpeed = c.baseSpeed * max (1 / 20) (1 - c.slowPct) ∧
      c.baseSpeed * (1 / 20) ≤ c.currentSpeed ∧ c.currentSpeed ≤ c.baseSpeed := by
  have hi := creepInv_of_reachable hypot c h
  refine ⟨rfl, ?_, ?_⟩
  · exact mul_le_mul_of_nonneg_left (le_max_left _ _) hi.baseSpeed_nonneg
  · have h1 : max (1 / 20) (1 - c.slowPct) ≤ 1 :=
      max_le (by norm_num) (by linarith [hi.slowPct_nonneg])
    calc c.currentSpeed = c.baseSpeed * max (1 / 20) (1 - c.slowPct) := rfl
      _ ≤ c.baseSpeed * 1 := mul_le_mul_of_nonneg_left h1 hi.baseSpeed_nonneg
      _ = c.baseSpeed := mul_one _

/-- Witness for C15: a freshly constructed creep. -/
theorem C15_currentSpeed_bounds_witness :
    (Creep.new [] 1 1).currentSpeed
        = (Creep.new [] 1 1).baseSpeed * max (1 / 20) (1 - (Creep.new [] 1 1).slowPct) ∧
      (Creep.new [] 1 1).baseSpeed * (1 / 20) ≤ (Creep.new [] 1 1).currentSpeed ∧
      (Creep.new [] 1 1).currentSpeed ≤ (Creep.new [] 1 1).baseSpeed :=
  C15_currentSpeed_bounds (fun dx dy => |dx| + |dy|) (Creep.new [] 1 1)
    (Creep.Reachable.new [] 1 1)

/-- C17: `takeDamage(d)` on a living creep lowers `hp` by `d` and clears
`alive` exactly when the new `hp` is at most 0; on a dead creep it changes
nothing; and `takeDamage`, `applySlow` and `update` leave a dead creep dead. -/
theorem C17_takeDamage_and_dead_flag (hypot : ℚ → ℚ → ℚ) (c : Creep) (d pct duration dt : ℚ) :
    (c.alive = true →
        (c.takeDamage d).hp = c.hp - d ∧ ((c.takeDamage d).alive = false ↔ c.hp - d ≤ 0)) ∧
      (c.alive = false → c.takeDamage d = c) ∧
      (c.alive = false →
        (c.takeDamage d).alive = false ∧ (c.applySlow pct duration).alive = false ∧
          (c.update hypot dt).1.alive = false) := by
  refine ⟨?_, ?_, ?_⟩
  · intro h
    unfold Creep.takeDamage
    rw [h]
    simp only [Bool.not_true, Bool.false_eq_true, if_false]
    split_ifs with h1
    · exact ⟨rfl, by simp [h1]⟩
    · exact ⟨rfl, by simp [h1, h]⟩
  · intro h
    unfold Creep.takeDamage
    simp [h]
  · intro h
    refine ⟨?_, ?_, ?_⟩
    · unfold Creep.takeDamage
      simp [h]
    · unfold Creep.applySlow
      split_ifs <;> exact h
    · rw [update_dead hypot c dt h]
      exact h

/-- C18 (evaluation at the failing input): the creep
`new Creep([(0,0),(1,0)], 319995/320000, 1)` updated with `dt = 1` moves
31.9995 of the 32 units to its final waypoint (48, 16); this is within the arrival tolerance, `update` returns `'reached'`,
and the creep is left at x = 47.9995, not on the waypoint. -/
theorem C18_reached_short_of_waypoint :
    ((Creep.new [⟨0, 0⟩, ⟨1, 0⟩] (319995 / 320000) 1).update (fun dx dy => |dx| + |dy|) 1).2
        = true ∧
      ((Creep.new [⟨0, 0⟩, ⟨1, 0⟩] (319995 / 320000) 1).update (fun dx dy => |dx| + |dy|) 1).1.x
        = 95999 / 2000 ∧
      ((Creep.new [⟨0, 0⟩, ⟨1, 0⟩] (319995 / 320000) 1).points.getLast?) = some ⟨48, 16⟩ ∧
      (95999 / 2000 : ℚ) ≠ 48 := by
  rw [nearCreep_new, nearCreep_update]
  refine ⟨rfl, rfl, rfl, by norm_num⟩

/-- C19: for every reachable creep and every `update(dt)`, `pathIndex` does not
decrease and never exceeds the number of waypoints. -/
theorem C19_pathIndex_monotonic (hypot : ℚ → ℚ → ℚ) (c : Creep) (dt : ℚ)
    (h : Creep.Reachable hypot c) :
    c.pathIndex ≤ (c.update hypot dt).1.pathIndex ∧
      (c.update hypot dt).1.pathIndex ≤ (c.update hypot dt).1.points.length := by
  have hi := creepInv_of_reachable hypot c h
  have hi2 := creepInv_update hypot c dt hi
  refine ⟨?_, Nat.le_trans hi2.pathIndex_le hi2.idx_le⟩
  cases ha : c.alive with
  | false => rw [update_dead hypot c dt ha]
  | true =>
    have hk := update_keeps hypot c dt ha
    obtain ⟨-, -, -, hidx, hpi, -, -, -, -⟩ := tickSlow_fields c dt
    rcases hk.pathIndex with ⟨h1, -⟩ | h1
    · rw [h1, hpi]
    · rw [h1]
      have := hk.idx_le
      rw [hidx] at this
      exact Nat.le_trans hi.pathIndex_le this

/-- Witness for C19: a freshly constructed creep updated once. -/
theorem C19_pathIndex_monotonic_witness :
    (Creep.new [] 1 1).pathIndex
        ≤ ((Creep.new [] 1 1).update (fun dx dy => |dx| + |dy|) 1).1.pathIndex ∧
      ((Creep.new [] 1 1).update (fun dx dy => |dx| + |dy|) 1).1.pathIndex
        ≤ ((Creep.new [] 1 1).update (fun dx dy => |dx| + |dy|) 1).1.points.length :=
  C19_pathIndex_monotonic (fun dx dy => |dx| + |dy|) (Creep.new [] 1 1) 1
    (Creep.Reachable.new [] 1 1)

/-- C20: `startNextWave` returns `false` exactly when a wave is active or no
further wave definition remains (`waveIndex + 1 >= waves.length`), and then it
changes nothing: the whole state, generator included, is the same. -/
theorem C20_startNextWave_failure (ws : WaveSystem) (hidx : -1 ≤ ws.waveIndex) :
    (ws.startNextWave.2 = false ↔
        (ws.active = true ∨ ws.waveIndex + 1 ≥ (ws.waves.length : Int))) ∧
      (ws.startNextWave.2 = false → ws.startNextWave.1 = ws) := by
  refine ⟨?_, startNextWave_false ws⟩
  have h := startNextWave_true_iff ws hidx
  constructor
  · intro hf
    by_contra hc
    push_neg at hc
    have : ws.startNextWave.2 = true := h.2 ⟨by simpa using hc.1, hc.2⟩
    rw [hf] at this
    exact Bool.false_ne_true this
  · intro hc
    cases hr : ws.startNextWave.2 with
    | false => rfl
    | true =>
      obtain ⟨h1, h2⟩ := h.1 hr
      rcases hc with hc | hc
      · rw [h1] at hc; exact absurd hc Bool.false_ne_true
      · omega

/-- Witness for C20: a fresh wave system with no waves queued. -/
theorem C20_startNextWave_failure_witness :
    ((WaveSystem.new Grid.new ⟨0⟩).startNextWave.2 = false ↔
        ((WaveSystem.new Grid.new ⟨0⟩).active = true ∨
          (WaveSystem.new Grid.new ⟨0⟩).waveIndex + 1
            ≥ ((WaveSystem.new Grid.new ⟨0⟩).waves.length : Int))) ∧
      ((WaveSystem.new Grid.new ⟨0⟩).startNextWave.2 = false →
        (WaveSystem.new Grid.new ⟨0⟩).startNextWave.1 = WaveSystem.new Grid.new ⟨0⟩) :=
  C20_startNextWave_failure (WaveSystem.new Grid.new ⟨0⟩) (by show (-1 : Int) ≤ -1; decide)

/-- C21: after a successful `startNextWave` the queue holds, for each entry of
the started wave definition, `count` jobs of that entry's type (as many jobs
as the sum of the counts), it is sorted by nondecreasing fire time, `waveIndex`
has advanced by one, the wave clock is 0 and `active` is true. -/
theorem C21_queue_after_start (ws : WaveSystem) (h : ws.startNextWave.2 = true) :
    ∃ d, ws.waves[(ws.waveIndex + 1).toNat]? = some d ∧
      (ws.startNextWave.1.queue.map SpawnJob.type).Perm
        (d.entries.flatMap fun e => List.replicate e.count e.type) ∧
      ws.startNextWave.1.queue.length = (d.entries.map WaveEntry.count).sum ∧
      ws.startNextWave.1.queue.Sorted jobLe ∧
      ws.startNextWave.1.waveIndex = ws.waveIndex + 1 ∧
      ws.startNextWave.1.spawnTimer = 0 ∧ ws.startNextWave.1.active = true := by
  obtain ⟨d, hd, heq⟩ := startNextWave_true ws h
  rw [heq]
  have hperm : ((sortJobs (waveJobs
      ({ ws with waveNumber := ws.waveIndex + 1 + 1 }).getActiveSpawnsCount d.entries
      ws.rng).1).map SpawnJob.type).Perm
      (d.entries.flatMap fun e => List.replicate e.count e.type) := by
    rw [← waveJobs_types]
    exact (sortJobs_perm _).map _
  refine ⟨d, hd, hperm, ?_, sortJobs_sorted _, rfl, rfl, rfl⟩
  have hl := hperm.length_eq
  rw [List.length_map] at hl
  show (sortJobs _).length = _
  rw [hl]
  clear hl hperm heq hd
  induction d.entries with
  | nil => rfl
  | cons e rest ih => simp [List.flatMap_cons, ih]

/-- Witness for C21: the first of the default waves. -/
theorem C21_queue_after_start_witness :
    ∃ d, sampleWaves.waves[(sampleWaves.waveIndex + 1).toNat]? = some d ∧
      (sampleWaves.startNextWave.1.queue.map SpawnJob.type).Perm
        (d.entries.flatMap fun e => List.replicate e.count e.type) ∧
      sampleWaves.startNextWave.1.queue.length = (d.entries.map WaveEntry.count).sum ∧
      sampleWaves.startNextWave.1.queue.Sorted jobLe ∧
      sampleWaves.startNextWave.1.waveIndex = sampleWaves.waveIndex + 1 ∧
      sampleWaves.startNextWave.1.spawnTimer = 0 ∧ sampleWaves.startNextWave.1.active = true :=
  C21_queue_after_start sampleWaves sampleWaves_start

/-- C22: in every state reachable from a fresh `WaveSystem`, `waveNumber` is
`waveIndex + 1`, `hpScale = 1.15 ^ waveNumber` and `spdScale = 1.03 ^ waveNumber`,
so with `waveNumber = 2` the scales are `1.15^2` and `1.03^2`. `startNextWave`
succeeds exactly when no wave is active and a wave is left; a successful start
adds 1 to `waveNumber` and multiplies `hpScale` by 1.15 and `spdScale` by 1.03;
a failed start and an `update` leave the three unchanged; and a start, an
`update` that empties the queue and a second start multiply `hpScale` by
`1.15^2` and `spdScale` by `1.03^2`. -/
theorem C22_scales_compound (ws : WaveSystem) (h : WaveSystem.Reachable ws) :
    ws.waveNumber = ws.waveIndex + 1 ∧ ws.hpScale = (115 / 100) ^ ws.waveNumber.toNat ∧
      ws.spdScale = (103 / 100) ^ ws.waveNumber.toNat ∧
      (ws.waveNumber = 2 → ws.hpScale = (115 / 100) ^ 2 ∧ ws.spdScale = (103 / 100) ^ 2) ∧
      (ws.startNextWave.2 = false →
        ws.startNextWave.1.hpScale = ws.hpScale ∧ ws.startNextWave.1.spdScale = ws.spdScale) ∧
      (ws.startNextWave.2 = true ↔
        ws.active = false ∧ ws.waveIndex + 1 < (ws.waves.length : Int)) ∧
      (ws.startNextWave.2 = true →
        ws.startNextWave.1.waveNumber = ws.waveNumber + 1 ∧
          ws.startNextWave.1.hpScale = ws.hpScale * (115 / 100) ∧
          ws.startNextWave.1.spdScale = ws.spdScale * (103 / 100)) ∧
      (∀ dt : ℚ, (ws.update dt).1.waveNumber = ws.waveNumber ∧
        (ws.update dt).1.hpScale = ws.hpScale ∧ (ws.update dt).1.spdScale = ws.spdScale) ∧
      (∀ dt : ℚ, ws.startNextWave.2 = true →
        (∀ j ∈ ws.startNextWave.1.queue, j.fireAt ≤ dt) →
        ws.waveIndex + 2 < (ws.waves.length : Int) →
        (ws.startNextWave.1.update dt).1.startNextWave.2 = true ∧
          (ws.startNextWave.1.update dt).1.startNextWave.1.waveNumber = ws.waveNumber + 2 ∧
          (ws.startNextWave.1.update dt).1.startNextWave.1.hpScale
            = ws.hpScale * (115 / 100) ^ 2 ∧
          (ws.startNextWave.1.update dt).1.startNextWave.1.spdScale
            = ws.spdScale * (103 / 100) ^ 2) := by
  have hi := scaleInv_of_reachable ws h
  refine ⟨hi.waveNumber_eq, hi.hpScale_eq, hi.spdScale_eq, ?_, ?_,
    startNextWave_true_iff ws hi.waveIndex_ge, ?_, ?_, ?_⟩
  · intro h2
    have : ws.waveNumber.toNat = 2 := by omega
    rw [← this]
    exact ⟨hi.hpScale_eq, hi.spdScale_eq⟩
  · intro hf
    rw [startNextWave_false ws hf]
    exact ⟨rfl, rfl⟩
  · intro ht
    obtain ⟨d, -, heq⟩ := startNextWave_true ws ht
    rw [heq]
    refine ⟨?_, rfl, rfl⟩
    show ws.waveIndex + 1 + 1 = ws.waveNumber + 1
    rw [hi.waveNumber_eq]
  · intro dt
    obtain ⟨h1, -, h3, h4, -⟩ := update_fields ws dt
    exact ⟨h1, h3, h4⟩
  · intro dt ht hfire hmore
    obtain ⟨s1, s2, s3, s4⟩ := second_start ws dt hi.waveIndex_ge ht hfire hmore
    refine ⟨s1, ?_, ?_, ?_⟩
    · rw [s2, hi.waveNumber_eq]
      ring
    · rw [s3]
      ring
    · rw [s4]
      ring

/-- Witness for C22: the default wave system after wave 1 and then wave 2 were
started has `waveNumber = 2`, `hpScale = 1.15^2` and `spdScale = 1.03^2`. -/
theorem C22_scales_compound_witness :
    twoWavesStarted.waveNumber = 2 ∧ twoWavesStarted.hpScale = (115 / 100) ^ 2 ∧
      twoWavesStarted.spdScale = (103 / 100) ^ 2 :=
  ⟨twoWavesStarted_waveNumber,
    (C22_scales_compound twoWavesStarted twoWavesStarted_reachable).2.2.2.1
      twoWavesStarted_waveNumber⟩

/-- C23, counterexample: on the wave system with three spawn points that are
active from wave 1 on, wave 1 starts with an active count of 3 and queues a job
with `spawnIndex = 1`; after `setMultiSpawnActivationWave(5)` the count that
`update` computes is 1, and its clamp `min(spawnIndex, count - 1)` turns the
index 1 into 0. -/
theorem C23_clamp_changes_index :
    WaveSystem.Reachable (multiSpawnWaves.startNextWave.1.setMultiSpawnActivationWave 5) ∧
      multiSpawnWaves.startNextWave.1.getActiveSpawnsCount = 3 ∧
      (multiSpawnWaves.startNextWave.1.setMultiSpawnActivationWave 5).getActiveSpawnsCount = 1 ∧
      ∃ job ∈ (multiSpawnWaves.startNextWave.1.setMultiSpawnActivationWave 5).queue,
        job.spawnIndex = 1 ∧
          min job.spawnIndex
            ((multiSpawnWaves.startNextWave.1.setMultiSpawnActivationWave 5).getActiveSpawnsCount
              - 1) = 0 := by
  have hc := multiSpawnWaves_count_after_setter
  refine ⟨?_, multiSpawnWaves_count, hc, ?_⟩
  · exact WaveSystem.Reachable.setMultiSpawnActivationWave _ 5
      (WaveSystem.Reachable.startNextWave _
        (WaveSystem.Reachable.setMultiSpawnActivationWave _ 1
          (WaveSystem.Reachable.queueDefaultSet _
            (WaveSystem.Reachable.addSpawnPoint _ 0 9 []
              (WaveSystem.Reachable.addSpawnPoint _ 0 5 []
                (WaveSystem.Reachable.new Grid.new ⟨0⟩))))))
  · obtain ⟨j, hj, hjs⟩ := multiSpawnWaves_job
    refine ⟨j, hj, hjs, ?_⟩
    rw [hc, hjs]
    decide

/-- C23, amended: when a wave starts with at least one spawn point, the active
spawn count `n` is 1 if `waveNumber < multiSpawnActivationWave` and the number
of spawn points otherwise; the job created at index `k` of its wave entry gets
`spawnIndex = k mod n`; every queued job has `0 <= spawnIndex < n`; and after
any number of `update` calls the count is still `n` and the clamp
`min(spawnIndex, n - 1)` of `update` leaves the index of every queued job
unchanged. -/
theorem C23_spawn_assignment (ws : WaveSystem) (hsp : ws.spawnPoints ≠ [])
    (h : ws.startNextWave.2 = true) :
    ws.startNextWave.1.getActiveSpawnsCount =
        (if ws.startNextWave.1.waveNumber < ws.startNextWave.1.multiSpawnActivationWave then 1
         else (ws.startNextWave.1.spawnPoints.length : Int)) ∧
      (∀ (e : WaveEntry) (g : RNG) (k : Nat) (job : SpawnJob),
        (entryJobs e ws.startNextWave.1.getActiveSpawnsCount e.count 0 0 g).1[k]? = some job →
          job.spawnIndex = (k : Int) % ws.startNextWave.1.getActiveSpawnsCount) ∧
      (∀ job ∈ ws.startNextWave.1.queue,
        0 ≤ job.spawnIndex ∧ job.spawnIndex < ws.startNextWave.1.getActiveSpawnsCount) ∧
      (∀ (dts : List ℚ),
        (ws.startNextWave.1.updates dts).getActiveSpawnsCount
            = ws.startNextWave.1.getActiveSpawnsCount ∧
          ∀ job ∈ (ws.startNextWave.1.updates dts).queue,
            min job.spawnIndex ((ws.startNextWave.1.updates dts).getActiveSpawnsCount - 1)
              = job.spawnIndex) := by
  obtain ⟨d, hd, heq⟩ := startNextWave_true ws h
  have hsp' : ws.startNextWave.1.spawnPoints ≠ [] := by rw [heq]; exact hsp
  have hn := getActiveSpawnsCount_eq ws.startNextWave.1 hsp'
  have hpos : 1 ≤ ws.startNextWave.1.getActiveSpawnsCount := by
    rw [hn]
    have : 1 ≤ ws.startNextWave.1.spawnPoints.length := by
      cases hs : ws.startNextWave.1.spawnPoints with
      | nil => exact absurd hs hsp'
      | cons a l => simp
    split_ifs <;> omega
  have hmax : max 1 ws.startNextWave.1.getActiveSpawnsCount
      = ws.startNextWave.1.getActiveSpawnsCount := max_eq_right hpos
  have hq : ∀ job ∈ ws.startNextWave.1.queue,
      0 ≤ job.spawnIndex ∧ job.spawnIndex < ws.startNextWave.1.getActiveSpawnsCount := by
    intro job hj
    have hcount : ws.startNextWave.1.getActiveSpawnsCount
        = ({ ws with waveNumber := ws.waveIndex + 1 + 1 }).getActiveSpawnsCount := by
      rw [heq]; rfl
    have hq : job ∈ (waveJobs
        ({ ws with waveNumber := ws.waveIndex + 1 + 1 }).getActiveSpawnsCount d.entries
        ws.rng).1 := by
      have : job ∈ sortJobs (waveJobs
          ({ ws with waveNumber := ws.waveIndex + 1 + 1 }).getActiveSpawnsCount d.entries
          ws.rng).1 := by
        rw [heq] at hj; exact hj
      exact (sortJobs_perm _).mem_iff.1 this
    obtain ⟨h1, h2⟩ := waveJobs_spawnIndex_lt _ _ _ job hq
    rw [← hcount, hmax] at h2
    exact ⟨h1, h2⟩
  refine ⟨hn, ?_, hq, ?_⟩
  · intro e g k job hk
    have := entryJobs_spawnIndex e _ e.count 0 0 g k job hk
    rw [this, hmax]
    simp
  · intro dts
    obtain ⟨h1, h2⟩ := updates_count_queue dts ws.startNextWave.1
    refine ⟨h1, ?_⟩
    intro job hj
    have := hq job (h2 job hj)
    rw [h1]
    omega

/-- Witness for C23: wave 1 of the wave system with three active spawn points
has `n = 3`, its jobs get the indices `k mod 3`, and after two updates of one
second the clamp changes no queued job. -/
theorem C23_spawn_assignment_witness :
    multiSpawnWaves.startNextWave.1.getActiveSpawnsCount = 3 ∧
      (∀ (k : Nat) (job : SpawnJob),
        (entryJobs ⟨"basic", 10, 6 / 10⟩ multiSpawnWaves.startNextWave.1.getActiveSpawnsCount
            10 0 0 ⟨0⟩).1[k]? = some job →
          job.spawnIndex = (k : Int) % multiSpawnWaves.startNextWave.1.getActiveSpawnsCount) ∧
      ∀ job ∈ (multiSpawnWaves.startNextWave.1.updates [1, 1]).queue,
        min job.spawnIndex ((multiSpawnWaves.startNextWave.1.updates [1, 1]).getActiveSpawnsCount
          - 1) = job.spawnIndex :=
  let h := C23_spawn_assignment multiSpawnWaves
    (by show [Grid.new.spawn] ++ [⟨0, 5⟩] ++ [⟨0, 9⟩] ≠ []; simp) multiSpawnWaves_start
  ⟨multiSpawnWaves_count, fun k job hk => h.2.1 ⟨"basic", 10, 6 / 10⟩ ⟨0⟩ k job hk,
    (h.2.2.2 [1, 1]).2⟩

/-- C24: on an active `WaveSystem` whose queue is sorted by fire time, and for
`dt >= 0`, `update(dt)` advances the clock by `dt`, removes from the queue
exactly the jobs with fire time at most the new clock and keeps the others in
order, pushes one creep per removed job in queue order (nondecreasing fire
time), and stays active exactly when the queue is still non-empty; on an
inactive `WaveSystem` it changes nothing. -/
theorem C24_update_drains_due_jobs (ws : WaveSystem) (dt : ℚ) (ha : ws.active = true)
    (hs : ws.queue.Sorted jobLe) (_hdt : 0 ≤ dt) :
    (ws.update dt).1.spawnTimer = ws.spawnTimer + dt ∧
      (ws.update dt).1.queue
        = ws.queue.filter (fun j => decide (¬ j.fireAt ≤ ws.spawnTimer + dt)) ∧
      (ws.update dt).2
        = (ws.queue.filter (fun j => decide (j.fireAt ≤ ws.spawnTimer + dt))).map ws.spawnCreep ∧
      (ws.queue.filter (fun j => decide (j.fireAt ≤ ws.spawnTimer + dt))).Sorted jobLe ∧
      ((ws.update dt).1.active = true ↔ (ws.update dt).1.queue ≠ []) ∧
      (∀ ws' : WaveSystem, ws'.active = false → ws'.update dt = (ws', [])) := by
  obtain ⟨h1, h2⟩ := drain_sorted ws (ws.spawnTimer + dt) ws.queue hs
  have hu : ws.update dt =
      ({ ws with
          spawnTimer := ws.spawnTimer + dt
          queue := (ws.drain (ws.spawnTimer + dt) ws.queue).1
          active := if (ws.drain (ws.spawnTimer + dt) ws.queue).1.length = 0 then false
            else true },
        (ws.drain (ws.spawnTimer + dt) ws.queue).2) := by
    unfold WaveSystem.update
    rw [ha]
    simp
  rw [hu]
  refine ⟨rfl, h1, h2, hs.sublist (List.filter_sublist _), ?_, ?_⟩
  · show (if (ws.drain (ws.spawnTimer + dt) ws.queue).1.length = 0 then false else true) = true
      ↔ (ws.drain (ws.spawnTimer + dt) ws.queue).1 ≠ []
    split_ifs with h3
    · simp [List.length_eq_zero.1 h3]
    · simp only [true_iff]
      intro h4; rw [h4] at h3; simp at h3
  · intro ws' h'
    unfold WaveSystem.update
    simp [h']

/-- Witness for C24: the first default wave, updated by one second. -/
theorem C24_update_drains_due_jobs_witness :
    (sampleWaves.startNextWave.1.update 1).1.spawnTimer
      = sampleWaves.startNextWave.1.spawnTimer + 1 :=
  (C24_update_drains_due_jobs sampleWaves.startNextWave.1 1
    (startNextWave_sorted_active sampleWaves sampleWaves_start).2
    (startNextWave_sorted_active sampleWaves sampleWaves_start).1
    (by norm_num)).1

/-- C26: in every reachable state, in which `N = waveNumber` waves have been
started, the creep spawned for a job has `maxHP = hp = presetHP * 1.15^N`, base
speed `presetSpeed * 1.03^N` tiles per second (times `TILE` in pixels) and the
preset bounty, with the presets basic (2.2, 28, 3), fast (3.2, 16, 2),
tank (1.6, 60, 4) and an unknown type treated as basic; and every creep that
`update` pushes is the creep spawned for one of the queued jobs. -/
theorem C26_spawned_creep_stats (ws : WaveSystem) (h : WaveSystem.Reachable ws)
    (job : SpawnJob) :
    (ws.spawnCreep job).maxHP
        = (specPreset job.type).2.1 * (115 / 100) ^ ws.waveNumber.toNat ∧
      (ws.spawnCreep job).hp = (ws.spawnCreep job).maxHP ∧
      (ws.spawnCreep job).baseSpeed
        = (specPreset job.type).1 * (103 / 100) ^ ws.waveNumber.toNat * TILE ∧
      (ws.spawnCreep job).bounty = some (specPreset job.type).2.2 ∧
      (∀ (dt : ℚ) (c : Creep), c ∈ (ws.update dt).2 → ∃ j ∈ ws.queue, c = ws.spawnCreep j) ∧
      specPreset "basic" = (22 / 10, 28, 3) ∧ specPreset "fast" = (32 / 10, 16, 2) ∧
      specPreset "tank" = (16 / 10, 60, 4) ∧ specPreset "other" = (22 / 10, 28, 3) := by
  have hi := scaleInv_of_reachable ws h
  have hpos : (0 : ℚ) ≤ ws.spdScale := by rw [hi.spdScale_eq]; positivity
  obtain ⟨h1, h2, h3, h4⟩ := makeCreep_stats job.type
    (pathAlignedToSpawn ws.mainPath
      (if 0 ≤ min job.spawnIndex (ws.getActiveSpawnsCount - 1) then
        (ws.spawnPrefixes[(min job.spawnIndex (ws.getActiveSpawnsCount - 1)).toNat]?).getD []
       else [])
      (if 0 ≤ min job.spawnIndex (ws.getActiveSpawnsCount - 1) then
        (ws.spawnPoints[(min job.spawnIndex (ws.getActiveSpawnsCount - 1)).toNat]?).getD
          (ws.spawnPoints.headD ⟨0, 0⟩)
       else ws.spawnPoints.headD ⟨0, 0⟩))
    ws.hpScale ws.spdScale hpos
  refine ⟨?_, ?_, ?_, h4, ?_, specPreset_values⟩
  · rw [← hi.hpScale_eq]; exact h1
  · exact h2.trans h1.symm
  · rw [← hi.spdScale_eq]; exact h3
  · intro dt c hc
    unfold WaveSystem.update at hc
    cases ha : ws.active with
    | false => rw [ha] at hc; simp at hc
    | true =>
      rw [ha] at hc
      simp only [Bool.not_true, Bool.false_eq_true, if_false] at hc
      exact mem_drain ws _ _ c hc

/-- Witness for C26: a `tank` job on the wave system after the first default
wave was started. -/
theorem C26_spawned_creep_stats_witness :
    (sampleWaves.startNextWave.1.spawnCreep ⟨0, "tank", 0⟩).bounty = some 4 :=
  (C26_spawned_creep_stats sampleWaves.startNextWave.1
    (WaveSystem.Reachable.startNextWave _
      (WaveSystem.Reachable.queueDefaultSet _ (WaveSystem.Reachable.new Grid.new ⟨0⟩)))
    ⟨0, "tank", 0⟩).2.2.2.1

/-- C25: `_pathAlignedToSpawn` on a non-empty main path. With a non-empty
feeder prefix whose last tile `merge` occurs in the main path (first at index
`mi = main.indexOf merge`), the result is the prefix followed by
`main[mi+1..]`, so the merge tile is not repeated at the junction. Without a
feeder the result is the suffix of the main path from the first occurrence of
the spawn tile, or, when the spawn is not on the path, from the first tile of
minimal Manhattan distance to the spawn. -/
theorem C25_pathAlignedToSpawn (main pre : List Tile) (spawn : Tile) (hmain : main ≠ []) :
    (∀ merge, pre.getLast? = some merge → merge ∈ main →
        pathAlignedToSpawn main pre spawn = pre ++ main.drop (main.indexOf merge + 1)) ∧
    (pre = [] → spawn ∈ main →
        pathAlignedToSpawn main pre spawn = main.drop (main.indexOf spawn) ∧
        main[main.indexOf spawn]? = some spawn ∧
        ∀ j, j < main.indexOf spawn → main[j]? ≠ some spawn) ∧
    (pre = [] → spawn ∉ main →
        ∃ k, k < main.length ∧ pathAlignedToSpawn main pre spawn = main.drop k ∧
          (∀ j, j < main.length →
            manhattanInt (main.getD k ⟨0, 0⟩) spawn ≤ manhattanInt (main.getD j ⟨0, 0⟩) spawn) ∧
          (∀ j, j < k →
            manhattanInt (main.getD k ⟨0, 0⟩) spawn < manhattanInt (main.getD j ⟨0, 0⟩) spawn)) := by
  have hlen : ¬ main.length = 0 := by
    intro h; exact hmain (List.length_eq_zero.1 h)
  refine ⟨?_, ?_, ?_⟩
  · intro merge hlast hmem
    have hi : main.indexOf merge < main.length := List.indexOf_lt_length.2 hmem
    simp only [pathAlignedToSpawn, if_neg hlen, hlast, firstIndexOf, if_pos hi, Option.getD_some]
  · intro hpre hmem
    have hi : main.indexOf spawn < main.length := List.indexOf_lt_length.2 hmem
    subst hpre
    refine ⟨?_, ?_, ?_⟩
    · simp only [pathAlignedToSpawn, if_neg hlen, List.getLast?_nil, firstIndexOf, if_pos hi]
    · rw [List.getElem?_eq_getElem hi]
      exact congrArg some (List.indexOf_get hi)
    · intro j hj h
      have := indexOf_le_of_getElem? main spawn j h
      omega
  · intro hpre hmem
    have hi : ¬ main.indexOf spawn < main.length := fun h => hmem (List.indexOf_lt_length.1 h)
    subst hpre
    refine ⟨nearestLoop spawn main 0 none 0, (nearestLoop_start spawn main hmain).1, ?_,
      (nearestLoop_start spawn main hmain).2⟩
    simp only [pathAlignedToSpawn, if_neg hlen, List.getLast?_nil, firstIndexOf, if_neg hi]

/-- Witness for C25: a three-tile main path, once with a feeder ending on its
second tile and once without a feeder. -/
theorem C25_pathAlignedToSpawn_witness :
    ([⟨0, 0⟩, ⟨1, 0⟩, ⟨2, 0⟩] : List Tile) ≠ [] ∧
    pathAlignedToSpawn [⟨0, 0⟩, ⟨1, 0⟩, ⟨2, 0⟩] [⟨1, 2⟩, ⟨1, 1⟩, ⟨1, 0⟩] ⟨1, 2⟩
      = [⟨1, 2⟩, ⟨1, 1⟩, ⟨1, 0⟩, ⟨2, 0⟩] :=
  ⟨by decide,
   ((C25_pathAlignedToSpawn [⟨0, 0⟩, ⟨1, 0⟩, ⟨2, 0⟩] [⟨1, 2⟩, ⟨1, 1⟩, ⟨1, 0⟩] ⟨1, 2⟩
      (by decide)).1 ⟨1, 0⟩ rfl (by decide)).trans (by decide)⟩

/-- C16: for a non-empty path whose consecutive tiles are 4-adjacent, the
waypoints built by the `Creep` constructor are the centre of the first tile,
the centres of the interior tiles where the step direction changes, and the
centre of the last tile. They start at the first centre, end at the last
centre, form a subsequence of the tile centres, every segment between
consecutive waypoints has an axis unit direction, and consecutive segments
have different directions. -/
theorem C16_waypoints_are_corners (path : List Tile) (hne : path ≠ [])
    (hconn : path.Chain' adjacent4) :
    waypointsOf path = cornerWaypoints path ∧
      (waypointsOf path).head? = path.head?.map tileCentre ∧
      (waypointsOf path).getLast? = path.getLast?.map tileCentre ∧
      (waypointsOf path).Sublist (path.map tileCentre) ∧
      (∀ d ∈ segmentDirs (waypointsOf path), IsAxisDir d) ∧
      (segmentDirs (waypointsOf path)).Chain' (fun d e => d ≠ e) := by
  cases path with
  | nil => exact absurd rfl hne
  | cons p0 rest =>
    have hw := waypointsOf_connected p0 rest hconn
    cases rest with
    | nil =>
      rw [hw]
      refine ⟨rfl, rfl, rfl, List.Sublist.refl _, ?_, ?_⟩
      · intro d hd
        simp [segmentDirs, compressLoop] at hd
      · simp [segmentDirs, compressLoop]
    | cons b rest =>
      obtain ⟨e1, ds, e2, e3, e4⟩ := compressLoop_connected p0 b rest (tileCentre p0) hconn
        (unitAxis_centres p0 b (List.chain_cons.1 hconn).1)
      rw [hw]
      refine ⟨?_, rfl, ?_, ?_, ?_, ?_⟩
      · rw [e1]; rfl
      · rw [e1]
        obtain ⟨x, xs, hx⟩ := List.exists_cons_of_ne_nil (cornersFrom_ne_nil p0 b rest)
        rw [hx, List.map_cons, List.getLast?_cons_cons, ← List.map_cons, ← hx,
          List.getLast?_map, cornersFrom_getLast?, List.getLast?_cons_cons]
      · rw [e1, List.map_cons]
        exact ((cornersFrom_sublist p0 (b :: rest)).map tileCentre).cons₂ _
      · rw [e2]
        intro d hd
        rcases List.mem_cons.1 hd with hd | hd
        · rw [hd]; exact isAxisDir_stepDir p0 b (List.chain_cons.1 hconn).1
        · exact e4 d hd
      · rw [e2]
        exact e3

/-- Witness for C16: the path (0,0), (1,0), (2,0), (2,1) with one corner at
(2,0). -/
theorem C16_waypoints_are_corners_witness :
    ([⟨0, 0⟩, ⟨1, 0⟩, ⟨2, 0⟩, ⟨2, 1⟩] : List Tile).Chain' adjacent4 ∧
      waypointsOf [⟨0, 0⟩, ⟨1, 0⟩, ⟨2, 0⟩, ⟨2, 1⟩]
        = [tileCentre ⟨0, 0⟩, tileCentre ⟨2, 0⟩, tileCentre ⟨2, 1⟩] :=
  ⟨by simp [adjacent4],
   (C16_waypoints_are_corners [⟨0, 0⟩, ⟨1, 0⟩, ⟨2, 0⟩, ⟨2, 1⟩] (by decide)
     (by simp [adjacent4])).1.trans (by simp [cornerWaypoints, cornersFrom, stepDir])⟩

/-- C12: the loops of `generateGrid` are bounded, for every input. The
column sweep from its start `3 + int(3)` ends within `COLS` iterations (more
fuel gives the same columns); every `carveSegment` walk and every re-walk of
`sanitizePath` or `simpleSegment` from `a` to `b` ends on `b` within
`manhattan a b` steps; the row de-duplication stops when its retry counter is
used up; the feeder BFS from an allowed start ends within `COLS * ROWS + 1`
iterations, and a path it returns was reconstructed back to `start`. So the
grid of every seed is produced, with `COLS * ROWS` cells. -/
theorem C12_generation_terminates :
    (∀ (g : RNG) (extra : Nat),
        columnsLoop (COLS.toNat + extra) (3 + (g.int1 3).1) (g.int1 3).2
          = columnsLoop COLS.toNat (3 + (g.int1 3).1) (g.int1 3).2) ∧
      (∀ (horizFirst : Bool) (a b : Tile) (extra : Nat),
        carveWalk horizFirst b (manhattan a b + extra) a
            = carveWalk horizFirst b (manhattan a b) a ∧
          (a :: carveWalk horizFirst b (manhattan a b) a).getLast? = some b) ∧
      (∀ (a b : Tile) (extra : Nat),
        walkTo b (manhattan a b + extra) a = walkTo b (manhattan a b) a ∧
          (a :: walkTo b (manhattan a b) a).getLast? = some b) ∧
      (∀ (usedRows : List Int) (jr : Int) (g : RNG), dedupRow usedRows 0 jr g = (jr, g)) ∧
      (∀ (start goal : Tile) (blocked : List Tile), allow goal blocked start.c start.r = true →
        ∃ r, bfsLoop goal blocked ((COLS * ROWS).toNat + 1)
              { q := [start], seen := [start], prev := [] } = some r ∧
          bfsManhattanAvoiding start goal blocked = r ∧
          ∀ f, r = some f → f.head? = some start) ∧
      (∀ seed : String, (generateGrid seed).cells.length = (COLS * ROWS).toNat) := by
  refine ⟨?_, ?_, ?_, ?_, ?_, ?_⟩
  · intro g extra
    have h3 := int1_nonneg g 3
    exact columnsLoop_fuel COLS.toNat _ _ (by simp only [COLS]; omega) extra
  · intro hf a b extra
    exact ⟨(carveWalk_fuel hf b _ a (Nat.le_add_right _ _)).1,
      (carveWalk_fuel hf b _ a (Nat.le_refl _)).2⟩
  · intro a b extra
    exact ⟨(walkTo_fuel b _ a (Nat.le_add_right _ _)).1, (walkTo_fuel b _ a (Nat.le_refl _)).2⟩
  · intro usedRows jr g
    rfl
  · intro start goal blocked ha
    exact bfsManhattanAvoiding_terminates start goal blocked ha
  · intro seed
    exact generateGridFrom_cells_length _

/-- C36 (evaluation at the failing input `new RNG("seed")`): after three draws
the state is at least `2^32`, and so it is from every initial state; the sum
for the 4917760th draw, 9007201224143469, is not a double and is stored as
9007201224143468, and the value drawn has the numerator 1129468715, where
mulberry32 on the 32-bit state gives 2843889544. -/
theorem C36_state_leaves_32_bits :
    2 ^ 32 ≤ ((RNG.ofSeed "seed").after 3).state ∧
      (∀ g : RNG, 2 ^ 32 ≤ (g.after 3).state) ∧
      (RNG.ofSeed "seed").state + 4917760 * 0x6D2B79F5 = 9007201224143469 ∧
      ((RNG.ofSeed "seed").after 4917760).state = 9007201224143468 ∧
      ((RNG.ofSeed "seed").after 4917759).mulberry32.1 = 1129468715 ∧
      (RNG.mk (((RNG.ofSeed "seed").state + 4917759 * 0x6D2B79F5) % 2 ^ 32)).mulberry32.1
        = 2843889544 := by
  refine ⟨after_three_ge _, after_three_ge, ?_, seed_after_60, ?_, ?_⟩
  · rw [seed_state]
  · rw [seed_after_59]
    decide!
  · rw [seed_state]
    decide!

/-- C33, counterexample: of the `2^32` equally likely draws, 143165577 give
row 1 and 71582788 give row 2, so row 1 is about twice as likely as row 2. -/
theorem C33_rows_not_equally_likely :
    (rowEvent 1).card = 143165577 ∧ (rowEvent 2).card = 71582788 := by
  refine ⟨?_, ?_⟩
  · rw [rowEvent_first, Finset.card_range]
  · rw [show (2 : Int) = ((2 : Nat) : Int) from rfl, rowEvent_inner 2 (by omega) (by omega),
      Nat.card_Ico]
    norm_num

/-- C33, amended: the spawn row and the base row of `generateCanonicalLR` are
`rowOfDraw` of the first and second draw; a row is always in `[1, ROWS-2]`;
over the `2^32` draws each clamped row 1 and `ROWS-2` is chosen by 143165577
and 143165576 draws, and each row from 2 to `ROWS-3` by 71582788 or 71582789
draws. -/
theorem C33_row_distribution (g : RNG) :
    (canonRoute g).spawn.r = rowOfDraw g.mulberry32.1 ∧
      (canonRoute g).base.r = rowOfDraw g.mulberry32.2.mulberry32.1 ∧
      (∀ u, 1 ≤ rowOfDraw u ∧ rowOfDraw u ≤ ROWS - 2) ∧
      (rowEvent 1).card = 143165577 ∧ (rowEvent (ROWS - 2)).card = 143165576 ∧
      ∀ k : Nat, 2 ≤ k → k ≤ 57 →
        (rowEvent (k : Int)).card = 71582788 ∨ (rowEvent (k : Int)).card = 71582789 := by
  refine ⟨?_, ?_, rowOfDraw_bounds, ?_, ?_, ?_⟩
  · rw [(canonRoute_rows g).1]
  · rw [(canonRoute_rows g).2]
  · rw [rowEvent_first, Finset.card_range]
  · rw [show ROWS - 2 = (58 : Int) from rfl, rowEvent_last, Nat.card_Ico]
    norm_num
  · intro k h2 h57
    rw [rowEvent_inner k h2 h57, Nat.card_Ico]
    omega

/-- C35: for a living creep with `slow.time > 0` and `dt >= 0`, `update(dt)`
leaves `slow.time = max(0, slow.time - dt)` and `slow.pct = 0` if
`slow.time - dt <= 0` and the old `slow.pct` otherwise; and the distance budget
that the movement loop of the same call receives is
`baseSpeed * max(0.05, 1 - pct) * dt` with that new `pct`. -/
theorem C35_slow_expiry (hypot : ℚ → ℚ → ℚ) (c : Creep) (dt : ℚ) (ha : c.alive = true)
    (hs : c.slowTime > 0) (_hdt : 0 ≤ dt) :
    (c.update hypot dt).1.slowTime = max 0 (c.slowTime - dt) ∧
      (c.update hypot dt).1.slowPct = (if c.slowTime - dt ≤ 0 then 0 else c.slowPct) ∧
      c.update hypot dt =
        (if c.idx ≥ c.points.length then (c.tickSlow dt, true)
         else
          match moveLoop hypot (c.points.length + 1) (c.tickSlow dt)
              (c.baseSpeed * max (1 / 20) (1 - if c.slowTime - dt ≤ 0 then 0 else c.slowPct)
                * dt) with
          | (c1, LoopExit.returned) => (c1, true)
          | (c1, LoopExit.fell) =>
            if c1.idx ≥ c1.points.length then
              ({ c1 with x := (c1.points.getLast?.getD ⟨c1.x, c1.y⟩).x,
                         y := (c1.points.getLast?.getD ⟨c1.x, c1.y⟩).y }, true)
            else (c1, false)) := by
  have hk := update_keeps hypot c dt ha
  obtain ⟨h1, h2⟩ := tickSlow_slot c dt hs
  refine ⟨hk.slowTime.trans h1, hk.slowPct.trans h2, ?_⟩
  obtain ⟨f1, _, f3, f4, _⟩ := tickSlow_fields c dt
  have hspeed : (c.tickSlow dt).currentSpeed
      = c.baseSpeed * max (1 / 20) (1 - if c.slowTime - dt ≤ 0 then 0 else c.slowPct) := by
    unfold Creep.currentSpeed
    rw [f3, h2]
  unfold Creep.update
  rw [ha, hspeed, f1, f4]
  simp only [Bool.not_true, Bool.false_eq_true, if_false]

/-- Witness for C35: a living creep with the slot (1/2, 1) updated by two
seconds, after which the slot is (0, 0). -/
theorem C35_slow_expiry_witness :
    (({ cornerCreep with slowPct := 1 / 2, slowTime := 1 } : Creep).update
        (fun dx dy => |dx| + |dy|) 2).1.slowTime = max 0 (1 - 2) :=
  (C35_slow_expiry (fun dx dy => |dx| + |dy|) { cornerCreep with slowPct := 1 / 2, slowTime := 1 }
    2 rfl (by show (1 : ℚ) > 0; norm_num) (by norm_num)).1

/-- C34: for a wave entry with `interval >= 0`, the job created at index `k`
of the entry has a fire time that is not negative and differs from the nominal
time `k * interval` by at most `interval / 8`, hence by at most
`0.2 * interval` and by at most 25% of `interval`. -/
theorem C34_jitter_bounds (e : WaveEntry) (hi : 0 ≤ e.interval) (activeSpawns : Int) (g : RNG)
    (k : Nat) (job : SpawnJob)
    (h : (entryJobs e activeSpawns e.count 0 0 g).1[k]? = some job) :
    0 ≤ job.fireAt ∧ |job.fireAt - k * e.interval| ≤ e.interval / 8 ∧
      |job.fireAt - k * e.interval| ≤ 2 / 10 * e.interval ∧
      |job.fireAt - k * e.interval| ≤ 25 / 100 * e.interval := by
  obtain ⟨h1, h2⟩ := entryJobs_fireAt e hi activeSpawns e.count 0 0 (le_refl 0) g k job h
  rw [zero_add] at h2
  exact ⟨h1, h2, by linarith, by linarith⟩

/-- Witness for C34: the first job of the entry `basic x 10 every 0.6 s`. -/
theorem C34_jitter_bounds_witness :
    ∃ job, (entryJobs ⟨"basic", 10, 6 / 10⟩ 1 10 0 0 ⟨0⟩).1[0]? = some job ∧ 0 ≤ job.fireAt :=
  ⟨_, rfl, (C34_jitter_bounds ⟨"basic", 10, 6 / 10⟩ (by norm_num) 1 ⟨0⟩ 0 _ rfl).1⟩

/-- C32: for a tower that can fire and any creep list, `updateCombat` fires at
a target if and only if some living creep is within the tower's range; the
target is then a living in-range creep of the list that is at least as good as
every living in-range creep in the order lowest hp, then highest `pathIndex`,
then smallest distance to the tower, and the tower's cooldown is reset. -/
theorem C32_target_selection (t : Tower) (creeps : List Creep) (hcan : t.canFire = true) :
    ((towerFire t creeps).2.isSome = true ↔ ∃ c ∈ creeps, c.alive = true ∧ inRange t c) ∧
      ∀ b, (towerFire t creeps).2 = some b →
        b ∈ creeps ∧ b.alive = true ∧ inRange t b ∧
          (∀ c ∈ creeps, c.alive = true → inRange t c → prefers t b c) ∧
          (towerFire t creeps).1 = t.fire := by
  obtain ⟨h1, h2⟩ := pickTarget_spec t creeps
  unfold towerFire
  rw [hcan]
  simp only [Bool.not_true, Bool.false_eq_true, if_false]
  cases hp : pickTarget t creeps with
  | none =>
    rw [hp] at h1
    exact ⟨h1, by simp⟩
  | some b =>
    rw [hp] at h1
    refine ⟨h1, ?_⟩
    intro b2 hb2
    simp only [Option.some.injEq] at hb2
    subst hb2
    obtain ⟨e1, e2, e3, e4⟩ := h2 b hp
    exact ⟨e1, e2, e3, e4, rfl⟩

/-- Witness for C32: a tower at the origin with range 100 and one creep at the
origin. -/
theorem C32_target_selection_witness :
    (towerFire ⟨0, 0, 100, 0, 1⟩ [{ cornerCreep with hp := 5 }]).2.isSome = true ↔
      ∃ c ∈ [{ cornerCreep with hp := 5 }], c.alive = true ∧ inRange ⟨0, 0, 100, 0, 1⟩ c :=
  (C32_target_selection ⟨0, 0, 100, 0, 1⟩ [{ cornerCreep with hp := 5 }]
    (by show decide ((0 : ℚ) ≤ 0) = true; simp)).1

/-- C31: `bfsManhattanAvoiding` returns a non-null result if and only if a
route exists from `start` to `goal` (4-connected, in bounds, every tile other
than the goal unblocked); and a non-null result is such a route: it begins at
`start`, ends at `goal`, consecutive tiles are 4-adjacent, and every tile on it
is in bounds and, unless it is the goal, unblocked. -/
theorem C31_bfs_finds_route_iff (start goal : Tile) (blocked : List Tile) :
    ((bfsManhattanAvoiding start goal blocked).isSome = true ↔
        ∃ route, IsRoute start goal blocked route) ∧
      ∀ f, bfsManhattanAvoiding start goal blocked = some f → IsRoute start goal blocked f := by
  refine ⟨⟨?_, ?_⟩, fun f hf => (bfs_sound start goal blocked f hf).1⟩
  · intro h
    obtain ⟨f, hf⟩ := Option.isSome_iff_exists.1 h
    exact ⟨f, (bfs_sound start goal blocked f hf).1⟩
  · rintro ⟨route, hr⟩
    exact bfs_complete start goal blocked route hr

/-- C37: for a merge tile on the path and a start tile other than the merge
tile, the BFS under `buildBufferMaskFromPath(path, merge)` returns null, since
the mask holds every in-bounds 4-neighbour of the merge tile; the feeder is
then the `simpleSegment` fallback. -/
theorem C37_mask_defeats_bfs (path : List Tile) (merge start : Tile) (hm : merge ∈ path)
    (hne : start ≠ merge) :
    bfsManhattanAvoiding start merge (buildBufferMaskFromPath path merge) = none ∧
      (∀ n, adjacent4 n merge → inb n.c n.r = true → n ∈ buildBufferMaskFromPath path merge) ∧
      feederPath start merge (buildBufferMaskFromPath path merge) = simpleSegment start merge := by
  have hmask : ∀ n, adjacent4 n merge → inb n.c n.r = true →
      n ∈ buildBufferMaskFromPath path merge := by
    intro n hadj hin
    apply mask_blocks_neighbours path merge merge n hm hadj hin
    intro e
    rw [e] at hadj
    unfold adjacent4 at hadj
    omega
  have hnone := bfs_under_mask path merge start hm hne
  refine ⟨hnone, hmask, ?_⟩
  unfold feederPath
  rw [hnone]

/-- Witness for C37: the one-tile path (5,5) with merge (5,5) and start (0,0). -/
theorem C37_mask_defeats_bfs_witness :
    bfsManhattanAvoiding ⟨0, 0⟩ ⟨5, 5⟩ (buildBufferMaskFromPath [⟨5, 5⟩] ⟨5, 5⟩) = none :=
  (C37_mask_defeats_bfs [⟨5, 5⟩] ⟨5, 5⟩ ⟨0, 0⟩ (by decide) (by decide)).1

/-- C39 (evaluation at the failing input): the creep `new Creep([(0,0),(1,0),(1,1)],
319995/320000, 1)` is, after `update(1)`, at (47.9995, 16) heading for
(48, 48): it counted as arrived at the corner (48, 16) within the tolerance
0.001 and was not moved onto it. It is alive, has not reached its final
waypoint and stands on the polyline. The next `update(0.5)` moves it straight
towards (48, 48), to a point with `x < 48` and `y > 16`, which is on neither
segment. `hypot` is any function with `hypot(32, 0) = 32` and
`hypot(0.0005, 32) >= 32`, as `Math.hypot` is. -/
theorem C39_creep_leaves_polyline :
    slideCreep.alive = true ∧ slideCreep.idx < slideCreep.points.length ∧
      onPolyline slideCreep.points slideCreep.x slideCreep.y ∧
      ∀ hypot : ℚ → ℚ → ℚ,
        (hypot 32 0 = 32 →
          ((Creep.new [⟨0, 0⟩, ⟨1, 0⟩, ⟨1, 1⟩] (319995 / 320000) 1).update hypot 1).1
            = slideCreep) ∧
        (32 ≤ hypot (1 / 2000) 32 →
          ¬ onPolyline slideCreep.points (slideCreep.update hypot (1 / 2)).1.x
            (slideCreep.update hypot (1 / 2)).1.y) := by
  refine ⟨rfl, by decide, ?_, fun hypot => ⟨slideCreep_reached hypot, slideCreep_slides hypot⟩⟩
  refine ⟨(⟨16, 16⟩, ⟨48, 16⟩), by simp [slideCreep], Or.inr ?_⟩
  norm_num [slideCreep]

/-- C38: for every seed, in the canonical grid built by `generateCanonicalLR`
and in the trimmed grid that `generateGrid` hands to `orientGrid`, every tile
of the main path, every spawn, every tile of every feeder prefix, the spawn
and the base satisfy `0 <= c <= COLS-1` and `1 <= r <= ROWS-2`; such a tile is
in bounds of the grid, so every canonical stamp writes a valid cell. -/
theorem C38_canonical_tiles_in_box (seed : String) :
    CanonInBox (generateCanonicalLR (RNG.ofSeed seed)).1 ∧
      CanonInBox (trimCanon (generateCanonicalLR (RNG.ofSeed seed)).1) ∧
      generateGrid seed = orientGrid (trimCanon (generateCanonicalLR (RNG.ofSeed seed)).1)
        ((generateCanonicalLR (RNG.ofSeed seed)).2.int1 4).1 ∧
      ∀ t, InBox t → Grid.inBounds t.c t.r = true ∧ t.r ≠ 0 ∧ t.r ≠ ROWS - 1 :=
  ⟨generateCanonicalLR_inBox _, trimCanon_inBox _ (generateCanonicalLR_inBox _), rfl,
    fun t h => ⟨inBounds_of_inBox t h, by
      obtain ⟨_, _, h3, h4⟩ := h
      simp only [ROWS] at *
      omega⟩⟩

end TowerD
